import Mathlib

/-!
The versioned application store of simple-apiserver

A shallow embedding of `api/application.go`, `api/deepcopy.go`, `api/equal.go`,
`pkg/server.go` (the `Store` methods, `validateApplication`,
`forEachApplication` and the handler `DeleteApplication`) and
`pkg/compact.go`, followed by theorems about them.

Modelling conventions
* A Go `string` is a Lean `String`; `==` is equality and `<` is the
  lexicographic order of the characters (`strLess`), which is the order
  Go's byte-wise comparison induces on UTF-8 text.
* `time.Time` is an abstract instant (`Time`); `time.Now()` is an argument
  `now` of the operation that reads the clock.
* `*time.Time` is `Option Time`, `nil` being `none`.
* A slice is a `List`; the nil slice and the empty slice are both `[]`
  (the code only takes `len`, ranges and indexes, which do not tell them
  apart).
* Go's `int` is the 64-bit two's complement integer of a 64-bit platform:
  a value is an `Int` between `MinInt64` and `MaxInt64`, `lastVersion + 1`
  wraps around (`wrapInt64`), and `strconv.Atoi` answers out-of-range text
  with `MaxInt64` or `MinInt64`.
* The map `db` is an association list with at most the first binding of a
  key visible (`mapGet`, `mapSet`).
* The store's mutex serialises the methods, so each method is a function
  from the store before the call to an outcome and the store after it.
* `*api.Application` values held by the store are never shared with a
  caller (every entry is a `DeepCopy`), so the log holds values; the one
  place where the code writes through a stored pointer (`api.Equal` inside
  `Update`) is modelled by writing the changed record back into the log.
-/

namespace SimpleApiserver

/-! ## api/application.go -/

/-- An instant of `time.Time`. -/
abbrev Time := Nat

/-- The struct `api.Maintainer`. -/
structure Maintainer where
  Name : String
  Email : String
deriving DecidableEq

/-- The struct `api.Application`. -/
structure Application where
  Title : String
  Version : String
  Maintainers : List Maintainer
  Company : String
  Website : String
  Source : String
  License : String
  Description : String
  CreateTimeStamp : Time
  DeleteTimeStamp : Option Time
  ResourceVersion : String
deriving DecidableEq

/-! ## Go's int, strconv.Itoa and strconv.Atoi -/

/-- The constant `math.MaxInt64`, the largest `int`. -/
def MaxInt64 : Int := 9223372036854775807

/-- The constant `math.MinInt64`, the smallest `int`. -/
def MinInt64 : Int := -9223372036854775808

/-- The `int` that Go's arithmetic yields where the exact result is `x`: `x`
itself between `MinInt64` and `MaxInt64`, and wrapped around by multiples of
`2^64` outside. -/
def wrapInt64 (x : Int) : Int :=
  (x + 9223372036854775808) % 18446744073709551616 - 9223372036854775808

/-- The decimal digit character of `d < 10`. -/
def digitChar (d : Nat) : Char := Char.ofNat (48 + d)

/-- Most significant digit first; `fuel` bounds the number of digits. -/
def natDigits : Nat → Nat → List Char → List Char
  | 0, _, acc => acc
  | fuel + 1, n, acc =>
    if n < 10 then digitChar n :: acc
    else natDigits fuel (n / 10) (digitChar (n % 10) :: acc)

/-- The decimal text of a natural number, without leading zeros. -/
def formatNat (n : Nat) : List Char := natDigits (n + 1) n []

/-- The function `strconv.Itoa`: decimal text, with a leading `-` for a negative number. -/
def Itoa (i : Int) : String :=
  match i with
  | Int.ofNat n => String.mk (formatNat n)
  | Int.negSucc n => String.mk ('-' :: formatNat (n + 1))

/-- The value of a decimal digit character. -/
def digitVal (c : Char) : Option Nat :=
  if 48 ≤ c.toNat ∧ c.toNat ≤ 57 then some (c.toNat - 48) else none

/-- How the digit loop of `strconv.ParseUint` ends: with a value, with a
syntax error, or with a range error. -/
inductive Parsed where
  | value (n : Nat)
  | syntaxError
  | rangeError
deriving DecidableEq

/-- The digit loop of `strconv.ParseUint(s, 10, 64)` with `n` read so far: a
character that is no digit is a syntax error; a value that leaves `uint64` is
a range error, reported where it arises (`n >= cutoff` with
`cutoff = MaxUint64/10 + 1`, or `n*10 + d > MaxUint64`). -/
def parseDigits : List Char → Nat → Parsed
  | [], n => Parsed.value n
  | c :: cs, n =>
    match digitVal c with
    | none => Parsed.syntaxError
    | some d =>
      if n ≥ 1844674407370955162 then Parsed.rangeError
      else if n * 10 + d > 18446744073709551615 then Parsed.rangeError
      else parseDigits cs (n * 10 + d)

/-- The function `strconv.ParseUint(s, 10, 64)`: the empty text is a syntax error. -/
def parseUint (cs : List Char) : Parsed :=
  match cs with
  | [] => Parsed.syntaxError
  | _ :: _ => parseDigits cs 0

/-- The value `strconv.ParseInt(s, 10, 0)` returns: an optional sign, then
`ParseUint`; 0 on a syntax error, and `MaxInt64` or `MinInt64` where the
number does not fit an `int`. -/
def parseInt (cs : List Char) : Int :=
  match cs with
  | [] => 0
  | c :: rest =>
    match parseUint (if c = '-' ∨ c = '+' then rest else c :: rest) with
    | Parsed.syntaxError => 0
    | Parsed.rangeError => if c = '-' then MinInt64 else MaxInt64
    | Parsed.value un =>
      if c ≠ '-' ∧ un ≥ 9223372036854775808 then MaxInt64
      else if c = '-' ∧ un > 9223372036854775808 then MinInt64
      else if c = '-' then -(un : Int)
      else (un : Int)

/-- The function `strconv.Atoi` as the store calls it (`lastVersion, _ := strconv.Atoi(..)`):
the error is dropped and the value kept, which is that of `ParseInt(s, 10, 0)`
(the fast path of `Atoi` for short texts computes the same value). -/
def Atoi (s : String) : Int := parseInt s.data

/-! ## api/deepcopy.go -/

/-- The function `api.DeepCopy` on a non-nil record (no call site passes nil): every field
is copied, the maintainers entry by entry into a fresh slice. -/
def DeepCopy (i : Application) : Application :=
  { Title := i.Title
    Version := i.Version
    Company := i.Company
    Website := i.Website
    Source := i.Source
    License := i.License
    Description := i.Description
    CreateTimeStamp := i.CreateTimeStamp
    ResourceVersion := i.ResourceVersion
    DeleteTimeStamp :=
      match i.DeleteTimeStamp with
      | some d => some d
      | none => none
    Maintainers :=
      i.Maintainers.foldl (fun ms each => ms ++ [{ Name := each.Name, Email := each.Email }]) [] }

/-! ## api/equal.go -/

/-- Lexicographic `<` on character sequences, by code point. -/
def ltChars : List Char → List Char → Bool
  | [], [] => false
  | [], _ :: _ => true
  | _ :: _, [] => false
  | a :: as, b :: bs =>
    if a.toNat < b.toNat then true
    else if b.toNat < a.toNat then false
    else ltChars as bs

/-- Go's `<` on strings. -/
def strLess (s t : String) : Bool := ltChars s.data t.data

/-- The `less` closure both `sort.Slice` calls of `Equal` use: by name, and by
e-mail among equal names. -/
def maintainerLess (x y : Maintainer) : Bool :=
  if x.Name = y.Name then strLess x.Email y.Email else strLess x.Name y.Name

/-- Inserts `x` into a list sorted by `less`, after the entries below it. -/
def insertSorted {α : Type} (less : α → α → Bool) (x : α) : List α → List α
  | [] => [x]
  | y :: ys => if less y x then y :: insertSorted less x ys else x :: y :: ys

/-- The call `sort.Slice(s, less)`: the slice sorted in place, returned as the new
contents. With `maintainerLess` two entries that compare equal are the same
value, so every sorting algorithm yields this list. -/
def sortSlice {α : Type} (less : α → α → Bool) : List α → List α
  | [] => []
  | x :: xs => insertSorted less x (sortSlice less xs)

/-- The final loop of `Equal`, over two slices of the same length: false at
the first index where name or e-mail differ. -/
def sameEntries : List Maintainer → List Maintainer → Bool
  | x :: xs, y :: ys =>
    if x.Name ≠ y.Name ∨ x.Email ≠ y.Email then false else sameEntries xs ys
  | _, _ => true

/-- The function `api.Equal(a, b)`: the returned boolean, then the records `a` and `b`
point to after the call (`sort.Slice` sorts `a.Maintainers` and
`b.Maintainers` in place). -/
def Equal (a b : Application) : Bool × Application × Application :=
  if a.Title = b.Title ∧ a.Version = b.Version ∧ a.Company = b.Company ∧
      a.Website = b.Website ∧ a.Source = b.Source ∧ a.License = b.License ∧
      a.Description = b.Description then
    if a.Maintainers.length ≠ b.Maintainers.length then (false, a, b)
    else if a.Maintainers.length = 0 then (true, a, b)
    else
      let a1 := { a with Maintainers := sortSlice maintainerLess a.Maintainers }
      let b1 := { b with Maintainers := sortSlice maintainerLess b.Maintainers }
      (sameEntries a1.Maintainers b1.Maintainers, a1, b1)
  else (false, a, b)

/-! ## pkg/server.go: the store -/

/-- Lookup in a Go map: `v, ok := m[k]`. -/
def mapGet {β : Type} (m : List (String × β)) (k : String) : Option β :=
  match m with
  | [] => none
  | (k1, v) :: rest => if k1 = k then some v else mapGet rest k

/-- Assignment in a Go map: `m[k] = v`. -/
def mapSet {β : Type} (m : List (String × β)) (k : String) (v : β) : List (String × β) :=
  match m with
  | [] => [(k, v)]
  | (k1, v1) :: rest => if k1 = k then (k, v) :: rest else (k1, v1) :: mapSet rest k v

/-- The struct `Store`: `db` maps a title to all its revisions, oldest first. -/
structure Store where
  db : List (String × List Application)
deriving DecidableEq

/-- The function `NewStore`. -/
def NewStore : Store := { db := [] }

/-- The errors the store returns, one constructor per `fmt.Errorf` site. -/
inductive Err where
  /-- Get: "application with title %s has been deleted" -/
  | getDeleted (key : String)
  /-- Get, DumpKey: "application with title %s does not exist" -/
  | notExist (key : String)
  /-- Create: "to be created application %s has been created" -/
  | hasBeenCreated (title : String)
  /-- Update: "to be updated application %s has not been created" -/
  | notCreated (title : String)
  /-- Update: "to be updated application %s has been deleted" -/
  | updateDeleted (title : String)
  /-- Update: "application %s is up-to-date, abort update" -/
  | upToDate (title : String)
  /-- Delete: "to be deleted application %s has been deleted" -/
  | deleteDeleted (key : String)
  /-- Delete: "application with title %s does not exist in the DB" -/
  | deleteNotExist (key : String)
  /-- validateApplication: "application title cannot be empty" -/
  | emptyTitle
  /-- validateApplication: "application %s's version cannot be empty" -/
  | emptyVersion (title : String)
  /-- validateApplication: "application %s's maintainer has wrong email %s" -/
  | wrongEmail (title : String) (email : String)
deriving DecidableEq

/-- How a store method ends: it returns a value with a nil error, it returns
an error, or it panics with "Key %s should have at least one record". -/
inductive Outcome (α : Type) where
  | ok (v : α)
  | err (e : Err)
  | panic (key : String)
deriving DecidableEq

/-- The method returned a nil error. -/
def Outcome.isOk {α : Type} : Outcome α → Bool
  | .ok _ => true
  | _ => false

/-- The method returned a non-nil error. -/
def Outcome.isErr {α : Type} : Outcome α → Bool
  | .err _ => true
  | _ => false

/-- The method panicked. -/
def Outcome.isPanic {α : Type} : Outcome α → Bool
  | .panic _ => true
  | _ => false

/-- The loop of `validateApplication`: the first e-mail `mail.ParseAddress`
rejects, if any. `addrOk e` says that `mail.ParseAddress(e)` returns no error. -/
def firstWrongEmail (addrOk : String → Bool) : List Maintainer → Option String
  | [] => none
  | each :: rest => if addrOk each.Email then firstWrongEmail addrOk rest else some each.Email

/-- The function `validateApplication`; `none` is the nil error. -/
def validateApplication (addrOk : String → Bool) (i : Application) : Option Err :=
  if i.Title = "" then some Err.emptyTitle
  else if i.Version = "" then some (Err.emptyVersion i.Title)
  else
    match firstWrongEmail addrOk i.Maintainers with
    | some e => some (Err.wrongEmail i.Title e)
    | none => none

/-- The statement `s.db[k] = append(s.db[k], clone)`; a missing key reads as the
nil slice. -/
def appendRev (db : List (String × List Application)) (k : String) (clone : Application) :
    List (String × List Application) :=
  mapSet db k ((mapGet db k).getD [] ++ [clone])

/-- The method `Store.Get`. -/
def Store.Get (s : Store) (key : String) : Outcome Application × Store :=
  match mapGet s.db key with
  | some allRevs =>
    match allRevs.getLast? with
    | none => (Outcome.panic key, s)
    | some last =>
      if last.DeleteTimeStamp ≠ none then (Outcome.err (Err.getDeleted key), s)
      else (Outcome.ok (DeepCopy last), s)
  | none => (Outcome.err (Err.notExist key), s)

/-- The method `Store.DumpKey`. -/
def Store.DumpKey (s : Store) (key : String) : Outcome (List Application) × Store :=
  match mapGet s.db key with
  | some allRevs =>
    if allRevs.length = 0 then (Outcome.panic key, s)
    else (Outcome.ok (allRevs.foldl (fun ret each => ret ++ [DeepCopy each]) []), s)
  | none => (Outcome.err (Err.notExist key), s)

/-- The function `inArray`. -/
def inArray (input : String) : List String → Bool
  | [] => false
  | each :: rest => if each = input then true else inArray input rest

/-- The loop of `Store.List` over the entries of `db` still to visit, `ret`
being the records collected so far. -/
def listLoop (sources : List String) (matchSource : Bool) (companies : List String)
    (matchCompany : Bool) :
    List (String × List Application) → List Application → Outcome (List Application)
  | [], ret => Outcome.ok ret
  | (k, v) :: rest, ret =>
    match v.getLast? with
    | none => Outcome.panic k
    | some last =>
      if last.DeleteTimeStamp ≠ none then
        listLoop sources matchSource companies matchCompany rest ret
      else if matchSource && !inArray last.Source sources then
        listLoop sources matchSource companies matchCompany rest ret
      else if matchCompany && !inArray last.Company companies then
        listLoop sources matchSource companies matchCompany rest ret
      else
        listLoop sources matchSource companies matchCompany rest (ret ++ [DeepCopy last])

/-- The method `Store.List`; the map is ranged over in the order of `db`. -/
def Store.List (s : Store) (options : List (String × List String)) :
    Outcome (List Application) × Store :=
  let sources := (mapGet options "source").getD []
  let matchSource := (mapGet options "source").isSome
  let companies := (mapGet options "company").getD []
  let matchCompany := (mapGet options "company").isSome
  (listLoop sources matchSource companies matchCompany s.db [], s)

/-- The method `Store.Create`, called at time `now`. -/
def Store.Create (addrOk : String → Bool) (s : Store) (app : Application) (now : Time) :
    Outcome Unit × Store :=
  match validateApplication addrOk app with
  | some e => (Outcome.err e, s)
  | none =>
    let clone := DeepCopy app
    let version : Outcome String :=
      match mapGet s.db app.Title with
      | some allRevs =>
        match allRevs.getLast? with
        | none => Outcome.panic app.Title
        | some last =>
          if last.DeleteTimeStamp = none then Outcome.err (Err.hasBeenCreated app.Title)
          else
            let lastVersion := Atoi last.ResourceVersion
            Outcome.ok (Itoa (wrapInt64 (lastVersion + 1)))
      | none => Outcome.ok (Itoa 0)
    match version with
    | Outcome.panic k => (Outcome.panic k, s)
    | Outcome.err e => (Outcome.err e, s)
    | Outcome.ok v =>
      let clone := { clone with ResourceVersion := v }
      let clone := { clone with CreateTimeStamp := now }
      (Outcome.ok (), { db := appendRev s.db clone.Title clone })

/-- The method `Store.Update`. The third component is the caller's record
after the call. `last` points into the log, so what `api.Equal(app, last)`
leaves in `last` is what the log holds afterwards. -/
def Store.Update (addrOk : String → Bool) (s : Store) (app : Application) :
    Outcome Unit × Store × Application :=
  match validateApplication addrOk app with
  | some e => (Outcome.err e, s, app)
  | none =>
    match mapGet s.db app.Title with
    | none => (Outcome.err (Err.notCreated app.Title), s, app)
    | some allRevs =>
      match allRevs.getLast? with
      | none => (Outcome.panic app.Title, s, app)
      | some last =>
        if last.DeleteTimeStamp ≠ none then (Outcome.err (Err.updateDeleted app.Title), s, app)
        else
          let r := Equal app last
          let app1 := r.2.1
          let last1 := r.2.2
          let db1 := mapSet s.db app.Title (allRevs.dropLast ++ [last1])
          if r.1 then (Outcome.err (Err.upToDate app1.Title), { db := db1 }, app1)
          else
            let clone := DeepCopy app1
            let clone := { clone with CreateTimeStamp := last1.CreateTimeStamp }
            let lastVersion := Atoi last1.ResourceVersion
            let clone := { clone with ResourceVersion := Itoa (wrapInt64 (lastVersion + 1)) }
            (Outcome.ok (), { db := appendRev db1 clone.Title clone }, app1)

/-- The method `Store.Delete`, called at time `now`. -/
def Store.Delete (s : Store) (key : String) (now : Time) : Outcome Unit × Store :=
  match mapGet s.db key with
  | some allRevs =>
    match allRevs.getLast? with
    | none => (Outcome.panic key, s)
    | some last =>
      if last.DeleteTimeStamp ≠ none then (Outcome.err (Err.deleteDeleted key), s)
      else
        let clone := DeepCopy last
        let clone := { clone with DeleteTimeStamp := some now }
        let lastVersion := Atoi last.ResourceVersion
        let clone := { clone with ResourceVersion := Itoa (wrapInt64 (lastVersion + 1)) }
        (Outcome.ok (), { db := appendRev s.db clone.Title clone })
  | none => (Outcome.err (Err.deleteNotExist key), s)

/-! ## pkg/compact.go -/

/-- The constant `DefaultCompactionRetention`. -/
def DefaultCompactionRetention : Nat := 2

/-- The method `Store.Compaction`: the loop visits every key once and replaces
a log longer than the retention by `v[len(v)-DefaultCompactionRetention:]`. -/
def Store.Compaction (s : Store) : Store :=
  { db := s.db.map (fun kv =>
      if kv.2.length > DefaultCompactionRetention then
        (kv.1, kv.2.drop (kv.2.length - DefaultCompactionRetention))
      else kv) }

/-! ## The per-key state machine and reachable stores -/

/-- State `ABSENT`: the key has no log. -/
def isAbsent (s : Store) (k : String) : Prop := mapGet s.db k = none

/-- State `ACTIVE` with last revision `l`: the last entry of the key's log is `l`
and has no deletion time. -/
def activeWith (s : Store) (k : String) (l : Application) : Prop :=
  ∃ revs, mapGet s.db k = some revs ∧ revs.getLast? = some l ∧ l.DeleteTimeStamp = none

/-- State `ACTIVE`: the last entry of the key's log has no deletion time. -/
def isActive (s : Store) (k : String) : Prop := ∃ l, activeWith s k l

/-- State `DELETED`: the last entry of the key's log has a deletion time. -/
def isDeleted (s : Store) (k : String) : Prop :=
  ∃ revs l, mapGet s.db k = some revs ∧ revs.getLast? = some l ∧ l.DeleteTimeStamp ≠ none

/-- The stores a process can hold: `NewStore()` followed by any calls of
`Create`, `Update`, `Delete` and `Compaction`. -/
inductive Reachable (addrOk : String → Bool) : Store → Prop where
  | init : Reachable addrOk NewStore
  | create (s : Store) (app : Application) (now : Time) :
      Reachable addrOk s → Reachable addrOk (Store.Create addrOk s app now).2
  | update (s : Store) (app : Application) :
      Reachable addrOk s → Reachable addrOk (Store.Update addrOk s app).2.1
  | delete (s : Store) (key : String) (now : Time) :
      Reachable addrOk s → Reachable addrOk (Store.Delete s key now).2
  | compaction (s : Store) :
      Reachable addrOk s → Reachable addrOk (Store.Compaction s)

/-- Every entry of the key's log is filed under its own title. -/
def titledBy (k : String) (revs : List Application) : Prop := ∀ e ∈ revs, e.Title = k

/-- The resource versions along `revs` are the decimal texts of `n`, `n + 1`, ... -/
def versionsFrom (n : Nat) : List Application → Prop
  | [] => True
  | e :: rest => e.ResourceVersion = Itoa (n : Int) ∧ versionsFrom (n + 1) rest

/-- The characters `cs` are a digit string of length `len` and value `v`. -/
def IsNum (cs : List Char) (len v : Nat) : Prop :=
  ∀ x, x * 10 ^ len + v ≤ 18446744073709551615 →
    parseDigits cs x = Parsed.value (x * 10 ^ len + v)

/-- The order `sort.Slice` with `maintainerLess` sorts into: `y` is not below `x`. -/
def maintainerLE (x y : Maintainer) : Prop := maintainerLess y x = false

/-- The seven scalar attributes `Equal` compares. -/
def sameScalars (a b : Application) : Prop :=
  a.Title = b.Title ∧ a.Version = b.Version ∧ a.Company = b.Company ∧
    a.Website = b.Website ∧ a.Source = b.Source ∧ a.License = b.License ∧
    a.Description = b.Description

/-- A log as the store builds it within `bound` calls: not empty, every entry
filed under the key, resource versions counting up by one from some natural
number and staying below `bound`. -/
def LogOk (bound : Nat) (k : String) (revs : List Application) : Prop :=
  revs ≠ [] ∧ titledBy k revs ∧ ∃ n : Nat, versionsFrom n revs ∧ n + revs.length ≤ bound

/-- Every log of the store is as the store builds it within `bound` calls. -/
def StoreOk (bound : Nat) (s : Store) : Prop := ∀ p ∈ s.db, LogOk bound p.1 p.2

/-- Every log of the store is non-empty and holds entries filed under its key. -/
def StoreTitled (s : Store) : Prop := ∀ p ∈ s.db, p.2 ≠ [] ∧ titledBy p.1 p.2

/-- The stores reachable from `NewStore()` by exactly `n` calls of `Create`,
`Update`, `Delete` and `Compaction`. -/
inductive ReachableIn (addrOk : String → Bool) : Nat → Store → Prop where
  | init : ReachableIn addrOk 0 NewStore
  | create (n : Nat) (s : Store) (app : Application) (now : Time) :
      ReachableIn addrOk n s → ReachableIn addrOk (n + 1) (Store.Create addrOk s app now).2
  | update (n : Nat) (s : Store) (app : Application) :
      ReachableIn addrOk n s → ReachableIn addrOk (n + 1) (Store.Update addrOk s app).2.1
  | delete (n : Nat) (s : Store) (key : String) (now : Time) :
      ReachableIn addrOk n s → ReachableIn addrOk (n + 1) (Store.Delete s key now).2
  | compaction (n : Nat) (s : Store) :
      ReachableIn addrOk n s → ReachableIn addrOk (n + 1) (Store.Compaction s)

/-- Along the log each resource version is the decimal text of a natural
number, and the next one is the decimal text of that number plus one. -/
def stepsByOne (revs : List Application) : Prop :=
  List.Chain' (fun x y => ∃ n : Nat, x.ResourceVersion = Itoa (n : Int) ∧
    y.ResourceVersion = Itoa ((n + 1 : Nat) : Int)) revs

/-- The numbers the resource versions denote increase strictly along the log. -/
def strictlyIncreasing (revs : List Application) : Prop :=
  revs.Pairwise (fun x y => Atoi x.ResourceVersion < Atoi y.ResourceVersion)

/-- No method of the store takes its "should have at least one record" panic
branch on `s`, whatever its arguments. -/
def neverPanics (addrOk : String → Bool) (s : Store) : Prop :=
  (∀ key, (Store.Get s key).1.isPanic = false) ∧
  (∀ key, (Store.DumpKey s key).1.isPanic = false) ∧
  (∀ options, (Store.List s options).1.isPanic = false) ∧
  (∀ app now, (Store.Create addrOk s app now).1.isPanic = false) ∧
  (∀ app, (Store.Update addrOk s app).1.isPanic = false) ∧
  (∀ key now, (Store.Delete s key now).1.isPanic = false)

/-- A validator accepting every e-mail address, for worked examples. -/
def anyAddress : String → Bool := fun _ => true

/-- The record `{title: X, version: 1}` with two maintainers, for worked examples. -/
def sampleApp : Application :=
  { Title := "X", Version := "1", Maintainers := [⟨"bob", "b@x.io"⟩, ⟨"al", "a@x.io"⟩],
    Company := "acme", Website := "", Source := "", License := "", Description := "",
    CreateTimeStamp := 0, DeleteTimeStamp := none, ResourceVersion := "" }

/-- The revision `Create(sampleApp)` at time 5 stores on a new store. -/
def sampleRev : Application :=
  { sampleApp with ResourceVersion := "0", CreateTimeStamp := 5 }

/-- The store after `Create(sampleApp)` at time 5 on a new store. -/
def sampleStore : Store := (Store.Create anyAddress NewStore sampleApp 5).2

/-! ## pkg/server.go: the handlers -/

/-- The loop of `forEachApplication`. `dc` is what `dc.Decode` still has to
yield: a record (`Except.ok`) or a decode error (`Except.error`), the end of
the list being `io.EOF`. `f st app` is the call `f(&app)` in state `st`: the
error it returns (`none` for nil), the state after it, and the record `app`
points to after it. -/
def forEachLoop {σ ε : Type} (f : σ → Application → Option ε × σ × Application) :
    List (Except ε Application) → σ → List Application → List ε →
      List Application × List ε × σ
  | [], st, accepted, allErrs => (accepted, allErrs, st)
  | Except.error err :: _, st, accepted, allErrs => (accepted, allErrs ++ [err], st)
  | Except.ok app :: rest, st, accepted, allErrs =>
    match f st app with
    | (some err, st1, _) => forEachLoop f rest st1 accepted (allErrs ++ [err])
    | (none, st1, app1) => forEachLoop f rest st1 (accepted ++ [app1]) allErrs

/-- The function `forEachApplication`: the accepted records, the errors, and
the state the calls of `f` leave. -/
def forEachApplication {σ ε : Type} (dc : List (Except ε Application))
    (f : σ → Application → Option ε × σ × Application) (st : σ) :
    List Application × List ε × σ :=
  forEachLoop f dc st [] []

/-- The constant `http.StatusOK`. -/
def StatusOK : Nat := 200

/-- The constant `http.StatusNotFound`. -/
def StatusNotFound : Nat := 404

/-- The constant `http.StatusConflict`, which the package never uses. -/
def StatusConflict : Nat := 409

/-- The handler `DeleteApplication` for the title `t` on the store `appDB = s`:
the status code it writes (`none` when `Delete` panics and nothing is
written) and the store afterwards. -/
def DeleteApplication (s : Store) (t : String) (now : Time) : Option Nat × Store :=
  match Store.Delete s t now with
  | (Outcome.err _, s1) => (some StatusNotFound, s1)
  | (Outcome.ok _, s1) => (some StatusOK, s1)
  | (Outcome.panic _, s1) => (none, s1)

/-! ## Notions the theorems about compaction, List and the bulk loop are stated with -/

/-- The newest `DefaultCompactionRetention` entries of a log, the whole log
when it has no more than that. -/
def compactLog (v : List Application) : List Application :=
  v.drop (v.length - DefaultCompactionRetention)

/-- The keys of the store, in the order `List` ranges over them. -/
def storeKeys (s : Store) : List String := s.db.map Prod.fst

/-- The filter on attribute `name` passes the value `value`: the mapping has
no entry for `name`, or the value is a member of the accepted values. -/
def filterPasses (options : List (String × List String)) (name value : String) : Prop :=
  ∀ vs, mapGet options name = some vs → value ∈ vs

/-- Decides `filterPasses`. -/
def passes (options : List (String × List String)) (name value : String) : Bool :=
  match mapGet options name with
  | some vs => decide (value ∈ vs)
  | none => true

/-- What `List` is to return for the key `k`: the last revision when the key
is ACTIVE and the "source" and "company" filters pass, nothing otherwise. -/
def listedFor (s : Store) (options : List (String × List String)) (k : String) :
    Option Application :=
  match mapGet s.db k with
  | none => none
  | some revs =>
    match revs.getLast? with
    | none => none
    | some l =>
      if l.DeleteTimeStamp = none ∧ passes options "source" l.Source = true ∧
          passes options "company" l.Company = true then some l
      else none

/-- The method `Store.List` when `range s.db` yields the entries in the order
`visit` (Go leaves the order of a map range unspecified); `Store.List s` is
the case `visit = s.db`. -/
def listVisiting (s : Store) (visit : List (String × List Application))
    (options : List (String × List String)) : Outcome (List Application) × Store :=
  let sources := (mapGet options "source").getD []
  let matchSource := (mapGet options "source").isSome
  let companies := (mapGet options "company").getD []
  let matchCompany := (mapGet options "company").isSome
  (listLoop sources matchSource companies matchCompany visit [], s)

/-- What one round of the loop of `Store.List` appends for the entry `kv`. -/
def listPick (sources : List String) (matchSource : Bool) (companies : List String)
    (matchCompany : Bool) (kv : String × List Application) : Option Application :=
  match kv.2.getLast? with
  | none => none
  | some last =>
    if last.DeleteTimeStamp ≠ none then none
    else if matchSource && !inArray last.Source sources then none
    else if matchCompany && !inArray last.Company companies then none
    else some (DeepCopy last)

/-- The records of the stream that precede the first decode error. -/
def recordsBeforeError {ε : Type} : List (Except ε Application) → List Application
  | Except.ok app :: rest => app :: recordsBeforeError rest
  | _ => []

/-- The first decode error of the stream, if there is one. -/
def firstDecodeError {ε : Type} : List (Except ε Application) → Option ε
  | [] => none
  | Except.error err :: _ => some err
  | Except.ok _ :: rest => firstDecodeError rest

/-- The calls `f(&app)` for the given records, one per record and in order,
each in the state the previous call left: for every call the error returned
and the record afterwards, and the state after the last call. -/
def callsOf {σ ε : Type} (f : σ → Application → Option ε × σ × Application) :
    List Application → σ → List (Option ε × Application) × σ
  | [], st => ([], st)
  | app :: rest, st =>
    (((f st app).1, (f st app).2.2) :: (callsOf f rest (f st app).2.1).1,
      (callsOf f rest (f st app).2.1).2)

/-- The records of the calls on which `f` returned no error, as the calls left
them. -/
def acceptedOf {ε : Type} (calls : List (Option ε × Application)) : List Application :=
  calls.filterMap (fun c =>
    match c.1 with
    | none => some c.2
    | some _ => none)

/-- The errors the calls of `f` returned. -/
def errorsOf {ε : Type} (calls : List (Option ε × Application)) : List ε :=
  calls.filterMap (fun c => c.1)

/-- The record `{title: X, version: 1, deleteTimeStamp: 3}`, for worked examples. -/
def sampleDeletedApp : Application := { sampleApp with DeleteTimeStamp := some 3 }

/-- The store after `Create(sampleApp)` at time 5 and `Delete("X")` at time 7. -/
def sampleDeletedStore : Store := (Store.Delete sampleStore "X" 7).2

/-- A store whose key "X" is ACTIVE with the resource version `MaxInt64`. -/
def sampleMaxStore : Store :=
  Store.mk [("X", [{ sampleRev with ResourceVersion := "9223372036854775807" }])]

/-- The store after `Create(sampleApp)` at time 5, an update to version "2",
`Delete("X")` at time 9 and a compaction. -/
def sampleCycleStore : Store :=
  Store.Compaction (Store.Delete (Store.Update anyAddress sampleStore
    { sampleApp with Version := "2" }).2.1 "X" 9).2

/-- The store after `Create(sampleApp)` and updates to versions "2" and "3":
the log of "X" has three revisions. -/
def sampleLongStore : Store :=
  (Store.Update anyAddress (Store.Update anyAddress sampleStore
    { sampleApp with Version := "2" }).2.1 { sampleApp with Version := "3" }).2.1

/-- The store after `Create(sampleApp)` and the creation of a second record
"Y" of company "bolt": two ACTIVE keys. -/
def sampleTwoStore : Store :=
  (Store.Create anyAddress sampleStore { sampleApp with Title := "Y", Company := "bolt" } 6).2

/-- The record with exactly title "X" and version "1" set. -/
def x1 : Application :=
  { Title := "X", Version := "1", Maintainers := [], Company := "", Website := "",
    Source := "", License := "", Description := "", CreateTimeStamp := 0,
    DeleteTimeStamp := none, ResourceVersion := "" }

/-- The record with exactly title "X" and version "2" set. -/
def x2 : Application := { x1 with Version := "2" }

/-! ## Decimal text: `Atoi` reads back what `Itoa` writes -/

theorem digitVal_digitChar (d : Nat) (h : d < 10) : digitVal (digitChar d) = some d := by
  interval_cases d <;> decide

theorem isNum_cons (d : Nat) (h : d < 10) (cs : List Char) (len v : Nat)
    (hcs : IsNum cs len v) : IsNum (digitChar d :: cs) (len + 1) (d * 10 ^ len + v) := by
  intro x hx
  have hpos : 1 ≤ 10 ^ len := Nat.one_le_pow _ _ (by decide)
  have e : x * 10 ^ (len + 1) + (d * 10 ^ len + v) = (x * 10 + d) * 10 ^ len + v := by ring
  rw [e] at hx ⊢
  have hle : x * 10 + d ≤ (x * 10 + d) * 10 ^ len := Nat.le_mul_of_pos_right _ hpos
  have h1 : ¬ x ≥ 1844674407370955162 := by omega
  have h2 : ¬ x * 10 + d > 18446744073709551615 := by omega
  simp only [parseDigits, digitVal_digitChar d h]
  rw [if_neg h1, if_neg h2]
  exact hcs (x * 10 + d) hx

theorem isNum_natDigits (fuel : Nat) : ∀ (n : Nat) (acc : List Char) (len v : Nat),
    n < fuel → IsNum acc len v → ∃ len1, IsNum (natDigits fuel n acc) len1 (n * 10 ^ len + v) := by
  induction fuel with
  | zero => intro n acc len v h; omega
  | succ fuel ih =>
    intro n acc len v h hacc
    unfold natDigits
    by_cases hn : n < 10
    · rw [if_pos hn]
      exact ⟨len + 1, isNum_cons n hn acc len v hacc⟩
    · rw [if_neg hn]
      have hmod : n % 10 < 10 := Nat.mod_lt _ (by decide)
      have h1 := isNum_cons (n % 10) hmod acc len v hacc
      obtain ⟨len1, h2⟩ := ih (n / 10) _ (len + 1) _ (by omega) h1
      refine ⟨len1, ?_⟩
      have e : n / 10 * 10 ^ (len + 1) + (n % 10 * 10 ^ len + v) = n * 10 ^ len + v := by
        have := Nat.div_add_mod n 10
        calc n / 10 * 10 ^ (len + 1) + (n % 10 * 10 ^ len + v)
            = (10 * (n / 10) + n % 10) * 10 ^ len + v := by ring
          _ = n * 10 ^ len + v := by rw [this]
      rw [← e]
      exact h2

theorem natDigits_head (fuel : Nat) : ∀ (n : Nat) (acc : List Char),
    ∃ d cs, d < 10 ∧ natDigits (fuel + 1) n acc = digitChar d :: cs := by
  induction fuel with
  | zero =>
    intro n acc
    unfold natDigits
    by_cases hn : n < 10
    · exact ⟨n, acc, hn, by rw [if_pos hn]⟩
    · exact ⟨n % 10, acc, Nat.mod_lt _ (by decide), by rw [if_neg hn]; rfl⟩
  | succ fuel ih =>
    intro n acc
    unfold natDigits
    by_cases hn : n < 10
    · exact ⟨n, acc, hn, by rw [if_pos hn]⟩
    · rw [if_neg hn]
      exact ih _ _

theorem digitChar_not_sign (d : Nat) (h : d < 10) :
    digitChar d ≠ '-' ∧ digitChar d ≠ '+' := by
  interval_cases d <;> decide

theorem parseInt_digits (d : Nat) (h : d < 10) (cs : List Char) (n : Nat)
    (hp : parseDigits (digitChar d :: cs) 0 = Parsed.value n) (hn : n < 9223372036854775808) :
    parseInt (digitChar d :: cs) = (n : Int) := by
  obtain ⟨h1, h2⟩ := digitChar_not_sign d h
  unfold parseInt
  simp only [h1, h2, or_self, if_false, parseUint, hp]
  have h3 : ¬ n ≥ 9223372036854775808 := by omega
  simp [h3]

theorem parseInt_formatNat (n : Nat) (hn : n < 9223372036854775808) :
    parseInt (formatNat n) = (n : Int) := by
  obtain ⟨d, cs, hd, hcs⟩ := natDigits_head n n []
  obtain ⟨len1, hnum⟩ := isNum_natDigits (n + 1) n [] 0 0 (by omega)
    (fun x _ => by simp [parseDigits])
  unfold formatNat
  have h0 := hnum 0 (by omega)
  rw [hcs] at h0 ⊢
  have h1 : 0 * 10 ^ len1 + (n * 10 ^ 0 + 0) = n := by simp
  rw [h1] at h0
  exact parseInt_digits d hd cs n h0 hn

/-- Reading back: `strconv.Atoi(strconv.Itoa(n))` is `n` for every `n` from 0
to `MaxInt64`. -/
theorem Atoi_Itoa_nat (n : Nat) (hn : n < 9223372036854775808) :
    Atoi (Itoa (n : Int)) = (n : Int) := by
  show parseInt (formatNat n) = (n : Int)
  exact parseInt_formatNat n hn

theorem Itoa_nat_inj (m n : Nat) (hm : m < 9223372036854775808)
    (hn : n < 9223372036854775808) (h : Itoa (m : Int) = Itoa (n : Int)) : m = n := by
  have := congrArg Atoi h
  rw [Atoi_Itoa_nat m hm, Atoi_Itoa_nat n hn] at this
  exact_mod_cast this

theorem wrapInt64_of_fits (x : Int) (h1 : -9223372036854775808 ≤ x)
    (h2 : x ≤ 9223372036854775807) : wrapInt64 x = x := by
  unfold wrapInt64
  omega

/-! ## The order on maintainers and `sort.Slice` -/

theorem ltChars_irrefl (a : List Char) : ltChars a a = false := by
  induction a with
  | nil => rfl
  | cons c cs ih => simp [ltChars, ih]

theorem ltChars_trans : ∀ (a b c : List Char),
    ltChars a b = true → ltChars b c = true → ltChars a c = true := by
  intro a
  induction a with
  | nil =>
    intro b c hab hbc
    cases b with
    | nil => simp [ltChars] at hab
    | cons y ys =>
      cases c with
      | nil => simp [ltChars] at hbc
      | cons z zs => rfl
  | cons x xs ih =>
    intro b c hab hbc
    cases b with
    | nil => simp [ltChars] at hab
    | cons y ys =>
      cases c with
      | nil => simp [ltChars] at hbc
      | cons z zs =>
        simp only [ltChars] at hab hbc ⊢
        by_cases h1 : x.toNat < y.toNat
        · by_cases h2 : y.toNat < z.toNat
          · rw [if_pos (by omega)]
          · rw [if_neg h2] at hbc
            by_cases h3 : z.toNat < y.toNat
            · rw [if_pos h3] at hbc; cases hbc
            · rw [if_pos (by omega)]
        · rw [if_neg h1] at hab
          by_cases h4 : y.toNat < x.toNat
          · rw [if_pos h4] at hab; cases hab
          · rw [if_neg h4] at hab
            by_cases h2 : y.toNat < z.toNat
            · rw [if_pos (by omega)]
            · rw [if_neg h2] at hbc
              by_cases h3 : z.toNat < y.toNat
              · rw [if_pos h3] at hbc; cases hbc
              · rw [if_neg h3] at hbc
                rw [if_neg (by omega), if_neg (by omega)]
                exact ih ys zs hab hbc

theorem char_eq_of_toNat_eq (c d : Char) (h : c.toNat = d.toNat) : c = d := by
  apply Char.ext
  apply UInt32.ext
  exact h

theorem ltChars_trichotomy : ∀ (a b : List Char),
    ltChars a b = false → ltChars b a = false → a = b := by
  intro a
  induction a with
  | nil =>
    intro b hab hba
    cases b with
    | nil => rfl
    | cons y ys => simp [ltChars] at hab
  | cons x xs ih =>
    intro b hab hba
    cases b with
    | nil => simp [ltChars] at hba
    | cons y ys =>
      simp only [ltChars] at hab hba
      by_cases h1 : x.toNat < y.toNat
      · rw [if_pos h1] at hab; cases hab
      · by_cases h2 : y.toNat < x.toNat
        · rw [if_pos h2] at hba; cases hba
        · rw [if_neg h1, if_neg h2] at hab
          rw [if_neg h2, if_neg h1] at hba
          have hc : x = y := char_eq_of_toNat_eq x y (by omega)
          rw [hc, ih ys hab hba]

theorem strLess_irrefl (s : String) : strLess s s = false := ltChars_irrefl s.data

theorem strLess_trans (s t u : String) (h1 : strLess s t = true) (h2 : strLess t u = true) :
    strLess s u = true := ltChars_trans _ _ _ h1 h2

theorem strLess_trichotomy (s t : String) (h1 : strLess s t = false) (h2 : strLess t s = false) :
    s = t := by
  have := ltChars_trichotomy _ _ h1 h2
  cases s; cases t; simp_all

theorem strLess_asymm (s t : String) (h1 : strLess s t = true) : strLess t s = false := by
  cases h : strLess t s with
  | false => rfl
  | true =>
    have := strLess_trans s t s h1 h
    rw [strLess_irrefl] at this
    cases this

theorem maintainerLess_irrefl (x : Maintainer) : maintainerLess x x = false := by
  simp [maintainerLess, strLess_irrefl]

theorem maintainerLess_trans (x y z : Maintainer) (h1 : maintainerLess x y = true)
    (h2 : maintainerLess y z = true) : maintainerLess x z = true := by
  unfold maintainerLess at *
  by_cases hxy : x.Name = y.Name
  · rw [if_pos hxy] at h1
    by_cases hyz : y.Name = z.Name
    · rw [if_pos hyz] at h2
      rw [if_pos (hxy.trans hyz)]
      exact strLess_trans _ _ _ h1 h2
    · rw [if_neg hyz] at h2
      rw [if_neg (by rw [hxy]; exact hyz), hxy]
      exact h2
  · rw [if_neg hxy] at h1
    by_cases hyz : y.Name = z.Name
    · rw [if_pos hyz] at h2
      rw [if_neg (by rw [← hyz]; exact hxy), ← hyz]
      exact h1
    · rw [if_neg hyz] at h2
      have h3 := strLess_trans _ _ _ h1 h2
      by_cases hxz : x.Name = z.Name
      · rw [hxz] at h1
        have := strLess_asymm _ _ h1
        rw [h2] at this
        cases this
      · rw [if_neg hxz]
        exact h3

theorem maintainerLess_trichotomy (x y : Maintainer) (h1 : maintainerLess x y = false)
    (h2 : maintainerLess y x = false) : x = y := by
  unfold maintainerLess at *
  by_cases hxy : x.Name = y.Name
  · rw [if_pos hxy] at h1
    rw [if_pos hxy.symm] at h2
    have := strLess_trichotomy _ _ h1 h2
    cases x; cases y; simp_all
  · rw [if_neg hxy] at h1
    rw [if_neg (fun h => hxy h.symm)] at h2
    exact absurd (strLess_trichotomy _ _ h1 h2) hxy

theorem maintainerLess_asymm (x y : Maintainer) (h1 : maintainerLess x y = true) :
    maintainerLess y x = false := by
  cases h : maintainerLess y x with
  | false => rfl
  | true =>
    have := maintainerLess_trans x y x h1 h
    rw [maintainerLess_irrefl] at this
    cases this

theorem maintainerLE_total (x y : Maintainer) : maintainerLE x y ∨ maintainerLE y x := by
  unfold maintainerLE
  cases h : maintainerLess y x with
  | false => exact Or.inl rfl
  | true => exact Or.inr (maintainerLess_asymm _ _ h)

theorem maintainerLE_antisymm (x y : Maintainer) (h1 : maintainerLE x y) (h2 : maintainerLE y x) :
    x = y := maintainerLess_trichotomy x y h2 h1

theorem maintainerLE_trans (x y z : Maintainer) (h1 : maintainerLE x y) (h2 : maintainerLE y z) :
    maintainerLE x z := by
  unfold maintainerLE at *
  cases h : maintainerLess z x with
  | false => rfl
  | true =>
    exfalso
    cases hxy : maintainerLess x y with
    | false =>
      have e : x = y := maintainerLess_trichotomy x y hxy h1
      rw [e, h2] at h
      cases h
    | true =>
      have hzy := maintainerLess_trans z x y h hxy
      rw [h2] at hzy
      cases hzy

theorem perm_insertSorted {α : Type} (less : α → α → Bool) (x : α) :
    ∀ l : List α, (insertSorted less x l).Perm (x :: l) := by
  intro l
  induction l with
  | nil => exact List.Perm.refl _
  | cons y ys ih =>
    unfold insertSorted
    by_cases h : less y x = true
    · rw [if_pos h]
      exact (List.Perm.cons y ih).trans (List.Perm.swap x y ys)
    · rw [if_neg h]

theorem perm_sortSlice {α : Type} (less : α → α → Bool) :
    ∀ l : List α, (sortSlice less l).Perm l := by
  intro l
  induction l with
  | nil => exact List.Perm.refl _
  | cons x xs ih =>
    exact (perm_insertSorted less x _).trans (List.Perm.cons x ih)

theorem length_sortSlice {α : Type} (less : α → α → Bool) (l : List α) :
    (sortSlice less l).length = l.length := (perm_sortSlice less l).length_eq

theorem sorted_insertSorted (x : Maintainer) : ∀ l : List Maintainer,
    l.Sorted maintainerLE → (insertSorted maintainerLess x l).Sorted maintainerLE := by
  intro l
  induction l with
  | nil => intro _; exact List.sorted_singleton x
  | cons y ys ih =>
    intro hs
    have hy := List.rel_of_sorted_cons hs
    have hys := hs.of_cons
    unfold insertSorted
    by_cases h : maintainerLess y x = true
    · rw [if_pos h]
      refine List.sorted_cons.mpr ⟨?_, ih hys⟩
      intro b hb
      rcases List.mem_cons.mp ((perm_insertSorted maintainerLess x ys).mem_iff.mp hb) with e | hmem
      · rw [e]
        exact maintainerLess_asymm y x h
      · exact hy b hmem
    · rw [if_neg h]
      have hxy : maintainerLE x y := by
        unfold maintainerLE
        cases hh : maintainerLess y x with
        | false => rfl
        | true => exact absurd hh h
      refine List.sorted_cons.mpr ⟨?_, hs⟩
      intro b hb
      rcases List.mem_cons.mp hb with e | hmem
      · rw [e]; exact hxy
      · exact maintainerLE_trans x y b hxy (hy b hmem)

theorem sorted_sortSlice : ∀ l : List Maintainer,
    (sortSlice maintainerLess l).Sorted maintainerLE := by
  intro l
  induction l with
  | nil => exact List.sorted_nil
  | cons x xs ih => exact sorted_insertSorted x _ ih

/-- Sorting by `maintainerLess` yields the same list exactly for permutations. -/
theorem sortSlice_eq_iff_perm (l1 l2 : List Maintainer) :
    sortSlice maintainerLess l1 = sortSlice maintainerLess l2 ↔ l1.Perm l2 := by
  constructor
  · intro h
    have h1 := perm_sortSlice maintainerLess l1
    have h2 := perm_sortSlice maintainerLess l2
    rw [h] at h1
    exact h1.symm.trans h2
  · intro h
    have hp : (sortSlice maintainerLess l1).Perm (sortSlice maintainerLess l2) :=
      ((perm_sortSlice maintainerLess l1).trans h).trans (perm_sortSlice maintainerLess l2).symm
    haveI : IsAntisymm Maintainer maintainerLE := ⟨maintainerLE_antisymm⟩
    exact List.eq_of_perm_of_sorted hp (sorted_sortSlice l1) (sorted_sortSlice l2)

theorem sameEntries_iff : ∀ (xs ys : List Maintainer), xs.length = ys.length →
    (sameEntries xs ys = true ↔ xs = ys) := by
  intro xs
  induction xs with
  | nil =>
    intro ys h
    cases ys with
    | nil => simp [sameEntries]
    | cons y ys => simp at h
  | cons x xs ih =>
    intro ys h
    cases ys with
    | nil => simp at h
    | cons y ys =>
      have hl : xs.length = ys.length := by simpa using h
      unfold sameEntries
      by_cases hne : x.Name ≠ y.Name ∨ x.Email ≠ y.Email
      · rw [if_pos hne]
        constructor
        · intro hf; cases hf
        · intro he
          exfalso
          have hxy : x = y := (List.cons.inj he).1
          rw [hxy] at hne
          rcases hne with h1 | h1 <;> exact h1 rfl
      · rw [if_neg hne, ih ys hl]
        have hn : x.Name = y.Name := by
          by_contra hc; exact hne (Or.inl hc)
        have hm : x.Email = y.Email := by
          by_contra hc; exact hne (Or.inr hc)
        have hxy : x = y := by
          cases x; cases y; simp_all
        constructor
        · intro he; rw [hxy, he]
        · intro he; exact (List.cons.inj he).2

theorem Equal_fst (a b : Application) :
    (Equal a b).1 = true ↔ (sameScalars a b ∧ a.Maintainers.Perm b.Maintainers) := by
  unfold Equal
  by_cases hs : a.Title = b.Title ∧ a.Version = b.Version ∧ a.Company = b.Company ∧
      a.Website = b.Website ∧ a.Source = b.Source ∧ a.License = b.License ∧
      a.Description = b.Description
  · rw [if_pos hs]
    by_cases hl : a.Maintainers.length ≠ b.Maintainers.length
    · rw [if_pos hl]
      constructor
      · intro h; cases h
      · intro h; exact absurd h.2.length_eq hl
    · rw [if_neg hl]
      have hl1 : a.Maintainers.length = b.Maintainers.length := by
        by_contra hc; exact hl hc
      by_cases h0 : a.Maintainers.length = 0
      · rw [if_pos h0]
        have ha : a.Maintainers = [] := List.length_eq_zero.mp h0
        have hb : b.Maintainers = [] := List.length_eq_zero.mp (hl1 ▸ h0)
        constructor
        · intro _
          exact ⟨hs, by rw [ha, hb]⟩
        · intro _; rfl
      · rw [if_neg h0]
        show sameEntries (sortSlice maintainerLess a.Maintainers)
          (sortSlice maintainerLess b.Maintainers) = true ↔ _
        rw [sameEntries_iff _ _ (by rw [length_sortSlice, length_sortSlice, hl1]),
          sortSlice_eq_iff_perm]
        constructor
        · intro h; exact ⟨hs, h⟩
        · intro h; exact h.2
  · rw [if_neg hs]
    constructor
    · intro h; cases h
    · intro h; exact absurd h.1 hs

/-- What `Equal` leaves in its first argument: the record itself, or the
record with its maintainers sorted. -/
theorem Equal_left (a b : Application) :
    (Equal a b).2.1 = a ∨
      (Equal a b).2.1 = { a with Maintainers := sortSlice maintainerLess a.Maintainers } := by
  unfold Equal
  split_ifs <;> simp

/-- What `Equal` leaves in its second argument: the record itself, or the
record with its maintainers sorted. -/
theorem Equal_right (a b : Application) :
    (Equal a b).2.2 = b ∨
      (Equal a b).2.2 = { b with Maintainers := sortSlice maintainerLess b.Maintainers } := by
  unfold Equal
  split_ifs <;> simp

/-! ## Maps, copies and logs -/

theorem mapGet_mapSet_same {β : Type} (m : List (String × β)) (k : String) (v : β) :
    mapGet (mapSet m k v) k = some v := by
  induction m with
  | nil => simp [mapSet, mapGet]
  | cons p rest ih =>
    obtain ⟨k1, v1⟩ := p
    unfold mapSet
    by_cases h : k1 = k
    · rw [if_pos h]; simp [mapGet]
    · rw [if_neg h]; simp [mapGet, h, ih]

theorem mapGet_mapSet_other {β : Type} (m : List (String × β)) (k k2 : String) (v : β)
    (hne : k2 ≠ k) : mapGet (mapSet m k v) k2 = mapGet m k2 := by
  induction m with
  | nil =>
    have : ¬ k = k2 := fun e => hne e.symm
    simp [mapSet, mapGet, this]
  | cons p rest ih =>
    obtain ⟨k1, v1⟩ := p
    unfold mapSet
    by_cases h : k1 = k
    · rw [if_pos h]
      have h1 : ¬ k = k2 := fun e => hne e.symm
      have h2 : ¬ k1 = k2 := fun e => hne (e.symm.trans h)
      simp [mapGet, h1, h2]
    · rw [if_neg h]
      by_cases h2 : k1 = k2
      · simp [mapGet, h2]
      · simp [mapGet, h2, ih]

theorem mem_mapSet {β : Type} (m : List (String × β)) (k : String) (v : β) (p : String × β)
    (hp : p ∈ mapSet m k v) : p = (k, v) ∨ p ∈ m := by
  induction m with
  | nil =>
    simp [mapSet] at hp
    exact Or.inl hp
  | cons q rest ih =>
    obtain ⟨k1, v1⟩ := q
    unfold mapSet at hp
    by_cases h : k1 = k
    · rw [if_pos h] at hp
      rcases List.mem_cons.mp hp with e | hm
      · exact Or.inl e
      · exact Or.inr (List.mem_cons_of_mem _ hm)
    · rw [if_neg h] at hp
      rcases List.mem_cons.mp hp with e | hm
      · exact Or.inr (by rw [e]; exact List.mem_cons_self _ _)
      · rcases ih hm with e | hm2
        · exact Or.inl e
        · exact Or.inr (List.mem_cons_of_mem _ hm2)

theorem mem_of_mapGet {β : Type} (m : List (String × β)) (k : String) (v : β)
    (h : mapGet m k = some v) : (k, v) ∈ m := by
  induction m with
  | nil => simp [mapGet] at h
  | cons q rest ih =>
    obtain ⟨k1, v1⟩ := q
    unfold mapGet at h
    by_cases hk : k1 = k
    · rw [if_pos hk] at h
      cases h
      rw [hk]
      exact List.mem_cons_self _ _
    · rw [if_neg hk] at h
      exact List.mem_cons_of_mem _ (ih h)

theorem foldl_append_singleton {α β : Type} (f : α → β) (l : List α) (acc : List β) :
    l.foldl (fun ms each => ms ++ [f each]) acc = acc ++ l.map f := by
  induction l generalizing acc with
  | nil => simp
  | cons x xs ih => simp [ih]

/-- A deep copy equals the record it copies, field for field. -/
theorem DeepCopy_eq (i : Application) : DeepCopy i = i := by
  obtain ⟨t, v, ms, c, w, so, li, d, cts, dts, rv⟩ := i
  unfold DeepCopy
  have hm : ms.foldl (fun ms each => ms ++ [({ Name := each.Name, Email := each.Email } : Maintainer)]) []
      = ms := by
    rw [foldl_append_singleton (fun each : Maintainer => ({ Name := each.Name, Email := each.Email } : Maintainer))]
    simp
  cases dts <;> simp [hm]

theorem getLast?_append_singleton {α : Type} (l : List α) (x : α) :
    (l ++ [x]).getLast? = some x := by
  simp

theorem dropLast_append_getLast? {α : Type} (l : List α) (x : α) (h : l.getLast? = some x) :
    l.dropLast ++ [x] = l := by
  have hne : l ≠ [] := by
    intro e; rw [e] at h; simp at h
  have h2 := List.dropLast_append_getLast hne
  rw [List.getLast?_eq_getLast _ hne] at h
  cases h
  exact h2

theorem versionsFrom_append (l : List Application) (x : Application) : ∀ n : Nat,
    versionsFrom n (l ++ [x]) ↔
      (versionsFrom n l ∧ x.ResourceVersion = Itoa ((n + l.length : Nat) : Int)) := by
  induction l with
  | nil => intro n; simp [versionsFrom]
  | cons y ys ih =>
    intro n
    show (y.ResourceVersion = Itoa (n : Int) ∧ versionsFrom (n + 1) (ys ++ [x])) ↔
      ((y.ResourceVersion = Itoa (n : Int) ∧ versionsFrom (n + 1) ys) ∧
        x.ResourceVersion = Itoa ((n + (ys.length + 1) : Nat) : Int))
    rw [ih (n + 1)]
    have e : n + 1 + ys.length = n + (ys.length + 1) := by omega
    rw [e]
    tauto

theorem versionsFrom_drop (l : List Application) : ∀ (k n : Nat),
    versionsFrom n l → versionsFrom (n + min k l.length) (l.drop k) := by
  induction l with
  | nil => intro k n _; simp [versionsFrom]
  | cons y ys ih =>
    intro k n h
    cases k with
    | zero => simpa using h
    | succ k =>
      have h2 := ih k (n + 1) h.2
      simp only [List.drop_succ_cons, List.length_cons]
      have e : n + min (k + 1) (ys.length + 1) = n + 1 + min k ys.length := by omega
      rw [e]
      exact h2

theorem versionsFrom_getLast (l : List Application) (x : Application) : ∀ n : Nat,
    versionsFrom n l → l.getLast? = some x →
      x.ResourceVersion = Itoa ((n + (l.length - 1) : Nat) : Int) := by
  intro n hv hl
  have e := dropLast_append_getLast? l x hl
  rw [← e] at hv
  have h2 := ((versionsFrom_append _ _ _).mp hv).2
  have hlen : l.dropLast.length = l.length - 1 := by simp
  rw [hlen] at h2
  exact h2

theorem mapSet_mapSet {β : Type} (m : List (String × β)) (k : String) (v v2 : β) :
    mapSet (mapSet m k v) k v2 = mapSet m k v2 := by
  induction m with
  | nil => simp [mapSet]
  | cons q rest ih =>
    obtain ⟨k1, v1⟩ := q
    by_cases h : k1 = k
    · simp [mapSet, h]
    · simp [mapSet, h, ih]

theorem Equal_left_fields (a b : Application) :
    (Equal a b).2.1 = { a with Maintainers := (Equal a b).2.1.Maintainers } ∧
      (Equal a b).2.1.Maintainers.Perm a.Maintainers := by
  rcases Equal_left a b with h | h
  · rw [h]; exact ⟨rfl, List.Perm.refl _⟩
  · rw [h]; exact ⟨rfl, perm_sortSlice _ _⟩

theorem Equal_right_fields (a b : Application) :
    (Equal a b).2.2 = { b with Maintainers := (Equal a b).2.2.Maintainers } ∧
      (Equal a b).2.2.Maintainers.Perm b.Maintainers := by
  rcases Equal_right a b with h | h
  · rw [h]; exact ⟨rfl, List.Perm.refl _⟩
  · rw [h]; exact ⟨rfl, perm_sortSlice _ _⟩

/-! ## What each store method does, case by case -/

theorem Get_active (s : Store) (k : String) (revs : List Application) (l : Application)
    (hg : mapGet s.db k = some revs) (hl : revs.getLast? = some l)
    (hd : l.DeleteTimeStamp = none) : Store.Get s k = (Outcome.ok l, s) := by
  unfold Store.Get
  simp [hg, hl, hd, DeepCopy_eq]

theorem Get_deleted (s : Store) (k : String) (revs : List Application) (l : Application)
    (hg : mapGet s.db k = some revs) (hl : revs.getLast? = some l)
    (hd : l.DeleteTimeStamp ≠ none) : Store.Get s k = (Outcome.err (Err.getDeleted k), s) := by
  unfold Store.Get
  simp [hg, hl, hd]

theorem Get_absent (s : Store) (k : String) (hg : mapGet s.db k = none) :
    Store.Get s k = (Outcome.err (Err.notExist k), s) := by
  unfold Store.Get
  simp [hg]

theorem Get_empty (s : Store) (k : String) (hg : mapGet s.db k = some []) :
    Store.Get s k = (Outcome.panic k, s) := by
  unfold Store.Get
  simp [hg]

theorem Create_invalid (addrOk : String → Bool) (s : Store) (app : Application) (now : Time)
    (e : Err) (hv : validateApplication addrOk app = some e) :
    Store.Create addrOk s app now = (Outcome.err e, s) := by
  unfold Store.Create
  simp [hv]

theorem Create_absent (addrOk : String → Bool) (s : Store) (app : Application) (now : Time)
    (hv : validateApplication addrOk app = none) (hg : mapGet s.db app.Title = none) :
    Store.Create addrOk s app now =
      (Outcome.ok (), Store.mk (mapSet s.db app.Title
        [{ app with ResourceVersion := Itoa 0, CreateTimeStamp := now }])) := by
  unfold Store.Create
  simp [hv, hg, DeepCopy_eq, appendRev]

theorem Create_empty (addrOk : String → Bool) (s : Store) (app : Application) (now : Time)
    (hv : validateApplication addrOk app = none) (hg : mapGet s.db app.Title = some []) :
    Store.Create addrOk s app now = (Outcome.panic app.Title, s) := by
  unfold Store.Create
  simp [hv, hg]

theorem Create_active (addrOk : String → Bool) (s : Store) (app : Application) (now : Time)
    (revs : List Application) (l : Application)
    (hv : validateApplication addrOk app = none) (hg : mapGet s.db app.Title = some revs)
    (hl : revs.getLast? = some l) (hd : l.DeleteTimeStamp = none) :
    Store.Create addrOk s app now = (Outcome.err (Err.hasBeenCreated app.Title), s) := by
  unfold Store.Create
  simp [hv, hg, hl, hd]

theorem Create_deleted (addrOk : String → Bool) (s : Store) (app : Application) (now : Time)
    (revs : List Application) (l : Application)
    (hv : validateApplication addrOk app = none) (hg : mapGet s.db app.Title = some revs)
    (hl : revs.getLast? = some l) (hd : l.DeleteTimeStamp ≠ none) :
    Store.Create addrOk s app now =
      (Outcome.ok (), Store.mk (mapSet s.db app.Title
        (revs ++ [{ app with ResourceVersion := Itoa (wrapInt64 (Atoi l.ResourceVersion + 1)),
                             CreateTimeStamp := now }]))) := by
  unfold Store.Create
  simp [hv, hg, hl, hd, DeepCopy_eq, appendRev]

theorem Delete_absent (s : Store) (k : String) (now : Time) (hg : mapGet s.db k = none) :
    Store.Delete s k now = (Outcome.err (Err.deleteNotExist k), s) := by
  unfold Store.Delete
  simp [hg]

theorem Delete_empty (s : Store) (k : String) (now : Time) (hg : mapGet s.db k = some []) :
    Store.Delete s k now = (Outcome.panic k, s) := by
  unfold Store.Delete
  simp [hg]

theorem Delete_deleted (s : Store) (k : String) (now : Time) (revs : List Application)
    (l : Application) (hg : mapGet s.db k = some revs) (hl : revs.getLast? = some l)
    (hd : l.DeleteTimeStamp ≠ none) :
    Store.Delete s k now = (Outcome.err (Err.deleteDeleted k), s) := by
  unfold Store.Delete
  simp [hg, hl, hd]

theorem Delete_active (s : Store) (k : String) (now : Time) (revs : List Application)
    (l : Application) (hg : mapGet s.db k = some revs) (hl : revs.getLast? = some l)
    (hd : l.DeleteTimeStamp = none) :
    Store.Delete s k now =
      (Outcome.ok (), Store.mk (appendRev s.db l.Title
        { l with DeleteTimeStamp := some now,
                 ResourceVersion := Itoa (wrapInt64 (Atoi l.ResourceVersion + 1)) })) := by
  unfold Store.Delete
  simp [hg, hl, hd, DeepCopy_eq]

theorem Update_invalid (addrOk : String → Bool) (s : Store) (app : Application)
    (e : Err) (hv : validateApplication addrOk app = some e) :
    Store.Update addrOk s app = (Outcome.err e, s, app) := by
  unfold Store.Update
  simp [hv]

theorem Update_absent (addrOk : String → Bool) (s : Store) (app : Application)
    (hv : validateApplication addrOk app = none) (hg : mapGet s.db app.Title = none) :
    Store.Update addrOk s app = (Outcome.err (Err.notCreated app.Title), s, app) := by
  unfold Store.Update
  simp [hv, hg]

theorem Update_empty (addrOk : String → Bool) (s : Store) (app : Application)
    (hv : validateApplication addrOk app = none) (hg : mapGet s.db app.Title = some []) :
    Store.Update addrOk s app = (Outcome.panic app.Title, s, app) := by
  unfold Store.Update
  simp [hv, hg]

theorem Update_deleted (addrOk : String → Bool) (s : Store) (app : Application)
    (revs : List Application) (l : Application)
    (hv : validateApplication addrOk app = none) (hg : mapGet s.db app.Title = some revs)
    (hl : revs.getLast? = some l) (hd : l.DeleteTimeStamp ≠ none) :
    Store.Update addrOk s app = (Outcome.err (Err.updateDeleted app.Title), s, app) := by
  unfold Store.Update
  simp [hv, hg, hl, hd]

theorem Update_equal (addrOk : String → Bool) (s : Store) (app : Application)
    (revs : List Application) (l : Application)
    (hv : validateApplication addrOk app = none) (hg : mapGet s.db app.Title = some revs)
    (hl : revs.getLast? = some l) (hd : l.DeleteTimeStamp = none)
    (he : (Equal app l).1 = true) :
    Store.Update addrOk s app =
      (Outcome.err (Err.upToDate app.Title),
        Store.mk (mapSet s.db app.Title (revs.dropLast ++ [(Equal app l).2.2])),
        (Equal app l).2.1) := by
  have ht : (Equal app l).2.1.Title = app.Title := by
    have := (Equal_left_fields app l).1
    rw [this]
  unfold Store.Update
  simp [hv, hg, hl, hd, he, ht]

theorem Update_changed (addrOk : String → Bool) (s : Store) (app : Application)
    (revs : List Application) (l : Application)
    (hv : validateApplication addrOk app = none) (hg : mapGet s.db app.Title = some revs)
    (hl : revs.getLast? = some l) (hd : l.DeleteTimeStamp = none)
    (he : (Equal app l).1 = false) :
    Store.Update addrOk s app =
      (Outcome.ok (),
        Store.mk (mapSet s.db app.Title (revs.dropLast ++ [(Equal app l).2.2] ++
            [{ (Equal app l).2.1 with
                CreateTimeStamp := l.CreateTimeStamp
                ResourceVersion := Itoa (wrapInt64 (Atoi l.ResourceVersion + 1)) }])),
        (Equal app l).2.1) := by
  have ht : (Equal app l).2.1.Title = app.Title := by
    have := (Equal_left_fields app l).1
    rw [this]
  have hc : (Equal app l).2.2.CreateTimeStamp = l.CreateTimeStamp := by
    have := (Equal_right_fields app l).1
    rw [this]
  have hr : (Equal app l).2.2.ResourceVersion = l.ResourceVersion := by
    have := (Equal_right_fields app l).1
    rw [this]
  unfold Store.Update
  simp [hv, hg, hl, hd, he, ht, hc, hr, DeepCopy_eq, appendRev, mapGet_mapSet_same, mapSet_mapSet]

/-! ## Logs stay non-empty and filed under their key -/

theorem getLast?_of_ne_nil {α : Type} (l : List α) (h : l ≠ []) : ∃ x, l.getLast? = some x :=
  ⟨l.getLast h, List.getLast?_eq_getLast l h⟩

theorem titled_append (k : String) (revs : List Application) (x : Application)
    (h : revs ≠ [] ∧ titledBy k revs) (ht : x.Title = k) :
    revs ++ [x] ≠ [] ∧ titledBy k (revs ++ [x]) := by
  refine ⟨by simp, ?_⟩
  intro e he
  rcases List.mem_append.mp he with h1 | h1
  · exact h.2 e h1
  · rw [List.mem_singleton.mp h1]; exact ht

theorem titled_setLast (k : String) (revs : List Application) (l l1 : Application)
    (h : revs ≠ [] ∧ titledBy k revs) (hl : revs.getLast? = some l) (ht : l1.Title = l.Title) :
    revs.dropLast ++ [l1] ≠ [] ∧ titledBy k (revs.dropLast ++ [l1]) := by
  have e := dropLast_append_getLast? revs l hl
  have hmem : l ∈ revs := by rw [← e]; simp
  refine ⟨by simp, ?_⟩
  intro a ha
  rcases List.mem_append.mp ha with h1 | h1
  · exact h.2 a (List.mem_of_mem_dropLast h1)
  · rw [List.mem_singleton.mp h1, ht]; exact h.2 l hmem

theorem titled_drop (k : String) (revs : List Application)
    (h : revs ≠ [] ∧ titledBy k revs) (hlen : revs.length > DefaultCompactionRetention) :
    revs.drop (revs.length - DefaultCompactionRetention) ≠ [] ∧
      titledBy k (revs.drop (revs.length - DefaultCompactionRetention)) := by
  unfold DefaultCompactionRetention at *
  refine ⟨?_, ?_⟩
  · intro e
    have := congrArg List.length e
    simp at this
    omega
  · intro a ha
    exact h.2 a (List.mem_of_mem_drop ha)

theorem storeTitled_mapSet (db : List (String × List Application)) (k : String)
    (v : List Application) (h : StoreTitled (Store.mk db)) (hv : v ≠ [] ∧ titledBy k v) :
    StoreTitled (Store.mk (mapSet db k v)) := by
  intro p hp
  rcases mem_mapSet db k v p hp with e | hm
  · rw [e]; exact hv
  · exact h p hm

theorem storeTitled_lookup (s : Store) (k : String) (revs : List Application)
    (h : StoreTitled s) (hg : mapGet s.db k = some revs) : revs ≠ [] ∧ titledBy k revs :=
  h (k, revs) (mem_of_mapGet s.db k revs hg)

theorem storeTitled_Create (addrOk : String → Bool) (s : Store) (app : Application)
    (now : Time) (h : StoreTitled s) : StoreTitled (Store.Create addrOk s app now).2 := by
  cases hv : validateApplication addrOk app with
  | some e => rw [Create_invalid addrOk s app now e hv]; exact h
  | none =>
    cases hg : mapGet s.db app.Title with
    | none =>
      rw [Create_absent addrOk s app now hv hg]
      refine storeTitled_mapSet s.db _ _ h ⟨by simp, ?_⟩
      intro e he
      rw [List.mem_singleton.mp he]
    | some revs =>
      have hok := storeTitled_lookup s _ revs h hg
      obtain ⟨l, hl⟩ := getLast?_of_ne_nil revs hok.1
      by_cases hd : l.DeleteTimeStamp = none
      · rw [Create_active addrOk s app now revs l hv hg hl hd]; exact h
      · rw [Create_deleted addrOk s app now revs l hv hg hl hd]
        exact storeTitled_mapSet s.db _ _ h (titled_append _ revs _ hok rfl)

theorem storeTitled_Delete (s : Store) (k : String) (now : Time) (h : StoreTitled s) :
    StoreTitled (Store.Delete s k now).2 := by
  cases hg : mapGet s.db k with
  | none => rw [Delete_absent s k now hg]; exact h
  | some revs =>
    have hok := storeTitled_lookup s _ revs h hg
    obtain ⟨l, hl⟩ := getLast?_of_ne_nil revs hok.1
    by_cases hd : l.DeleteTimeStamp = none
    · rw [Delete_active s k now revs l hg hl hd]
      have hmem : l ∈ revs := by
        rw [← dropLast_append_getLast? revs l hl]; simp
      have ht : l.Title = k := hok.2 l hmem
      unfold appendRev
      rw [ht, hg]
      exact storeTitled_mapSet s.db _ _ h (titled_append _ revs _ hok rfl)
    · rw [Delete_deleted s k now revs l hg hl hd]; exact h

theorem storeTitled_Update (addrOk : String → Bool) (s : Store) (app : Application)
    (h : StoreTitled s) : StoreTitled (Store.Update addrOk s app).2.1 := by
  cases hv : validateApplication addrOk app with
  | some e => rw [Update_invalid addrOk s app e hv]; exact h
  | none =>
    cases hg : mapGet s.db app.Title with
    | none => rw [Update_absent addrOk s app hv hg]; exact h
    | some revs =>
      have hok := storeTitled_lookup s _ revs h hg
      obtain ⟨l, hl⟩ := getLast?_of_ne_nil revs hok.1
      by_cases hd : l.DeleteTimeStamp = none
      · have hr := (Equal_right_fields app l).1
        have hla := (Equal_left_fields app l).1
        have ht : (Equal app l).2.2.Title = l.Title := by rw [hr]
        have hta : (Equal app l).2.1.Title = app.Title := by rw [hla]
        have hset := titled_setLast _ revs l _ hok hl ht
        cases he : (Equal app l).1 with
        | true =>
          rw [Update_equal addrOk s app revs l hv hg hl hd he]
          exact storeTitled_mapSet s.db _ _ h hset
        | false =>
          rw [Update_changed addrOk s app revs l hv hg hl hd he]
          exact storeTitled_mapSet s.db _ _ h (titled_append _ _ _ hset hta)
      · rw [Update_deleted addrOk s app revs l hv hg hl hd]; exact h

theorem storeTitled_Compaction (s : Store) (h : StoreTitled s) :
    StoreTitled (Store.Compaction s) := by
  intro p hp
  unfold Store.Compaction at hp
  obtain ⟨q, hq, e⟩ := List.mem_map.mp hp
  have hqok := h q hq
  by_cases hlen : q.2.length > DefaultCompactionRetention
  · rw [if_pos hlen] at e
    rw [← e]
    exact titled_drop _ _ hqok hlen
  · rw [if_neg hlen] at e
    rw [← e]
    exact hqok

/-- In every reachable store each log is non-empty and holds entries filed
under its key. -/
theorem reachable_storeTitled (addrOk : String → Bool) (s : Store) (h : Reachable addrOk s) :
    StoreTitled s := by
  induction h with
  | init => intro p hp; cases hp
  | create s app now _ ih => exact storeTitled_Create addrOk s app now ih
  | update s app _ ih => exact storeTitled_Update addrOk s app ih
  | delete s key now _ ih => exact storeTitled_Delete s key now ih
  | compaction s _ ih => exact storeTitled_Compaction s ih

theorem reachable_of_reachableIn (addrOk : String → Bool) (n : Nat) (s : Store)
    (h : ReachableIn addrOk n s) : Reachable addrOk s := by
  induction h with
  | init => exact Reachable.init
  | create n s app now _ ih => exact Reachable.create s app now ih
  | update n s app _ ih => exact Reachable.update s app ih
  | delete n s key now _ ih => exact Reachable.delete s key now ih
  | compaction n s _ ih => exact Reachable.compaction s ih

theorem reachableIn_of_reachable (addrOk : String → Bool) (s : Store)
    (h : Reachable addrOk s) : ∃ n, ReachableIn addrOk n s := by
  induction h with
  | init => exact ⟨0, ReachableIn.init⟩
  | create s app now _ ih =>
    obtain ⟨n, hn⟩ := ih
    exact ⟨n + 1, ReachableIn.create n s app now hn⟩
  | update s app _ ih =>
    obtain ⟨n, hn⟩ := ih
    exact ⟨n + 1, ReachableIn.update n s app hn⟩
  | delete s key now _ ih =>
    obtain ⟨n, hn⟩ := ih
    exact ⟨n + 1, ReachableIn.delete n s key now hn⟩
  | compaction s _ ih =>
    obtain ⟨n, hn⟩ := ih
    exact ⟨n + 1, ReachableIn.compaction n s hn⟩

/-! ## The resource versions count up while the counter fits an int -/

theorem Itoa_succ (n : Nat) (h : n + 1 < 9223372036854775808) :
    Itoa (wrapInt64 (Atoi (Itoa (n : Int)) + 1)) = Itoa ((n + 1 : Nat) : Int) := by
  rw [Atoi_Itoa_nat n (by omega), wrapInt64_of_fits _ (by omega) (by omega)]
  rfl

theorem logOk_mono (b1 b2 : Nat) (k : String) (revs : List Application) (h : LogOk b1 k revs)
    (hb : b1 ≤ b2) : LogOk b2 k revs := by
  obtain ⟨hne, htl, n, hn, hle⟩ := h
  exact ⟨hne, htl, n, hn, by omega⟩

theorem logOk_append (bound : Nat) (k : String) (revs : List Application) (l x : Application)
    (h : LogOk bound k revs) (hb : bound < 9223372036854775808)
    (hl : revs.getLast? = some l) (ht : x.Title = k)
    (hv : x.ResourceVersion = Itoa (wrapInt64 (Atoi l.ResourceVersion + 1))) :
    LogOk (bound + 1) k (revs ++ [x]) := by
  obtain ⟨hne, htl, n, hn, hle⟩ := h
  have ht2 := titled_append k revs x ⟨hne, htl⟩ ht
  refine ⟨ht2.1, ht2.2, n, ?_, ?_⟩
  · rw [versionsFrom_append]
    refine ⟨hn, ?_⟩
    have hlast := versionsFrom_getLast revs l n hn hl
    have hlen : 0 < revs.length := List.length_pos.mpr hne
    rw [hv, hlast, Itoa_succ _ (by omega)]
    congr 2
    omega
  · rw [List.length_append]
    simp only [List.length_singleton]
    omega

theorem logOk_setLast (bound : Nat) (k : String) (revs : List Application)
    (l l1 : Application) (h : LogOk bound k revs) (hl : revs.getLast? = some l)
    (ht : l1.Title = l.Title) (hv : l1.ResourceVersion = l.ResourceVersion) :
    LogOk bound k (revs.dropLast ++ [l1]) := by
  obtain ⟨hne, htl, n, hn, hle⟩ := h
  have e := dropLast_append_getLast? revs l hl
  have ht2 := titled_setLast k revs l l1 ⟨hne, htl⟩ hl ht
  refine ⟨ht2.1, ht2.2, n, ?_, ?_⟩
  · rw [← e] at hn
    rw [versionsFrom_append] at hn ⊢
    exact ⟨hn.1, by rw [hv]; exact hn.2⟩
  · have hlen : 0 < revs.length := List.length_pos.mpr hne
    rw [List.length_append, List.length_dropLast]
    simp only [List.length_singleton]
    omega

theorem logOk_drop (bound : Nat) (k : String) (revs : List Application)
    (h : LogOk bound k revs) (hlen : revs.length > DefaultCompactionRetention) :
    LogOk bound k (revs.drop (revs.length - DefaultCompactionRetention)) := by
  obtain ⟨hne, htl, n, hn, hle⟩ := h
  have ht2 := titled_drop k revs ⟨hne, htl⟩ hlen
  unfold DefaultCompactionRetention at *
  refine ⟨ht2.1, ht2.2, _, versionsFrom_drop revs (revs.length - 2) n hn, ?_⟩
  rw [List.length_drop]
  omega

theorem storeOk_mono (b1 b2 : Nat) (s : Store) (h : StoreOk b1 s) (hb : b1 ≤ b2) :
    StoreOk b2 s :=
  fun p hp => logOk_mono b1 b2 p.1 p.2 (h p hp) hb

theorem storeOk_mapSet (bound : Nat) (db : List (String × List Application)) (k : String)
    (v : List Application) (h : StoreOk bound (Store.mk db)) (hv : LogOk bound k v) :
    StoreOk bound (Store.mk (mapSet db k v)) := by
  intro p hp
  rcases mem_mapSet db k v p hp with e | hm
  · rw [e]; exact hv
  · exact h p hm

theorem storeOk_lookup (bound : Nat) (s : Store) (k : String) (revs : List Application)
    (h : StoreOk bound s) (hg : mapGet s.db k = some revs) : LogOk bound k revs :=
  h (k, revs) (mem_of_mapGet s.db k revs hg)

theorem storeOk_Create (addrOk : String → Bool) (bound : Nat) (s : Store) (app : Application)
    (now : Time) (h : StoreOk bound s) (hb : bound < 9223372036854775808) :
    StoreOk (bound + 1) (Store.Create addrOk s app now).2 := by
  have h1 : StoreOk (bound + 1) s := storeOk_mono bound (bound + 1) s h (by omega)
  cases hv : validateApplication addrOk app with
  | some e => rw [Create_invalid addrOk s app now e hv]; exact h1
  | none =>
    cases hg : mapGet s.db app.Title with
    | none =>
      rw [Create_absent addrOk s app now hv hg]
      refine storeOk_mapSet (bound + 1) s.db _ _ h1 ⟨by simp, ?_, 0, ?_, ?_⟩
      · intro e he
        rw [List.mem_singleton.mp he]
      · exact ⟨rfl, trivial⟩
      · simp
    | some revs =>
      have hok := storeOk_lookup bound s _ revs h hg
      obtain ⟨l, hl⟩ := getLast?_of_ne_nil revs hok.1
      by_cases hd : l.DeleteTimeStamp = none
      · rw [Create_active addrOk s app now revs l hv hg hl hd]; exact h1
      · rw [Create_deleted addrOk s app now revs l hv hg hl hd]
        exact storeOk_mapSet (bound + 1) s.db _ _ h1
          (logOk_append bound _ revs l _ hok hb hl rfl rfl)

theorem storeOk_Delete (bound : Nat) (s : Store) (k : String) (now : Time)
    (h : StoreOk bound s) (hb : bound < 9223372036854775808) :
    StoreOk (bound + 1) (Store.Delete s k now).2 := by
  have h1 : StoreOk (bound + 1) s := storeOk_mono bound (bound + 1) s h (by omega)
  cases hg : mapGet s.db k with
  | none => rw [Delete_absent s k now hg]; exact h1
  | some revs =>
    have hok := storeOk_lookup bound s _ revs h hg
    obtain ⟨l, hl⟩ := getLast?_of_ne_nil revs hok.1
    by_cases hd : l.DeleteTimeStamp = none
    · rw [Delete_active s k now revs l hg hl hd]
      have hmem : l ∈ revs := by
        rw [← dropLast_append_getLast? revs l hl]; simp
      have ht : l.Title = k := hok.2.1 l hmem
      unfold appendRev
      rw [ht, hg]
      exact storeOk_mapSet (bound + 1) s.db _ _ h1
        (logOk_append bound _ revs l _ hok hb hl rfl rfl)
    · rw [Delete_deleted s k now revs l hg hl hd]; exact h1

theorem storeOk_Update (addrOk : String → Bool) (bound : Nat) (s : Store) (app : Application)
    (h : StoreOk bound s) (hb : bound < 9223372036854775808) :
    StoreOk (bound + 1) (Store.Update addrOk s app).2.1 := by
  have h1 : StoreOk (bound + 1) s := storeOk_mono bound (bound + 1) s h (by omega)
  cases hv : validateApplication addrOk app with
  | some e => rw [Update_invalid addrOk s app e hv]; exact h1
  | none =>
    cases hg : mapGet s.db app.Title with
    | none => rw [Update_absent addrOk s app hv hg]; exact h1
    | some revs =>
      have hok := storeOk_lookup bound s _ revs h hg
      obtain ⟨l, hl⟩ := getLast?_of_ne_nil revs hok.1
      by_cases hd : l.DeleteTimeStamp = none
      · have hr := (Equal_right_fields app l).1
        have hla := (Equal_left_fields app l).1
        have ht : (Equal app l).2.2.Title = l.Title := by rw [hr]
        have hrv : (Equal app l).2.2.ResourceVersion = l.ResourceVersion := by rw [hr]
        have hta : (Equal app l).2.1.Title = app.Title := by rw [hla]
        have hset := logOk_setLast bound _ revs l _ hok hl ht hrv
        cases he : (Equal app l).1 with
        | true =>
          rw [Update_equal addrOk s app revs l hv hg hl hd he]
          exact storeOk_mapSet (bound + 1) s.db _ _ h1
            (logOk_mono bound (bound + 1) _ _ hset (by omega))
        | false =>
          rw [Update_changed addrOk s app revs l hv hg hl hd he]
          refine storeOk_mapSet (bound + 1) s.db _ _ h1
            (logOk_append bound _ _ (Equal app l).2.2 _ hset hb (by simp) hta ?_)
          show Itoa (wrapInt64 (Atoi l.ResourceVersion + 1)) = _
          rw [hrv]
      · rw [Update_deleted addrOk s app revs l hv hg hl hd]; exact h1

theorem storeOk_Compaction (bound : Nat) (s : Store) (h : StoreOk bound s) :
    StoreOk bound (Store.Compaction s) := by
  intro p hp
  unfold Store.Compaction at hp
  obtain ⟨q, hq, e⟩ := List.mem_map.mp hp
  have hqok := h q hq
  by_cases hlen : q.2.length > DefaultCompactionRetention
  · rw [if_pos hlen] at e
    rw [← e]
    exact logOk_drop bound _ _ hqok hlen
  · rw [if_neg hlen] at e
    rw [← e]
    exact hqok

/-- A store reached by `n` calls, `n` at most `2^63`, keeps the log invariant
with resource versions below `n`. -/
theorem reachableIn_storeOk (addrOk : String → Bool) (n : Nat) (s : Store)
    (h : ReachableIn addrOk n s) : n ≤ 9223372036854775808 → StoreOk n s := by
  induction h with
  | init => intro _ p hp; cases hp
  | create n s app now _ ih =>
    intro hn
    exact storeOk_Create addrOk n s app now (ih (by omega)) (by omega)
  | update n s app _ ih =>
    intro hn
    exact storeOk_Update addrOk n s app (ih (by omega)) (by omega)
  | delete n s key now _ ih =>
    intro hn
    exact storeOk_Delete n s key now (ih (by omega)) (by omega)
  | compaction n s _ ih =>
    intro hn
    exact storeOk_mono n (n + 1) _ (storeOk_Compaction n s (ih (by omega))) (by omega)

theorem versionsFrom_mem (l : List Application) : ∀ n : Nat, versionsFrom n l →
    ∀ e ∈ l, ∃ m : Nat, (n ≤ m ∧ m < n + l.length) ∧ e.ResourceVersion = Itoa (m : Int) := by
  induction l with
  | nil => intro n _ e he; cases he
  | cons y ys ih =>
    intro n h e he
    rcases List.mem_cons.mp he with h1 | h1
    · exact ⟨n, ⟨le_refl n, by simp⟩, by rw [h1]; exact h.1⟩
    · obtain ⟨m, hm, hv⟩ := ih (n + 1) h.2 e h1
      refine ⟨m, ⟨by omega, ?_⟩, hv⟩
      rw [List.length_cons]
      omega

theorem versionsFrom_stepsByOne (l : List Application) : ∀ n : Nat, versionsFrom n l →
    stepsByOne l := by
  induction l with
  | nil => intro n _; exact List.chain'_nil
  | cons y ys ih =>
    intro n h
    cases ys with
    | nil => exact List.chain'_singleton y
    | cons z zs =>
      exact List.chain'_cons.mpr ⟨⟨n, h.1, h.2.1⟩, ih (n + 1) h.2⟩

theorem versionsFrom_strictlyIncreasing (l : List Application) : ∀ n : Nat,
    versionsFrom n l → n + l.length ≤ 9223372036854775808 → strictlyIncreasing l := by
  induction l with
  | nil => intro n _ _; exact List.Pairwise.nil
  | cons y ys ih =>
    intro n h hb
    rw [List.length_cons] at hb
    refine List.Pairwise.cons ?_ (ih (n + 1) h.2 (by omega))
    intro e he
    obtain ⟨m, hm, hv⟩ := versionsFrom_mem ys (n + 1) h.2 e he
    rw [h.1, hv, Atoi_Itoa_nat n (by omega), Atoi_Itoa_nat m (by omega)]
    exact_mod_cast hm.1

theorem DumpKey_present (s : Store) (k : String) (revs : List Application)
    (hg : mapGet s.db k = some revs) (hne : revs ≠ []) :
    Store.DumpKey s k = (Outcome.ok revs, s) := by
  have hlen : ¬ revs.length = 0 := fun e => hne (List.length_eq_zero.mp e)
  have hmap : List.map DeepCopy revs = revs := by
    have : DeepCopy = id := funext DeepCopy_eq
    rw [this]; simp
  unfold Store.DumpKey
  simp [hg, hlen, foldl_append_singleton, hmap]

theorem DumpKey_absent (s : Store) (k : String) (hg : mapGet s.db k = none) :
    Store.DumpKey s k = (Outcome.err (Err.notExist k), s) := by
  unfold Store.DumpKey
  simp [hg]

theorem listLoop_noPanic (sources : List String) (matchSource : Bool) (companies : List String)
    (matchCompany : Bool) (db : List (String × List Application)) :
    (∀ p ∈ db, p.2 ≠ []) → ∀ ret,
      (listLoop sources matchSource companies matchCompany db ret).isPanic = false := by
  induction db with
  | nil => intro _ ret; rfl
  | cons q rest ih =>
    intro h ret
    obtain ⟨k, v⟩ := q
    have hv : v ≠ [] := h (k, v) (List.mem_cons_self _ _)
    obtain ⟨l, hl⟩ := getLast?_of_ne_nil v hv
    have hrest : ∀ p ∈ rest, p.2 ≠ [] := fun p hp => h p (List.mem_cons_of_mem _ hp)
    unfold listLoop
    simp only [hl]
    split_ifs <;> exact ih hrest _

theorem neverPanics_of_storeTitled (addrOk : String → Bool) (s : Store) (h : StoreTitled s) :
    neverPanics addrOk s := by
  refine ⟨?_, ?_, ?_, ?_, ?_, ?_⟩
  · intro key
    cases hg : mapGet s.db key with
    | none => rw [Get_absent s key hg]; rfl
    | some revs =>
      obtain ⟨l, hl⟩ := getLast?_of_ne_nil revs (storeTitled_lookup s _ revs h hg).1
      by_cases hd : l.DeleteTimeStamp = none
      · rw [Get_active s key revs l hg hl hd]; rfl
      · rw [Get_deleted s key revs l hg hl hd]; rfl
  · intro key
    cases hg : mapGet s.db key with
    | none => rw [DumpKey_absent s key hg]; rfl
    | some revs => rw [DumpKey_present s key revs hg (storeTitled_lookup s _ revs h hg).1]; rfl
  · intro options
    exact listLoop_noPanic _ _ _ _ s.db (fun p hp => (h p hp).1) []
  · intro app now
    cases hv : validateApplication addrOk app with
    | some e => rw [Create_invalid addrOk s app now e hv]; rfl
    | none =>
      cases hg : mapGet s.db app.Title with
      | none => rw [Create_absent addrOk s app now hv hg]; rfl
      | some revs =>
        obtain ⟨l, hl⟩ := getLast?_of_ne_nil revs (storeTitled_lookup s _ revs h hg).1
        by_cases hd : l.DeleteTimeStamp = none
        · rw [Create_active addrOk s app now revs l hv hg hl hd]; rfl
        · rw [Create_deleted addrOk s app now revs l hv hg hl hd]; rfl
  · intro app
    cases hv : validateApplication addrOk app with
    | some e => rw [Update_invalid addrOk s app e hv]; rfl
    | none =>
      cases hg : mapGet s.db app.Title with
      | none => rw [Update_absent addrOk s app hv hg]; rfl
      | some revs =>
        obtain ⟨l, hl⟩ := getLast?_of_ne_nil revs (storeTitled_lookup s _ revs h hg).1
        by_cases hd : l.DeleteTimeStamp = none
        · cases he : (Equal app l).1 with
          | true => rw [Update_equal addrOk s app revs l hv hg hl hd he]; rfl
          | false => rw [Update_changed addrOk s app revs l hv hg hl hd he]; rfl
        · rw [Update_deleted addrOk s app revs l hv hg hl hd]; rfl
  · intro key now
    cases hg : mapGet s.db key with
    | none => rw [Delete_absent s key now hg]; rfl
    | some revs =>
      obtain ⟨l, hl⟩ := getLast?_of_ne_nil revs (storeTitled_lookup s _ revs h hg).1
      by_cases hd : l.DeleteTimeStamp = none
      · rw [Delete_active s key now revs l hg hl hd]; rfl
      · rw [Delete_deleted s key now revs l hg hl hd]; rfl

theorem mem_of_getLast? {α : Type} (l : List α) (x : α) (h : l.getLast? = some x) : x ∈ l := by
  rw [← dropLast_append_getLast? l x h]; simp

/-- The outcome of `Delete` on an ACTIVE key in a store whose logs are filed
under their keys. -/
theorem Delete_active_ok (s : Store) (k : String) (now : Time) (revs : List Application)
    (l : Application) (hok : StoreTitled s) (hg : mapGet s.db k = some revs)
    (hl : revs.getLast? = some l) (hd : l.DeleteTimeStamp = none) :
    Store.Delete s k now =
      (Outcome.ok (), Store.mk (mapSet s.db k (revs ++
        [{ l with DeleteTimeStamp := some now,
                  ResourceVersion := Itoa (wrapInt64 (Atoi l.ResourceVersion + 1)) }]))) := by
  have ht : l.Title = k := (storeTitled_lookup s k revs hok hg).2 l (mem_of_getLast? revs l hl)
  rw [Delete_active s k now revs l hg hl hd]
  unfold appendRev
  rw [ht, hg]
  rfl

/-- At the resource version `MaxInt64` the increment wraps around: `Delete`
appends a revision with the resource version `MinInt64`, and so do `Update`
and, after that deletion, `Create`, each reading the text `MinInt64 + k` back
and adding one. -/
theorem increment_wraps_at_MaxInt64 :
    Atoi "9223372036854775807" = MaxInt64 ∧
    wrapInt64 (MaxInt64 + 1) = MinInt64 ∧
    (Store.Delete sampleMaxStore "X" 7).2 =
      Store.mk [("X", [{ sampleRev with ResourceVersion := "9223372036854775807" },
        { sampleRev with ResourceVersion := "-9223372036854775808",
                         DeleteTimeStamp := some 7 }])] ∧
    (mapGet (Store.Update anyAddress sampleMaxStore
        { sampleApp with Version := "2" }).2.1.db "X").bind List.getLast? =
      some { sampleRev with Version := "2", ResourceVersion := "-9223372036854775808" } ∧
    (mapGet (Store.Create anyAddress (Store.Delete sampleMaxStore "X" 7).2
        sampleApp 8).2.db "X").bind List.getLast? =
      some { sampleApp with ResourceVersion := "-9223372036854775807", CreateTimeStamp := 8 } ∧
    Atoi "9223372036854775808" = MaxInt64 ∧
    Atoi "-9223372036854775809" = MinInt64 ∧
    Atoi "18446744073709551616" = MaxInt64 ∧
    Atoi "12a" = 0 ∧ Atoi "" = 0 ∧ Atoi "+7" = 7 ∧ Atoi "-7" = -7 :=
  ⟨by decide, by decide, by decide, by decide, by decide, by decide, by decide, by decide,
    by decide, by decide, by decide, by decide⟩

/-! ## C1: the revision-log invariant -/

/-- C1. In every store reached from `NewStore()` by `n` calls of `Create`,
`Update`, `Delete` and `Compaction` with arbitrary arguments, every key
present has a non-empty log, which `DumpKey` returns, and no method takes a
"should have at least one record" panic branch. While `n` is at most `2^63`
(`MaxInt64 + 1`, so that no `lastVersion + 1` has wrapped around), every
stored resource version is the decimal text of a natural number, and along
each log the resource versions increase strictly, each being its
predecessor's plus one. -/
theorem revision_log_invariant (addrOk : String → Bool) (n : Nat) (s : Store)
    (h : ReachableIn addrOk n s) :
    (∀ k revs, mapGet s.db k = some revs →
      revs ≠ [] ∧ (Store.DumpKey s k).1 = Outcome.ok revs) ∧
    neverPanics addrOk s ∧
    ((n : Int) ≤ MaxInt64 + 1 → ∀ k revs, mapGet s.db k = some revs →
      (∀ e ∈ revs, ∃ m : Nat, e.ResourceVersion = Itoa (m : Int)) ∧
      stepsByOne revs ∧ strictlyIncreasing revs) := by
  have ht := reachable_storeTitled addrOk s (reachable_of_reachableIn addrOk n s h)
  refine ⟨?_, neverPanics_of_storeTitled addrOk s ht, ?_⟩
  · intro k revs hg
    have hne := (storeTitled_lookup s k revs ht hg).1
    refine ⟨hne, ?_⟩
    rw [DumpKey_present s k revs hg hne]
  · intro hn k revs hg
    have hn2 : n ≤ 9223372036854775808 := by
      unfold MaxInt64 at hn
      omega
    obtain ⟨_, _, m, hm, hle⟩ := storeOk_lookup n s k revs (reachableIn_storeOk addrOk n s h hn2) hg
    refine ⟨?_, versionsFrom_stepsByOne revs m hm,
      versionsFrom_strictlyIncreasing revs m hm (by omega)⟩
    intro e he
    obtain ⟨j, _, hj⟩ := versionsFrom_mem revs m hm e he
    exact ⟨j, hj⟩

/-- C1 at the store reached by the four calls `Create`, `Update`, `Delete`,
`Compaction` in turn. -/
theorem revision_log_invariant_witness :
    ReachableIn anyAddress 4 sampleCycleStore ∧
    (∀ k revs, mapGet sampleCycleStore.db k = some revs →
      revs ≠ [] ∧ (Store.DumpKey sampleCycleStore k).1 = Outcome.ok revs) ∧
    neverPanics anyAddress sampleCycleStore ∧
    (((4 : Nat) : Int) ≤ MaxInt64 + 1 ∧ ∀ k revs, mapGet sampleCycleStore.db k = some revs →
      (∀ e ∈ revs, ∃ m : Nat, e.ResourceVersion = Itoa (m : Int)) ∧
      stepsByOne revs ∧ strictlyIncreasing revs) :=
  ⟨ReachableIn.compaction 3 _ (ReachableIn.delete 2 _ _ _ (ReachableIn.update 1 _ _
      (ReachableIn.create 0 _ _ _ ReachableIn.init))),
    (revision_log_invariant anyAddress 4 sampleCycleStore
      (ReachableIn.compaction 3 _ (ReachableIn.delete 2 _ _ _ (ReachableIn.update 1 _ _
        (ReachableIn.create 0 _ _ _ ReachableIn.init))))).1,
    (revision_log_invariant anyAddress 4 sampleCycleStore
      (ReachableIn.compaction 3 _ (ReachableIn.delete 2 _ _ _ (ReachableIn.update 1 _ _
        (ReachableIn.create 0 _ _ _ ReachableIn.init))))).2.1,
    by decide,
    (revision_log_invariant anyAddress 4 sampleCycleStore
      (ReachableIn.compaction 3 _ (ReachableIn.delete 2 _ _ _ (ReachableIn.update 1 _ _
        (ReachableIn.create 0 _ _ _ ReachableIn.init))))).2.2 (by decide)⟩

/-! ## C2: Create then Get -/

/-- C2. When the title of `r` is ABSENT, `r` passes validation and carries no
deletion timestamp, `Create(r)` at time `now` succeeds and the following
`Get(r.Title)` succeeds and returns `r` with resource version "0", creation
timestamp `now` and no deletion time: title, version, maintainers (same
entries, same order), company, website, source, license and description are
those of `r`, whatever resource version and creation timestamp `r` carried. -/
theorem create_get_roundtrip (addrOk : String → Bool) (s : Store) (r : Application)
    (now : Time) (habs : isAbsent s r.Title) (hv : validateApplication addrOk r = none)
    (hd : r.DeleteTimeStamp = none) :
    (Store.Create addrOk s r now).1 = Outcome.ok () ∧
    (Store.Get (Store.Create addrOk s r now).2 r.Title).1 =
      Outcome.ok { r with ResourceVersion := "0", CreateTimeStamp := now,
                          DeleteTimeStamp := none } := by
  rw [Create_absent addrOk s r now hv habs]
  refine ⟨rfl, ?_⟩
  rw [Get_active _ r.Title [{ r with ResourceVersion := Itoa 0, CreateTimeStamp := now }]
    { r with ResourceVersion := Itoa 0, CreateTimeStamp := now }
    (mapGet_mapSet_same _ _ _) rfl hd]
  show Outcome.ok _ = Outcome.ok _
  congr 1
  obtain ⟨t, v, ms, c, w, so, li, d, cts, dts, rv⟩ := r
  cases hd
  rfl

/-- C2 on the new store with `sampleApp`. -/
theorem create_get_roundtrip_witness :
    (isAbsent NewStore sampleApp.Title ∧ validateApplication anyAddress sampleApp = none ∧
      sampleApp.DeleteTimeStamp = none) ∧
    (Store.Create anyAddress NewStore sampleApp 5).1 = Outcome.ok () ∧
    (Store.Get (Store.Create anyAddress NewStore sampleApp 5).2 sampleApp.Title).1 =
      Outcome.ok { sampleApp with ResourceVersion := "0", CreateTimeStamp := 5,
                                  DeleteTimeStamp := none } :=
  ⟨⟨rfl, by decide, rfl⟩, create_get_roundtrip anyAddress NewStore sampleApp 5 rfl (by decide) rfl⟩

/-! ## C3: Update -/

/-- What `Update` does on an ACTIVE title. Let the title of `r` be ACTIVE with
last revision `l`, whose resource version is the text of `n`, with `n + 1` at
most `MaxInt64`, and let `r` pass validation. If `api.Equal(r, l)` holds,
`Update(r)` is rejected with the up-to-date error. If version, company,
website, source, license, description or the multiset of maintainers differs,
`Update(r)` succeeds and the new last revision has the title, version,
company, website, source, license and description of `r`, the resource version
`n + 1` and the creation timestamp of `l`; its maintainers are those of `r`,
in the order of `r` or in the order `sort.Slice` gave them inside `api.Equal`. -/
theorem Update_on_active (addrOk : String → Bool) (s : Store) (r l : Application)
    (n : Nat) (hact : activeWith s r.Title l) (hv : validateApplication addrOk r = none)
    (hn : l.ResourceVersion = Itoa (n : Int)) (hb : (n : Int) + 1 ≤ MaxInt64) :
    ((Equal r l).1 = true →
      (Store.Update addrOk s r).1 = Outcome.err (Err.upToDate r.Title)) ∧
    ((r.Version ≠ l.Version ∨ r.Company ≠ l.Company ∨ r.Website ≠ l.Website ∨
        r.Source ≠ l.Source ∨ r.License ≠ l.License ∨ r.Description ≠ l.Description ∨
        ¬ r.Maintainers.Perm l.Maintainers) →
      (Store.Update addrOk s r).1 = Outcome.ok () ∧
      ∃ revs new, mapGet (Store.Update addrOk s r).2.1.db r.Title = some revs ∧
        revs.getLast? = some new ∧
        new.Title = r.Title ∧ new.Version = r.Version ∧ new.Company = r.Company ∧
        new.Website = r.Website ∧ new.Source = r.Source ∧ new.License = r.License ∧
        new.Description = r.Description ∧
        (new.Maintainers = r.Maintainers ∨
          new.Maintainers = sortSlice maintainerLess r.Maintainers) ∧
        new.ResourceVersion = Itoa ((n + 1 : Nat) : Int) ∧
        new.CreateTimeStamp = l.CreateTimeStamp) := by
  obtain ⟨revs0, hg, hl, hd⟩ := hact
  constructor
  · intro he
    rw [Update_equal addrOk s r revs0 l hv hg hl hd he]
  · intro hdiff
    have he : (Equal r l).1 = false := by
      cases hc : (Equal r l).1 with
      | false => rfl
      | true =>
        exfalso
        obtain ⟨⟨_, h2, h3, h4, h5, h6, h7⟩, hp⟩ := (Equal_fst r l).mp hc
        rcases hdiff with h | h | h | h | h | h | h
        · exact h h2
        · exact h h3
        · exact h h4
        · exact h h5
        · exact h h6
        · exact h h7
        · exact h hp
    rw [Update_changed addrOk s r revs0 l hv hg hl hd he]
    refine ⟨rfl, _, _, mapGet_mapSet_same _ _ _, getLast?_append_singleton _ _, ?_⟩
    obtain ⟨hf, _⟩ := Equal_left_fields r l
    refine ⟨?_, ?_, ?_, ?_, ?_, ?_, ?_, ?_, ?_, rfl⟩
    · show (Equal r l).2.1.Title = _; rw [hf]
    · show (Equal r l).2.1.Version = _; rw [hf]
    · show (Equal r l).2.1.Company = _; rw [hf]
    · show (Equal r l).2.1.Website = _; rw [hf]
    · show (Equal r l).2.1.Source = _; rw [hf]
    · show (Equal r l).2.1.License = _; rw [hf]
    · show (Equal r l).2.1.Description = _; rw [hf]
    · show (Equal r l).2.1.Maintainers = _ ∨ (Equal r l).2.1.Maintainers = _
      rcases Equal_left r l with h | h
      · left; rw [h]
      · right; rw [h]
    · show Itoa (wrapInt64 (Atoi l.ResourceVersion + 1)) = _
      rw [hn]
      refine Itoa_succ n ?_
      unfold MaxInt64 at hb
      omega

/-- On `sampleStore` updating `sampleApp` to version "2" succeeds, and sending
`sampleApp` unchanged is rejected. -/
theorem Update_on_active_witness :
    (activeWith sampleStore sampleApp.Title sampleRev ∧
      validateApplication anyAddress { sampleApp with Version := "2" } = none ∧
      validateApplication anyAddress sampleApp = none ∧
      sampleRev.ResourceVersion = Itoa ((0 : Nat) : Int) ∧ ((0 : Nat) : Int) + 1 ≤ MaxInt64) ∧
    (Store.Update anyAddress sampleStore { sampleApp with Version := "2" }).1 = Outcome.ok () ∧
    (Store.Update anyAddress sampleStore sampleApp).1 = Outcome.err (Err.upToDate "X") :=
  ⟨⟨⟨[sampleRev], by decide, by decide, rfl⟩, by decide, by decide, by decide, by decide⟩,
    ((Update_on_active anyAddress sampleStore { sampleApp with Version := "2" }
      sampleRev 0 ⟨[sampleRev], by decide, by decide, rfl⟩ (by decide) (by decide)
        (by decide)).2 (Or.inl (by decide))).1,
    (Update_on_active anyAddress sampleStore sampleApp
      sampleRev 0 ⟨[sampleRev], by decide, by decide, rfl⟩ (by decide) (by decide)
        (by decide)).1 (by decide)⟩

/-- C3, the code at an update that changes only the maintainers and keeps their
number: "X" is ACTIVE in `sampleStore` with last revision `sampleRev`
(maintainers bob, al); the record `sampleApp` with maintainers di, cy in that
order passes validation and differs from `sampleRev` in the multiset of
maintainers. `Update` succeeds with resource version "1" and the creation
timestamp of `sampleRev`, but the new last revision carries the maintainers
cy, di: the list of the record, re-ordered by the `sort.Slice` of `api.Equal`
before `Update` copied it. -/
theorem update_stores_sorted_maintainers :
    activeWith sampleStore "X" sampleRev ∧
    validateApplication anyAddress
      { sampleApp with Maintainers := [⟨"di", "d@x.io"⟩, ⟨"cy", "c@x.io"⟩] } = none ∧
    ¬ List.Perm [(⟨"di", "d@x.io"⟩ : Maintainer), ⟨"cy", "c@x.io"⟩] sampleRev.Maintainers ∧
    (Store.Update anyAddress sampleStore
      { sampleApp with Maintainers := [⟨"di", "d@x.io"⟩, ⟨"cy", "c@x.io"⟩] }).1 = Outcome.ok () ∧
    (mapGet (Store.Update anyAddress sampleStore
      { sampleApp with Maintainers := [⟨"di", "d@x.io"⟩, ⟨"cy", "c@x.io"⟩] }).2.1.db "X").bind
        List.getLast? =
      some { sampleRev with Maintainers := [⟨"cy", "c@x.io"⟩, ⟨"di", "d@x.io"⟩],
                            ResourceVersion := "1" } ∧
    [(⟨"cy", "c@x.io"⟩ : Maintainer), ⟨"di", "d@x.io"⟩] ≠ [⟨"di", "d@x.io"⟩, ⟨"cy", "c@x.io"⟩] :=
  ⟨⟨[sampleRev], by decide, by decide, rfl⟩, by decide, by decide, by decide, by decide,
    by decide⟩

/-! ## C4: Delete, then Get, then Create -/

/-- C4. In a reachable store where title `t` is ACTIVE with last resource
version `n`, `n + 2` being at most `MaxInt64` (so that neither increment wraps
around), `Delete(t)` succeeds and appends the revision `n + 1`; the following
`Get(t)` fails; and a following `Create(r)` of any valid `r` titled `t`
succeeds and appends one revision whose resource version is `n + 2`, not
"0". -/
theorem delete_then_get_then_create (addrOk : String → Bool) (s : Store)
    (hs : Reachable addrOk s) (t : String) (l r : Application) (n : Nat) (now1 now2 : Time)
    (hact : activeWith s t l) (hn : l.ResourceVersion = Itoa (n : Int))
    (hb : (n : Int) + 2 ≤ MaxInt64)
    (hr : r.Title = t) (hv : validateApplication addrOk r = none) :
    (Store.Delete s t now1).1 = Outcome.ok () ∧
    (Store.Get (Store.Delete s t now1).2 t).1 = Outcome.err (Err.getDeleted t) ∧
    (Store.Create addrOk (Store.Delete s t now1).2 r now2).1 = Outcome.ok () ∧
    ∃ revs del new, mapGet (Store.Delete s t now1).2.db t = some revs ∧
      revs.getLast? = some del ∧
      del.ResourceVersion = Itoa ((n + 1 : Nat) : Int) ∧
      mapGet (Store.Create addrOk (Store.Delete s t now1).2 r now2).2.db t
        = some (revs ++ [new]) ∧
      new.ResourceVersion = Itoa ((n + 2 : Nat) : Int) ∧
      new.ResourceVersion ≠ "0" := by
  obtain ⟨revs0, hg, hl, hd⟩ := hact
  have hok := reachable_storeTitled addrOk s hs
  have hb2 : n + 2 < 9223372036854775808 := by
    unfold MaxInt64 at hb
    omega
  subst hr
  rw [Delete_active_ok s r.Title now1 revs0 l hok hg hl hd]
  have hrv : Itoa (wrapInt64 (Atoi l.ResourceVersion + 1)) = Itoa ((n + 1 : Nat) : Int) := by
    rw [hn]; exact Itoa_succ n (by omega)
  rw [hrv]
  obtain ⟨del, hdel⟩ : ∃ del : Application, del =
      { l with DeleteTimeStamp := some now1, ResourceVersion := Itoa ((n + 1 : Nat) : Int) } :=
    ⟨_, rfl⟩
  rw [← hdel]
  have hg1 : mapGet (Store.mk (mapSet s.db r.Title (revs0 ++ [del]))).db r.Title
      = some (revs0 ++ [del]) := mapGet_mapSet_same _ _ _
  have hl1 := getLast?_append_singleton revs0 del
  have hd1 : del.DeleteTimeStamp ≠ none := by rw [hdel]; simp
  have hdv : del.ResourceVersion = Itoa ((n + 1 : Nat) : Int) := by rw [hdel]
  have hc := Create_deleted addrOk (Store.mk (mapSet s.db r.Title (revs0 ++ [del]))) r now2
    _ _ hv hg1 hl1 hd1
  refine ⟨rfl, ?_, ?_, ?_⟩
  · exact congrArg Prod.fst (Get_deleted _ r.Title _ _ hg1 hl1 hd1)
  · exact congrArg Prod.fst hc
  · refine ⟨revs0 ++ [del], del,
      { r with ResourceVersion := Itoa ((n + 2 : Nat) : Int), CreateTimeStamp := now2 },
      hg1, hl1, hdv, ?_, rfl, ?_⟩
    · show mapGet (Store.Create addrOk (Store.mk (mapSet s.db r.Title (revs0 ++ [del])))
        r now2).2.db r.Title = _
      rw [hc]
      show mapGet (mapSet (mapSet s.db r.Title _) r.Title _) r.Title = _
      rw [mapGet_mapSet_same, hdv, Itoa_succ (n + 1) (by omega)]
    · intro h0
      have : n + 2 = 0 := Itoa_nat_inj (n + 2) 0 (by omega) (by omega) h0
      omega

/-- C4 on `sampleStore`: delete "X", then create `sampleApp` again. -/
theorem delete_then_get_then_create_witness :
    (Reachable anyAddress sampleStore ∧ activeWith sampleStore "X" sampleRev ∧
      sampleRev.ResourceVersion = Itoa ((0 : Nat) : Int) ∧ ((0 : Nat) : Int) + 2 ≤ MaxInt64 ∧
      sampleApp.Title = "X" ∧ validateApplication anyAddress sampleApp = none) ∧
    (Store.Get (Store.Delete sampleStore "X" 7).2 "X").1 = Outcome.err (Err.getDeleted "X") ∧
    (Store.Create anyAddress (Store.Delete sampleStore "X" 7).2 sampleApp 8).1 = Outcome.ok () :=
  ⟨⟨Reachable.create _ _ _ Reachable.init, ⟨[sampleRev], by decide, by decide, rfl⟩,
      by decide, by decide, rfl, by decide⟩,
    (delete_then_get_then_create anyAddress sampleStore (Reachable.create _ _ _ Reachable.init)
      "X" sampleRev sampleApp 0 7 8 ⟨[sampleRev], by decide, by decide, rfl⟩
      (by decide) (by decide) rfl (by decide)).2.1,
    (delete_then_get_then_create anyAddress sampleStore (Reachable.create _ _ _ Reachable.init)
      "X" sampleRev sampleApp 0 7 8 ⟨[sampleRev], by decide, by decide, rfl⟩
      (by decide) (by decide) rfl (by decide)).2.2.1⟩

/-! ## C5: the deletion time of the revision Create and Update append -/

/-- C5, the code at a record whose `DeleteTimeStamp` the caller has set:
`Create` on the new store returns no error and files a revision that keeps
that deletion time, so the following `Get` fails with "has been deleted";
`Update` of an ACTIVE key does the same. -/
theorem create_update_keep_caller_deletion_time :
    (Store.Create anyAddress NewStore { sampleApp with DeleteTimeStamp := some 3 } 5).1
      = Outcome.ok () ∧
    mapGet (Store.Create anyAddress NewStore { sampleApp with DeleteTimeStamp := some 3 } 5).2.db
      "X" = some [{ sampleApp with DeleteTimeStamp := some 3, ResourceVersion := "0",
                                   CreateTimeStamp := 5 }] ∧
    (Store.Get (Store.Create anyAddress NewStore
      { sampleApp with DeleteTimeStamp := some 3 } 5).2 "X").1 = Outcome.err (Err.getDeleted "X") ∧
    (Store.Update anyAddress sampleStore
      { sampleApp with Version := "2", DeleteTimeStamp := some 3 }).1 = Outcome.ok () ∧
    (Store.Get (Store.Update anyAddress sampleStore
      { sampleApp with Version := "2", DeleteTimeStamp := some 3 }).2.1 "X").1
      = Outcome.err (Err.getDeleted "X") := by
  decide

/-! ## C6: when Create, Update and Delete succeed -/

theorem firstWrongEmail_none (addrOk : String → Bool) (ms : List Maintainer) :
    firstWrongEmail addrOk ms = none ↔ ∀ m ∈ ms, addrOk m.Email = true := by
  induction ms with
  | nil => simp [firstWrongEmail]
  | cons m rest ih =>
    unfold firstWrongEmail
    by_cases h : addrOk m.Email = true
    · rw [if_pos h, ih]
      simp [h]
    · rw [if_neg h]
      simp [h]

theorem validateApplication_none (addrOk : String → Bool) (r : Application) :
    validateApplication addrOk r = none ↔
      (r.Title ≠ "" ∧ r.Version ≠ "" ∧ ∀ m ∈ r.Maintainers, addrOk m.Email = true) := by
  unfold validateApplication
  by_cases ht : r.Title = ""
  · simp [ht]
  · by_cases hv : r.Version = ""
    · simp [ht, hv]
    · rw [if_neg ht, if_neg hv, ← firstWrongEmail_none]
      cases firstWrongEmail addrOk r.Maintainers <;> simp [ht, hv]

/-- The three states of a key and the broken one exclude each other. -/
theorem key_state_cases (s : Store) (k : String) :
    (isAbsent s k ∧ ¬ isActive s k ∧ ¬ isDeleted s k) ∨
    (mapGet s.db k = some [] ∧ ¬ isAbsent s k ∧ ¬ isActive s k ∧ ¬ isDeleted s k) ∨
    (∃ revs l, mapGet s.db k = some revs ∧ revs.getLast? = some l ∧
      ((l.DeleteTimeStamp = none ∧ ¬ isAbsent s k ∧ isActive s k ∧ ¬ isDeleted s k) ∨
       (l.DeleteTimeStamp ≠ none ∧ ¬ isAbsent s k ∧ ¬ isActive s k ∧ isDeleted s k))) := by
  unfold isAbsent isActive isDeleted activeWith
  cases hg : mapGet s.db k with
  | none =>
    left
    refine ⟨rfl, ?_, ?_⟩
    · rintro ⟨l, revs, h, _⟩; cases h
    · rintro ⟨revs, l, h, _⟩; cases h
  | some revs =>
    right
    cases hl : revs.getLast? with
    | none =>
      left
      have hnil : revs = [] := List.getLast?_eq_none_iff.mp hl
      subst hnil
      refine ⟨rfl, by simp, ?_, ?_⟩
      · rintro ⟨l, revs, h, h2, _⟩
        cases h
        simp at h2
      · rintro ⟨revs, l, h, h2, _⟩
        cases h
        simp at h2
    | some l =>
      right
      refine ⟨revs, l, rfl, hl, ?_⟩
      by_cases hd : l.DeleteTimeStamp = none
      · left
        refine ⟨hd, by simp, ⟨l, revs, rfl, hl, hd⟩, ?_⟩
        rintro ⟨revs2, l2, h, h2, h3⟩
        cases h
        rw [hl] at h2
        cases h2
        exact h3 hd
      · right
        refine ⟨hd, by simp, ?_, ⟨revs, l, rfl, hl, hd⟩⟩
        rintro ⟨l2, revs2, h, h2, h3⟩
        cases h
        rw [hl] at h2
        cases h2
        exact hd h3

theorem Create_isOk_iff (addrOk : String → Bool) (s : Store) (r : Application) (now : Time) :
    (Store.Create addrOk s r now).1.isOk = true ↔
      (validateApplication addrOk r = none ∧ (isAbsent s r.Title ∨ isDeleted s r.Title)) := by
  cases hv : validateApplication addrOk r with
  | some e =>
    rw [Create_invalid addrOk s r now e hv]
    simp [Outcome.isOk]
  | none =>
    rcases key_state_cases s r.Title with ⟨h1, h2, h3⟩ | ⟨hg, h1, h2, h3⟩ |
      ⟨revs, l, hg, hl, ⟨hd, h1, h2, h3⟩ | ⟨hd, h1, h2, h3⟩⟩
    · rw [Create_absent addrOk s r now hv h1]
      simp [Outcome.isOk, h1]
    · rw [Create_empty addrOk s r now hv hg]
      simp [Outcome.isOk, h1, h3]
    · rw [Create_active addrOk s r now revs l hv hg hl hd]
      simp [Outcome.isOk, h1, h3]
    · rw [Create_deleted addrOk s r now revs l hv hg hl hd]
      simp [Outcome.isOk, h3]

theorem Update_isOk_iff (addrOk : String → Bool) (s : Store) (r : Application) :
    (Store.Update addrOk s r).1.isOk = true ↔
      (validateApplication addrOk r = none ∧
        ∃ l, activeWith s r.Title l ∧ (Equal r l).1 = false) := by
  cases hv : validateApplication addrOk r with
  | some e =>
    rw [Update_invalid addrOk s r e hv]
    simp [Outcome.isOk]
  | none =>
    rcases key_state_cases s r.Title with ⟨h1, h2, h3⟩ | ⟨hg, h1, h2, h3⟩ |
      ⟨revs, l, hg, hl, ⟨hd, h1, h2, h3⟩ | ⟨hd, h1, h2, h3⟩⟩
    · rw [Update_absent addrOk s r hv h1]
      simp only [Outcome.isOk, true_and]
      constructor
      · intro h; cases h
      · rintro ⟨l, hl, _⟩; exact absurd ⟨l, hl⟩ h2
    · rw [Update_empty addrOk s r hv hg]
      simp only [Outcome.isOk, true_and]
      constructor
      · intro h; cases h
      · rintro ⟨l, hl, _⟩; exact absurd ⟨l, hl⟩ h2
    · have huniq : ∀ l2, activeWith s r.Title l2 → l2 = l := by
        rintro l2 ⟨revs2, hg2, hl2, _⟩
        rw [hg] at hg2
        cases hg2
        rw [hl] at hl2
        cases hl2
        rfl
      cases he : (Equal r l).1 with
      | true =>
        rw [Update_equal addrOk s r revs l hv hg hl hd he]
        simp only [Outcome.isOk, true_and]
        constructor
        · intro h; cases h
        · rintro ⟨l2, hl2, he2⟩
          rw [huniq l2 hl2, he] at he2
          cases he2
      | false =>
        rw [Update_changed addrOk s r revs l hv hg hl hd he]
        simp only [Outcome.isOk, true_and]
        constructor
        · intro _; exact ⟨l, ⟨revs, hg, hl, hd⟩, he⟩
        · intro _; trivial
    · rw [Update_deleted addrOk s r revs l hv hg hl hd]
      simp only [Outcome.isOk, true_and]
      constructor
      · intro h; cases h
      · rintro ⟨l2, hl2, _⟩; exact absurd ⟨l2, hl2⟩ h2

theorem Delete_isOk_iff (s : Store) (k : String) (now : Time) :
    (Store.Delete s k now).1.isOk = true ↔ isActive s k := by
  rcases key_state_cases s k with ⟨h1, h2, h3⟩ | ⟨hg, h1, h2, h3⟩ |
    ⟨revs, l, hg, hl, ⟨hd, h1, h2, h3⟩ | ⟨hd, h1, h2, h3⟩⟩
  · rw [Delete_absent s k now h1]
    simp [Outcome.isOk, h2]
  · rw [Delete_empty s k now hg]
    simp [Outcome.isOk, h2]
  · rw [Delete_active s k now revs l hg hl hd]
    simp [Outcome.isOk, h2]
  · rw [Delete_deleted s k now revs l hg hl hd]
    simp [Outcome.isOk, h2]

theorem Update_isErr_of_absent_or_deleted (addrOk : String → Bool) (s : Store)
    (r : Application) (h : isAbsent s r.Title ∨ isDeleted s r.Title) :
    (Store.Update addrOk s r).1.isErr = true := by
  cases hv : validateApplication addrOk r with
  | some e => rw [Update_invalid addrOk s r e hv]; rfl
  | none =>
    rcases h with h | ⟨revs, l, hg, hl, hd⟩
    · rw [Update_absent addrOk s r hv h]; rfl
    · rw [Update_deleted addrOk s r revs l hv hg hl hd]; rfl

theorem Delete_isErr_of_absent_or_deleted (s : Store) (k : String) (now : Time)
    (h : isAbsent s k ∨ isDeleted s k) : (Store.Delete s k now).1.isErr = true := by
  rcases h with h | ⟨revs, l, hg, hl, hd⟩
  · rw [Delete_absent s k now h]; rfl
  · rw [Delete_deleted s k now revs l hg hl hd]; rfl

theorem Create_isErr_of_active (addrOk : String → Bool) (s : Store) (r : Application)
    (now : Time) (h : isActive s r.Title) : (Store.Create addrOk s r now).1.isErr = true := by
  obtain ⟨l, revs, hg, hl, hd⟩ := h
  cases hv : validateApplication addrOk r with
  | some e => rw [Create_invalid addrOk s r now e hv]; rfl
  | none => rw [Create_active addrOk s r now revs l hv hg hl hd]; rfl

theorem invalid_of_empty (addrOk : String → Bool) (r : Application)
    (h : r.Title = "" ∨ r.Version = "") : ∃ e, validateApplication addrOk r = some e := by
  cases hv : validateApplication addrOk r with
  | some e => exact ⟨e, rfl⟩
  | none =>
    exfalso
    obtain ⟨h1, h2, _⟩ := (validateApplication_none addrOk r).mp hv
    rcases h with h | h
    · exact h1 h
    · exact h2 h

/-- C6. `Create(r)` succeeds exactly when `r` passes validation (non-empty
title, non-empty version, every maintainer e-mail accepted by
`mail.ParseAddress`) and its title is ABSENT or DELETED; `Update(r)` succeeds
exactly when `r` passes validation, its title is ACTIVE and `r` is not `Equal`
to the last revision; `Delete(k)` succeeds exactly when `k` is ACTIVE. Update
and Delete return an error on ABSENT and on DELETED keys, Create returns an
error on an ACTIVE key, and a record with empty title or empty version is
rejected by Create and Update whatever the store holds. -/
theorem success_conditions (addrOk : String → Bool) (s : Store) :
    (∀ r, validateApplication addrOk r = none ↔
      (r.Title ≠ "" ∧ r.Version ≠ "" ∧ ∀ m ∈ r.Maintainers, addrOk m.Email = true)) ∧
    (∀ r now, (Store.Create addrOk s r now).1.isOk = true ↔
      (validateApplication addrOk r = none ∧ (isAbsent s r.Title ∨ isDeleted s r.Title))) ∧
    (∀ r, (Store.Update addrOk s r).1.isOk = true ↔
      (validateApplication addrOk r = none ∧
        ∃ l, activeWith s r.Title l ∧ (Equal r l).1 = false)) ∧
    (∀ k now, (Store.Delete s k now).1.isOk = true ↔ isActive s k) ∧
    (∀ r, isAbsent s r.Title ∨ isDeleted s r.Title →
      (Store.Update addrOk s r).1.isErr = true) ∧
    (∀ k now, isAbsent s k ∨ isDeleted s k → (Store.Delete s k now).1.isErr = true) ∧
    (∀ r now, isActive s r.Title → (Store.Create addrOk s r now).1.isErr = true) ∧
    (∀ r now, r.Title = "" ∨ r.Version = "" →
      (Store.Create addrOk s r now).1.isErr = true ∧
      (Store.Update addrOk s r).1.isErr = true) := by
  refine ⟨validateApplication_none addrOk, Create_isOk_iff addrOk s, Update_isOk_iff addrOk s,
    Delete_isOk_iff s, Update_isErr_of_absent_or_deleted addrOk s,
    Delete_isErr_of_absent_or_deleted s, Create_isErr_of_active addrOk s, ?_⟩
  intro r now h
  obtain ⟨e, he⟩ := invalid_of_empty addrOk r h
  rw [Create_invalid addrOk s r now e he, Update_invalid addrOk s r e he]
  exact ⟨rfl, rfl⟩

/-! ## C7: Get -/

/-- C7. In a store whose logs are non-empty, `Get(k)` succeeds exactly when
`k` is ACTIVE and then returns a record equal, field for field, to the last
entry of the log; it returns an error exactly when `k` is ABSENT or DELETED;
and the store is the same after the call. -/
theorem get_spec (s : Store) (k : String) (hne : ∀ p ∈ s.db, p.2 ≠ []) :
    ((Store.Get s k).1.isOk = true ↔ isActive s k) ∧
    (∀ l, activeWith s k l → (Store.Get s k).1 = Outcome.ok l) ∧
    ((Store.Get s k).1.isErr = true ↔ (isAbsent s k ∨ isDeleted s k)) ∧
    (Store.Get s k).2 = s := by
  rcases key_state_cases s k with ⟨h1, h2, h3⟩ | ⟨hg, h1, h2, h3⟩ |
    ⟨revs, l, hg, hl, ⟨hd, h1, h2, h3⟩ | ⟨hd, h1, h2, h3⟩⟩
  · rw [Get_absent s k h1]
    refine ⟨by simp [Outcome.isOk, h2], ?_, by simp [Outcome.isErr, h1], rfl⟩
    intro l hl
    exact absurd ⟨l, hl⟩ h2
  · exact absurd rfl (hne (k, []) (mem_of_mapGet s.db k [] hg))
  · rw [Get_active s k revs l hg hl hd]
    refine ⟨by simp [Outcome.isOk, h2], ?_, by simp [Outcome.isErr, h1, h3], rfl⟩
    rintro l2 ⟨revs2, hg2, hl2, _⟩
    rw [hg] at hg2
    cases hg2
    rw [hl] at hl2
    cases hl2
    rfl
  · rw [Get_deleted s k revs l hg hl hd]
    refine ⟨by simp [Outcome.isOk, h2], ?_, by simp [Outcome.isErr, h3], rfl⟩
    intro l2 hl2
    exact absurd ⟨l2, hl2⟩ h2

/-- C7 on `sampleStore` and the key "X". -/
theorem get_spec_witness :
    (∀ p ∈ sampleStore.db, p.2 ≠ []) ∧
    ((Store.Get sampleStore "X").1.isOk = true ↔ isActive sampleStore "X") ∧
    (∀ l, activeWith sampleStore "X" l → (Store.Get sampleStore "X").1 = Outcome.ok l) ∧
    ((Store.Get sampleStore "X").1.isErr = true ↔
      (isAbsent sampleStore "X" ∨ isDeleted sampleStore "X")) ∧
    (Store.Get sampleStore "X").2 = sampleStore :=
  ⟨by decide, get_spec sampleStore "X" (by decide)⟩

/-! ## C8: the revision Delete appends -/

/-- C8. In a reachable store where key `k` is ACTIVE with last revision `l`,
whose resource version is the text of `n`, `n + 1` being at most `MaxInt64`
(so that the increment does not wrap around), `Delete(k)` at time `now` succeeds
and the log of `k` becomes the old log followed by exactly one revision: `l`
with its deletion time set to `now` and its resource version set to `n + 1`,
every other field (title, version, maintainers, company, website, source,
license, description, creation timestamp) as in `l`. The logs of all other
keys are unchanged. -/
theorem delete_appends_one_revision (addrOk : String → Bool) (s : Store)
    (hs : Reachable addrOk s) (k : String) (l : Application) (n : Nat) (now : Time)
    (hact : activeWith s k l) (hn : l.ResourceVersion = Itoa (n : Int))
    (hb : (n : Int) + 1 ≤ MaxInt64) :
    (Store.Delete s k now).1 = Outcome.ok () ∧
    (∃ revs, mapGet s.db k = some revs ∧
      mapGet (Store.Delete s k now).2.db k = some (revs ++
        [{ l with DeleteTimeStamp := some now,
                  ResourceVersion := Itoa ((n + 1 : Nat) : Int) }])) ∧
    (∀ k2, k2 ≠ k → mapGet (Store.Delete s k now).2.db k2 = mapGet s.db k2) := by
  obtain ⟨revs0, hg, hl, hd⟩ := hact
  have hok := reachable_storeTitled addrOk s hs
  have hb2 : n + 1 < 9223372036854775808 := by
    unfold MaxInt64 at hb
    omega
  rw [Delete_active_ok s k now revs0 l hok hg hl hd, hn, Itoa_succ n hb2]
  refine ⟨rfl, ⟨revs0, hg, mapGet_mapSet_same _ _ _⟩, ?_⟩
  intro k2 hk2
  exact mapGet_mapSet_other _ _ _ _ hk2

/-- C8 on `sampleStore` and the key "X". -/
theorem delete_appends_one_revision_witness :
    (Reachable anyAddress sampleStore ∧ activeWith sampleStore "X" sampleRev ∧
      sampleRev.ResourceVersion = Itoa ((0 : Nat) : Int) ∧ ((0 : Nat) : Int) + 1 ≤ MaxInt64) ∧
    (Store.Delete sampleStore "X" 7).1 = Outcome.ok () ∧
    (∃ revs, mapGet sampleStore.db "X" = some revs ∧
      mapGet (Store.Delete sampleStore "X" 7).2.db "X" = some (revs ++
        [{ sampleRev with DeleteTimeStamp := some 7,
                          ResourceVersion := Itoa ((0 + 1 : Nat) : Int) }])) ∧
    (∀ k2, k2 ≠ "X" → mapGet (Store.Delete sampleStore "X" 7).2.db k2
      = mapGet sampleStore.db k2) :=
  ⟨⟨Reachable.create _ _ _ Reachable.init, ⟨[sampleRev], by decide, by decide, rfl⟩, by decide,
      by decide⟩,
    delete_appends_one_revision anyAddress sampleStore (Reachable.create _ _ _ Reachable.init)
      "X" sampleRev 0 7 ⟨[sampleRev], by decide, by decide, rfl⟩ (by decide) (by decide)⟩

/-! ## C9: what Update does to the entries already in the log -/

/-- C9, the code at an update that changes only the maintainers and keeps their
number: `sampleStore` holds one revision of "X" with maintainers bob, al in
that order; `Update` with maintainers cy, di succeeds, and afterwards the
history `DumpKey` returns starts with that revision carrying al, bob: the
stored entry was re-ordered by the `sort.Slice` of `api.Equal`. -/
theorem update_reorders_last_entry :
    (Store.DumpKey sampleStore "X").1 = Outcome.ok [sampleRev] ∧
    sampleRev.Maintainers = [⟨"bob", "b@x.io"⟩, ⟨"al", "a@x.io"⟩] ∧
    (Store.Update anyAddress sampleStore
      { sampleApp with Maintainers := [⟨"cy", "c@x.io"⟩, ⟨"di", "d@x.io"⟩] }).1 = Outcome.ok () ∧
    (Store.DumpKey (Store.Update anyAddress sampleStore
      { sampleApp with Maintainers := [⟨"cy", "c@x.io"⟩, ⟨"di", "d@x.io"⟩] }).2.1 "X").1 =
      Outcome.ok
        [{ sampleRev with Maintainers := [⟨"al", "a@x.io"⟩, ⟨"bob", "b@x.io"⟩] },
         { sampleRev with Maintainers := [⟨"cy", "c@x.io"⟩, ⟨"di", "d@x.io"⟩],
                          ResourceVersion := "1" }] := by
  decide

/-! ## C10: Equal -/

/-- C10. `Equal(a, b)` returns true exactly when title, version, company,
website, source, license and description are pairwise equal and the
maintainers of `a` are a permutation of those of `b`; the timestamps and the
resource version of either record do not change the result. -/
theorem equal_iff_same_multiset (a b : Application) :
    ((Equal a b).1 = true ↔
      (a.Title = b.Title ∧ a.Version = b.Version ∧ a.Company = b.Company ∧
        a.Website = b.Website ∧ a.Source = b.Source ∧ a.License = b.License ∧
        a.Description = b.Description ∧ a.Maintainers.Perm b.Maintainers)) ∧
    (∀ (c1 c2 : Time) (d1 d2 : Option Time) (v1 v2 : String),
      (Equal { a with CreateTimeStamp := c1, DeleteTimeStamp := d1, ResourceVersion := v1 }
        { b with CreateTimeStamp := c2, DeleteTimeStamp := d2, ResourceVersion := v2 }).1
        = (Equal a b).1) := by
  constructor
  · rw [Equal_fst]
    unfold sameScalars
    tauto
  · intro c1 c2 d1 d2 v1 v2
    rw [Bool.eq_iff_iff, Equal_fst, Equal_fst]
    exact Iff.rfl

/-! ## C11: what Equal leaves in its arguments -/

/-- C11, the code at two records that agree in the seven scalar fields and
carry two maintainers each: `Equal` returns false and leaves both maintainer
lists sorted, so `sampleApp` reads al, bob after the call instead of bob, al.
In `Update` the same call is the no-op check: `Update(sampleApp)` on
`sampleStore` is rejected as up-to-date, and both the caller's record and the
last revision held by the store have their maintainers re-ordered. -/
theorem equal_sorts_its_arguments :
    sampleApp.Maintainers = [⟨"bob", "b@x.io"⟩, ⟨"al", "a@x.io"⟩] ∧
    Equal sampleApp { sampleApp with Maintainers := [⟨"di", "d@x.io"⟩, ⟨"cy", "c@x.io"⟩] } =
      (false,
        { sampleApp with Maintainers := [⟨"al", "a@x.io"⟩, ⟨"bob", "b@x.io"⟩] },
        { sampleApp with Maintainers := [⟨"cy", "c@x.io"⟩, ⟨"di", "d@x.io"⟩] }) ∧
    sampleStore = Store.mk [("X", [sampleRev])] ∧
    Store.Update anyAddress sampleStore sampleApp =
      (Outcome.err (Err.upToDate "X"),
        Store.mk [("X",
          [{ sampleRev with Maintainers := [⟨"al", "a@x.io"⟩, ⟨"bob", "b@x.io"⟩] }])],
        { sampleApp with Maintainers := [⟨"al", "a@x.io"⟩, ⟨"bob", "b@x.io"⟩] }) := by
  decide

/-! ## Compaction, entry by entry -/

theorem compactLog_of_short (v : List Application) (h : v.length ≤ DefaultCompactionRetention) :
    compactLog v = v := by
  unfold compactLog
  have : v.length - DefaultCompactionRetention = 0 := by omega
  rw [this]
  rfl

theorem Compaction_db (s : Store) :
    (Store.Compaction s).db = s.db.map (fun kv => (kv.1, compactLog kv.2)) := by
  unfold Store.Compaction
  show List.map _ s.db = List.map _ s.db
  apply List.map_congr_left
  intro kv _
  by_cases h : kv.2.length > DefaultCompactionRetention
  · rw [if_pos h]
    rfl
  · rw [if_neg h, compactLog_of_short kv.2 (by omega)]

theorem mapGet_map_values {β : Type} (g : β → β) (m : List (String × β)) (k : String) :
    mapGet (m.map (fun kv => (kv.1, g kv.2))) k = (mapGet m k).map g := by
  induction m with
  | nil => rfl
  | cons q rest ih =>
    obtain ⟨k1, v1⟩ := q
    by_cases h : k1 = k
    · simp [mapGet, h]
    · simp [mapGet, h, ih]

theorem mapSet_map_values {β : Type} (g : β → β) (m : List (String × β)) (k : String) (v : β) :
    (mapSet m k v).map (fun kv => (kv.1, g kv.2))
      = mapSet (m.map (fun kv => (kv.1, g kv.2))) k (g v) := by
  induction m with
  | nil => rfl
  | cons q rest ih =>
    obtain ⟨k1, v1⟩ := q
    by_cases h : k1 = k
    · simp [mapSet, h]
    · simp [mapSet, h, ih]

theorem mapGet_Compaction (s : Store) (k : String) :
    mapGet (Store.Compaction s).db k = (mapGet s.db k).map compactLog := by
  rw [Compaction_db]
  exact mapGet_map_values compactLog s.db k

theorem storeKeys_Compaction (s : Store) : storeKeys (Store.Compaction s) = storeKeys s := by
  unfold storeKeys
  rw [Compaction_db, List.map_map]
  rfl

theorem compactLog_length (v : List Application) :
    (compactLog v).length = min v.length DefaultCompactionRetention := by
  unfold compactLog
  rw [List.length_drop]
  omega

theorem compactLog_getLast? (v : List Application) : (compactLog v).getLast? = v.getLast? := by
  unfold compactLog DefaultCompactionRetention
  rw [List.getLast?_drop]
  by_cases h : v.length ≤ v.length - 2
  · rw [if_pos h]
    have h0 : v.length = 0 := by omega
    rw [List.length_eq_zero.mp h0]
    rfl
  · rw [if_neg h]

theorem compactLog_suffix (v : List Application) : ∃ front, v = front ++ compactLog v := by
  obtain ⟨front, h⟩ := List.drop_suffix (v.length - DefaultCompactionRetention) v
  exact ⟨front, h.symm⟩

/-! ## C12: what Compaction retains -/

/-- C12. `Compaction` keeps the keys of the store; a key without a log stays
without one; and a key with log `v` has afterwards the log `w`, where `w` is
`v` itself when `len(v) <= 2` and otherwise `v[len(v)-2:]`: `w` is a suffix of
`v` (the same entries in the same order, every field as before), its length
is `min(len(v), 2)`, and its last entry is the last entry of `v`. -/
theorem compaction_retention (s : Store) :
    storeKeys (Store.Compaction s) = storeKeys s ∧
    (∀ k, mapGet s.db k = none → mapGet (Store.Compaction s).db k = none) ∧
    (∀ k v, mapGet s.db k = some v →
      ∃ w, mapGet (Store.Compaction s).db k = some w ∧
        (v.length ≤ 2 → w = v) ∧
        (2 < v.length → w = v.drop (v.length - 2)) ∧
        (∃ front, v = front ++ w) ∧
        w.length = min v.length 2 ∧
        w.getLast? = v.getLast?) := by
  refine ⟨storeKeys_Compaction s, ?_, ?_⟩
  · intro k h
    rw [mapGet_Compaction, h]
    rfl
  · intro k v h
    refine ⟨compactLog v, ?_, ?_, ?_, compactLog_suffix v, compactLog_length v,
      compactLog_getLast? v⟩
    · rw [mapGet_Compaction, h]
      rfl
    · intro hl
      exact compactLog_of_short v hl
    · intro _
      rfl

/-! ## Compaction and the other methods -/

theorem compactLog_nil : compactLog [] = [] := rfl

theorem compactLog_compactLog (v : List Application) : compactLog (compactLog v) = compactLog v := by
  apply compactLog_of_short
  rw [compactLog_length]
  omega

theorem compactLog_append_singleton (v : List Application) (x : Application) :
    compactLog (compactLog v ++ [x]) = compactLog (v ++ [x]) := by
  by_cases h : v.length ≤ DefaultCompactionRetention
  · rw [compactLog_of_short v h]
  · have hl := compactLog_length v
    unfold compactLog DefaultCompactionRetention at *
    rw [List.length_append, List.length_append, hl]
    simp only [List.length_singleton]
    have h1 : min v.length 2 + 1 - 2 = 1 := by omega
    have h2 : v.length + 1 - 2 = v.length - 2 + 1 := by omega
    rw [h1, h2, List.drop_append_of_le_length (by rw [List.length_drop]; omega),
      List.drop_append_of_le_length (by omega), List.drop_drop]

theorem compactLog_setLast (v : List Application) (x : Application) :
    compactLog ((compactLog v).dropLast ++ [x]) = compactLog (v.dropLast ++ [x]) := by
  by_cases h : v.length ≤ DefaultCompactionRetention
  · rw [compactLog_of_short v h]
  · have hl := compactLog_length v
    have hshort : ((compactLog v).dropLast ++ [x]).length ≤ DefaultCompactionRetention := by
      rw [List.length_append, List.length_dropLast, hl]
      unfold DefaultCompactionRetention at *
      simp only [List.length_singleton]
      omega
    rw [compactLog_of_short _ hshort]
    unfold compactLog DefaultCompactionRetention at *
    rw [List.length_append, List.length_dropLast]
    simp only [List.length_singleton]
    have h2 : v.length - 1 + 1 - 2 = v.length - 2 := by omega
    rw [h2, List.drop_append_of_le_length (by rw [List.length_dropLast]; omega)]
    congr 1
    rw [List.dropLast_eq_take, List.dropLast_eq_take, List.length_drop, List.take_drop]
    congr 2
    omega

theorem Compaction_mapSet (db : List (String × List Application)) (k : String)
    (v : List Application) :
    Store.Compaction (Store.mk (mapSet db k v))
      = Store.mk (mapSet (Store.Compaction (Store.mk db)).db k (compactLog v)) := by
  have h1 := Compaction_db (Store.mk (mapSet db k v))
  have h2 := Compaction_db (Store.mk db)
  have e : ∀ a b : Store, a.db = b.db → a = b := by
    intro a b hab
    cases a; cases b; simp_all
  apply e
  rw [h1, h2]
  exact mapSet_map_values compactLog db k v

theorem Compaction_idem (s : Store) : Store.Compaction (Store.Compaction s) = Store.Compaction s := by
  have e : ∀ a b : Store, a.db = b.db → a = b := by
    intro a b hab
    cases a; cases b; simp_all
  apply e
  rw [Compaction_db, Compaction_db, List.map_map]
  apply List.map_congr_left
  intro kv _
  show (kv.1, compactLog (compactLog kv.2)) = (kv.1, compactLog kv.2)
  rw [compactLog_compactLog]

theorem Compaction_mapSet_store (s : Store) (k : String) (v : List Application) :
    Store.Compaction (Store.mk (mapSet s.db k v))
      = Store.mk (mapSet (Store.Compaction s).db k (compactLog v)) :=
  Compaction_mapSet s.db k v

/-- Writing logs with the same newest entries under `k`, into the compacted
store and into the store itself, gives the same store after compaction. -/
theorem Compaction_both (s : Store) (k : String) (v1 v2 : List Application)
    (h : compactLog v1 = compactLog v2) :
    Store.Compaction (Store.mk (mapSet (Store.Compaction s).db k v1))
      = Store.Compaction (Store.mk (mapSet s.db k v2)) := by
  rw [Compaction_mapSet_store, Compaction_mapSet_store, Compaction_idem, h]

theorem lookup_Compaction_none (s : Store) (k : String) (h : mapGet s.db k = none) :
    mapGet (Store.Compaction s).db k = none := by
  rw [mapGet_Compaction, h]; rfl

theorem lookup_Compaction_some (s : Store) (k : String) (revs : List Application)
    (h : mapGet s.db k = some revs) :
    mapGet (Store.Compaction s).db k = some (compactLog revs) := by
  rw [mapGet_Compaction, h]; rfl

theorem lookup_Compaction_getD (s : Store) (k : String) :
    (mapGet (Store.Compaction s).db k).getD [] = compactLog ((mapGet s.db k).getD []) := by
  rw [mapGet_Compaction]
  cases mapGet s.db k <;> rfl

theorem Get_Compaction (s : Store) (k : String) :
    (Store.Get (Store.Compaction s) k).1 = (Store.Get s k).1 ∧
    Store.Compaction (Store.Get (Store.Compaction s) k).2
      = Store.Compaction (Store.Get s k).2 := by
  rcases key_state_cases s k with ⟨h1, _, _⟩ | ⟨hg, _, _, _⟩ |
    ⟨revs, l, hg, hl, ⟨hd, _, _, _⟩ | ⟨hd, _, _, _⟩⟩
  · rw [Get_absent s k h1, Get_absent _ k (lookup_Compaction_none s k h1)]
    exact ⟨rfl, Compaction_idem s⟩
  · rw [Get_empty s k hg, Get_empty _ k (lookup_Compaction_some s k [] hg)]
    exact ⟨rfl, Compaction_idem s⟩
  · rw [Get_active s k revs l hg hl hd,
      Get_active _ k _ l (lookup_Compaction_some s k revs hg)
        ((compactLog_getLast? revs).trans hl) hd]
    exact ⟨rfl, Compaction_idem s⟩
  · rw [Get_deleted s k revs l hg hl hd,
      Get_deleted _ k _ l (lookup_Compaction_some s k revs hg)
        ((compactLog_getLast? revs).trans hl) hd]
    exact ⟨rfl, Compaction_idem s⟩

theorem Create_Compaction (addrOk : String → Bool) (s : Store) (r : Application) (now : Time) :
    (Store.Create addrOk (Store.Compaction s) r now).1 = (Store.Create addrOk s r now).1 ∧
    Store.Compaction (Store.Create addrOk (Store.Compaction s) r now).2
      = Store.Compaction (Store.Create addrOk s r now).2 := by
  cases hv : validateApplication addrOk r with
  | some e =>
    rw [Create_invalid addrOk s r now e hv, Create_invalid addrOk _ r now e hv]
    exact ⟨rfl, Compaction_idem s⟩
  | none =>
    rcases key_state_cases s r.Title with ⟨h1, _, _⟩ | ⟨hg, _, _, _⟩ |
      ⟨revs, l, hg, hl, ⟨hd, _, _, _⟩ | ⟨hd, _, _, _⟩⟩
    · rw [Create_absent addrOk s r now hv h1,
        Create_absent addrOk _ r now hv (lookup_Compaction_none s _ h1)]
      exact ⟨rfl, Compaction_both s _ _ _ rfl⟩
    · rw [Create_empty addrOk s r now hv hg,
        Create_empty addrOk _ r now hv (lookup_Compaction_some s _ [] hg)]
      exact ⟨rfl, Compaction_idem s⟩
    · rw [Create_active addrOk s r now revs l hv hg hl hd,
        Create_active addrOk _ r now _ l hv (lookup_Compaction_some s _ revs hg)
          ((compactLog_getLast? revs).trans hl) hd]
      exact ⟨rfl, Compaction_idem s⟩
    · rw [Create_deleted addrOk s r now revs l hv hg hl hd,
        Create_deleted addrOk _ r now _ l hv (lookup_Compaction_some s _ revs hg)
          ((compactLog_getLast? revs).trans hl) hd]
      exact ⟨rfl, Compaction_both s _ _ _ (compactLog_append_singleton revs _)⟩

theorem Delete_Compaction (s : Store) (k : String) (now : Time) :
    (Store.Delete (Store.Compaction s) k now).1 = (Store.Delete s k now).1 ∧
    Store.Compaction (Store.Delete (Store.Compaction s) k now).2
      = Store.Compaction (Store.Delete s k now).2 := by
  rcases key_state_cases s k with ⟨h1, _, _⟩ | ⟨hg, _, _, _⟩ |
    ⟨revs, l, hg, hl, ⟨hd, _, _, _⟩ | ⟨hd, _, _, _⟩⟩
  · rw [Delete_absent s k now h1, Delete_absent _ k now (lookup_Compaction_none s k h1)]
    exact ⟨rfl, Compaction_idem s⟩
  · rw [Delete_empty s k now hg, Delete_empty _ k now (lookup_Compaction_some s k [] hg)]
    exact ⟨rfl, Compaction_idem s⟩
  · rw [Delete_active s k now revs l hg hl hd,
      Delete_active _ k now _ l (lookup_Compaction_some s k revs hg)
        ((compactLog_getLast? revs).trans hl) hd]
    refine ⟨rfl, ?_⟩
    unfold appendRev
    rw [lookup_Compaction_getD]
    exact Compaction_both s _ _ _ (compactLog_append_singleton _ _)
  · rw [Delete_deleted s k now revs l hg hl hd,
      Delete_deleted _ k now _ l (lookup_Compaction_some s k revs hg)
        ((compactLog_getLast? revs).trans hl) hd]
    exact ⟨rfl, Compaction_idem s⟩

theorem Update_Compaction (addrOk : String → Bool) (s : Store) (r : Application) :
    (Store.Update addrOk (Store.Compaction s) r).1 = (Store.Update addrOk s r).1 ∧
    Store.Compaction (Store.Update addrOk (Store.Compaction s) r).2.1
      = Store.Compaction (Store.Update addrOk s r).2.1 ∧
    (Store.Update addrOk (Store.Compaction s) r).2.2 = (Store.Update addrOk s r).2.2 := by
  cases hv : validateApplication addrOk r with
  | some e =>
    rw [Update_invalid addrOk s r e hv, Update_invalid addrOk _ r e hv]
    exact ⟨rfl, Compaction_idem s, rfl⟩
  | none =>
    rcases key_state_cases s r.Title with ⟨h1, _, _⟩ | ⟨hg, _, _, _⟩ |
      ⟨revs, l, hg, hl, ⟨hd, _, _, _⟩ | ⟨hd, _, _, _⟩⟩
    · rw [Update_absent addrOk s r hv h1,
        Update_absent addrOk _ r hv (lookup_Compaction_none s _ h1)]
      exact ⟨rfl, Compaction_idem s, rfl⟩
    · rw [Update_empty addrOk s r hv hg,
        Update_empty addrOk _ r hv (lookup_Compaction_some s _ [] hg)]
      exact ⟨rfl, Compaction_idem s, rfl⟩
    · cases he : (Equal r l).1 with
      | true =>
        rw [Update_equal addrOk s r revs l hv hg hl hd he,
          Update_equal addrOk _ r _ l hv (lookup_Compaction_some s _ revs hg)
            ((compactLog_getLast? revs).trans hl) hd he]
        exact ⟨rfl, Compaction_both s _ _ _ (compactLog_setLast revs _), rfl⟩
      | false =>
        rw [Update_changed addrOk s r revs l hv hg hl hd he,
          Update_changed addrOk _ r _ l hv (lookup_Compaction_some s _ revs hg)
            ((compactLog_getLast? revs).trans hl) hd he]
        refine ⟨rfl, Compaction_both s _ _ _ ?_, rfl⟩
        rw [← compactLog_append_singleton ((compactLog revs).dropLast ++ [(Equal r l).2.2]),
          compactLog_setLast, compactLog_append_singleton]
    · rw [Update_deleted addrOk s r revs l hv hg hl hd,
        Update_deleted addrOk _ r _ l hv (lookup_Compaction_some s _ revs hg)
          ((compactLog_getLast? revs).trans hl) hd]
      exact ⟨rfl, Compaction_idem s, rfl⟩

/-! ## The loop of List -/

theorem inArray_iff (input : String) (array : List String) :
    inArray input array = true ↔ input ∈ array := by
  induction array with
  | nil => simp [inArray]
  | cons each rest ih =>
    unfold inArray
    by_cases h : each = input
    · rw [if_pos h]; simp [h]
    · rw [if_neg h, ih]
      have h2 : ¬ input = each := fun e => h e.symm
      simp [h2]

theorem passes_iff (options : List (String × List String)) (name value : String) :
    passes options name value = true ↔ filterPasses options name value := by
  unfold passes filterPasses
  cases mapGet options name with
  | none => simp
  | some vs => simp

/-- With non-empty logs the loop of `List` returns what it had collected
followed by what each visited entry contributes. -/
theorem listLoop_eq (sources : List String) (matchSource : Bool) (companies : List String)
    (matchCompany : Bool) (visit : List (String × List Application)) :
    (∀ p ∈ visit, p.2 ≠ []) → ∀ ret,
      listLoop sources matchSource companies matchCompany visit ret
        = Outcome.ok (ret ++ visit.filterMap
            (listPick sources matchSource companies matchCompany)) := by
  induction visit with
  | nil => intro _ ret; simp [listLoop]
  | cons q rest ih =>
    intro h ret
    obtain ⟨k, v⟩ := q
    have hv : v ≠ [] := h (k, v) (List.mem_cons_self _ _)
    obtain ⟨l, hl⟩ := getLast?_of_ne_nil v hv
    have hrest : ∀ p ∈ rest, p.2 ≠ [] := fun p hp => h p (List.mem_cons_of_mem _ hp)
    unfold listLoop
    simp only [hl]
    by_cases h1 : l.DeleteTimeStamp ≠ none
    · rw [if_pos h1, ih hrest]
      have : listPick sources matchSource companies matchCompany (k, v) = none := by
        unfold listPick; simp only [hl]; rw [if_pos h1]
      rw [List.filterMap_cons_none this]
    · rw [if_neg h1]
      by_cases h2 : (matchSource && !inArray l.Source sources) = true
      · rw [if_pos h2, ih hrest]
        have : listPick sources matchSource companies matchCompany (k, v) = none := by
          unfold listPick; simp only [hl]; rw [if_neg h1, if_pos h2]
        rw [List.filterMap_cons_none this]
      · rw [if_neg h2]
        by_cases h3 : (matchCompany && !inArray l.Company companies) = true
        · rw [if_pos h3, ih hrest]
          have : listPick sources matchSource companies matchCompany (k, v) = none := by
            unfold listPick; simp only [hl]; rw [if_neg h1, if_neg h2, if_pos h3]
          rw [List.filterMap_cons_none this]
        · rw [if_neg h3, ih hrest]
          have : listPick sources matchSource companies matchCompany (k, v)
              = some (DeepCopy l) := by
            unfold listPick; simp only [hl]; rw [if_neg h1, if_neg h2, if_neg h3]
          rw [List.filterMap_cons_some this, List.append_assoc]
          rfl

theorem guard_eq_not_passes (options : List (String × List String)) (name value : String) :
    ((mapGet options name).isSome && !inArray value ((mapGet options name).getD []))
      = !passes options name value := by
  unfold passes
  cases mapGet options name with
  | none => rfl
  | some vs =>
    have : inArray value vs = decide (value ∈ vs) := by
      rw [Bool.eq_iff_iff, inArray_iff]
      simp
    simp [this]

/-- What an entry contributes, in terms of the filters of the mapping. -/
theorem listPick_eq_some (options : List (String × List String)) (k : String)
    (v : List Application) (x : Application) :
    listPick ((mapGet options "source").getD []) (mapGet options "source").isSome
        ((mapGet options "company").getD []) (mapGet options "company").isSome (k, v) = some x ↔
      (v.getLast? = some x ∧ x.DeleteTimeStamp = none ∧
        filterPasses options "source" x.Source ∧ filterPasses options "company" x.Company) := by
  rw [← passes_iff, ← passes_iff]
  unfold listPick
  simp only [guard_eq_not_passes, DeepCopy_eq]
  cases hl : v.getLast? with
  | none => simp
  | some l =>
    show (if l.DeleteTimeStamp ≠ none then none
      else if (!passes options "source" l.Source) = true then none
      else if (!passes options "company" l.Company) = true then none
      else some l) = some x ↔ _
    constructor
    · intro h
      by_cases h1 : l.DeleteTimeStamp ≠ none
      · rw [if_pos h1] at h; cases h
      · rw [if_neg h1] at h
        by_cases h2 : (!passes options "source" l.Source) = true
        · rw [if_pos h2] at h; cases h
        · rw [if_neg h2] at h
          by_cases h3 : (!passes options "company" l.Company) = true
          · rw [if_pos h3] at h; cases h
          · rw [if_neg h3] at h
            cases h
            refine ⟨rfl, ?_, ?_, ?_⟩
            · by_contra hc; exact h1 hc
            · simpa using h2
            · simpa using h3
    · rintro ⟨hx, hd, hs, hc⟩
      cases hx
      have h1 : ¬ x.DeleteTimeStamp ≠ none := fun h => h hd
      have h2 : ¬ (!passes options "source" x.Source) = true := by simp [hs]
      have h3 : ¬ (!passes options "company" x.Company) = true := by simp [hc]
      rw [if_neg h1, if_neg h2, if_neg h3]

theorem listPick_compactLog (sources : List String) (matchSource : Bool)
    (companies : List String) (matchCompany : Bool) (kv : String × List Application) :
    listPick sources matchSource companies matchCompany (kv.1, compactLog kv.2)
      = listPick sources matchSource companies matchCompany kv := by
  unfold listPick
  simp only [compactLog_getLast?]

theorem filterMap_listPick_Compaction (sources : List String) (matchSource : Bool)
    (companies : List String) (matchCompany : Bool) (s : Store) :
    (Store.Compaction s).db.filterMap (listPick sources matchSource companies matchCompany)
      = s.db.filterMap (listPick sources matchSource companies matchCompany) := by
  rw [Compaction_db, List.filterMap_map]
  apply List.filterMap_congr
  intro kv _
  exact listPick_compactLog sources matchSource companies matchCompany kv

theorem nonempty_Compaction (s : Store) (hne : ∀ p ∈ s.db, p.2 ≠ []) :
    ∀ p ∈ (Store.Compaction s).db, p.2 ≠ [] := by
  intro p hp
  rw [Compaction_db] at hp
  obtain ⟨q, hq, e⟩ := List.mem_map.mp hp
  rw [← e]
  intro h0
  have hl := compactLog_length q.2
  have hq0 : q.2.length ≠ 0 := fun h => hne q hq (List.length_eq_zero.mp h)
  show False
  have h00 : (compactLog q.2).length = 0 := by
    have : compactLog q.2 = [] := h0
    rw [this]; rfl
  unfold DefaultCompactionRetention at hl
  omega

/-- What `List` returns when the map is ranged over in the order `visit`. -/
theorem listVisiting_eq (s : Store) (visit : List (String × List Application))
    (options : List (String × List String)) (h : ∀ p ∈ visit, p.2 ≠ []) :
    listVisiting s visit options =
      (Outcome.ok (visit.filterMap
        (listPick ((mapGet options "source").getD []) (mapGet options "source").isSome
          ((mapGet options "company").getD []) (mapGet options "company").isSome)), s) := by
  unfold listVisiting
  simp only [listLoop_eq _ _ _ _ visit h, List.nil_append]

theorem List_eq_listVisiting (s : Store) (options : List (String × List String)) :
    Store.List s options = listVisiting s s.db options := rfl

theorem List_Compaction (s : Store) (hne : ∀ p ∈ s.db, p.2 ≠ [])
    (options : List (String × List String)) (visit1 visit2 : List (String × List Application))
    (h1 : visit1.Perm (Store.Compaction s).db) (h2 : visit2.Perm s.db) :
    ∃ r1 r2, (listVisiting (Store.Compaction s) visit1 options).1 = Outcome.ok r1 ∧
      (listVisiting s visit2 options).1 = Outcome.ok r2 ∧ r1.Perm r2 ∧
      Store.Compaction (listVisiting (Store.Compaction s) visit1 options).2
        = Store.Compaction (listVisiting s visit2 options).2 := by
  have hne1 : ∀ p ∈ visit1, p.2 ≠ [] :=
    fun p hp => nonempty_Compaction s hne p (h1.mem_iff.mp hp)
  have hne2 : ∀ p ∈ visit2, p.2 ≠ [] := fun p hp => hne p (h2.mem_iff.mp hp)
  rw [listVisiting_eq _ visit1 options hne1, listVisiting_eq _ visit2 options hne2]
  refine ⟨_, _, rfl, rfl, ?_, Compaction_idem s⟩
  have p1 := List.Perm.filterMap
    (listPick ((mapGet options "source").getD []) (mapGet options "source").isSome
      ((mapGet options "company").getD []) (mapGet options "company").isSome) h1
  have p2 := List.Perm.filterMap
    (listPick ((mapGet options "source").getD []) (mapGet options "source").isSome
      ((mapGet options "company").getD []) (mapGet options "company").isSome) h2
  rw [filterMap_listPick_Compaction] at p1
  exact p1.trans p2.symm

/-! ## C13: Compaction and the CRUD methods -/

/-- C13. Let the logs of `s` be non-empty. Each of `Get(k)`, `Create(r)`,
`Update(r)` and `Delete(k)`, called with the same arguments and at the same
time, returns the same outcome on `Compaction(s)` as on `s` (for `Get` the
same record, for `Update` the same record left with the caller), and the two
stores the calls leave are equal once both are compacted. `List(f)` succeeds
on both, whatever the orders `visit1` and `visit2` in which the two maps are
ranged over, with the same records up to order, and leaves both stores as
they were. -/
theorem compaction_commutes (addrOk : String → Bool) (s : Store)
    (hne : ∀ p ∈ s.db, p.2 ≠ []) :
    (∀ k, (Store.Get (Store.Compaction s) k).1 = (Store.Get s k).1 ∧
      Store.Compaction (Store.Get (Store.Compaction s) k).2
        = Store.Compaction (Store.Get s k).2) ∧
    (∀ f visit1 visit2, visit1.Perm (Store.Compaction s).db → visit2.Perm s.db →
      ∃ r1 r2, (listVisiting (Store.Compaction s) visit1 f).1 = Outcome.ok r1 ∧
        (listVisiting s visit2 f).1 = Outcome.ok r2 ∧ r1.Perm r2 ∧
        Store.Compaction (listVisiting (Store.Compaction s) visit1 f).2
          = Store.Compaction (listVisiting s visit2 f).2) ∧
    (∀ f, (Store.List (Store.Compaction s) f).1 = (Store.List s f).1) ∧
    (∀ r now,
      (Store.Create addrOk (Store.Compaction s) r now).1 = (Store.Create addrOk s r now).1 ∧
      Store.Compaction (Store.Create addrOk (Store.Compaction s) r now).2
        = Store.Compaction (Store.Create addrOk s r now).2) ∧
    (∀ r, (Store.Update addrOk (Store.Compaction s) r).1 = (Store.Update addrOk s r).1 ∧
      Store.Compaction (Store.Update addrOk (Store.Compaction s) r).2.1
        = Store.Compaction (Store.Update addrOk s r).2.1 ∧
      (Store.Update addrOk (Store.Compaction s) r).2.2 = (Store.Update addrOk s r).2.2) ∧
    (∀ k now, (Store.Delete (Store.Compaction s) k now).1 = (Store.Delete s k now).1 ∧
      Store.Compaction (Store.Delete (Store.Compaction s) k now).2
        = Store.Compaction (Store.Delete s k now).2) := by
  refine ⟨Get_Compaction s, ?_, ?_, Create_Compaction addrOk s, Update_Compaction addrOk s,
    Delete_Compaction s⟩
  · intro f visit1 visit2 h1 h2
    exact List_Compaction s hne f visit1 visit2 h1 h2
  · intro f
    rw [List_eq_listVisiting, List_eq_listVisiting,
      listVisiting_eq _ _ f (nonempty_Compaction s hne), listVisiting_eq _ _ f hne,
      filterMap_listPick_Compaction]

/-- C13 on `sampleLongStore`, whose log of "X" compaction shortens from three
revisions to two: `Get("X")` and `Delete("X")` at time 9. -/
theorem compaction_commutes_witness :
    (∀ p ∈ sampleLongStore.db, p.2 ≠ []) ∧
    ((Store.Get (Store.Compaction sampleLongStore) "X").1 = (Store.Get sampleLongStore "X").1 ∧
      Store.Compaction (Store.Get (Store.Compaction sampleLongStore) "X").2
        = Store.Compaction (Store.Get sampleLongStore "X").2) ∧
    ((Store.Delete (Store.Compaction sampleLongStore) "X" 9).1
        = (Store.Delete sampleLongStore "X" 9).1 ∧
      Store.Compaction (Store.Delete (Store.Compaction sampleLongStore) "X" 9).2
        = Store.Compaction (Store.Delete sampleLongStore "X" 9).2) :=
  ⟨by decide,
    (compaction_commutes anyAddress sampleLongStore (by decide)).1 "X",
    (compaction_commutes anyAddress sampleLongStore (by decide)).2.2.2.2.2 "X" 9⟩

/-! ## Keys of the map -/

theorem mapGet_of_mem_nodup {β : Type} (m : List (String × β)) (k : String) (v : β)
    (hn : (m.map Prod.fst).Nodup) (hm : (k, v) ∈ m) : mapGet m k = some v := by
  induction m with
  | nil => cases hm
  | cons q rest ih =>
    obtain ⟨k1, v1⟩ := q
    have hn2 := List.nodup_cons.mp hn
    rcases List.mem_cons.mp hm with e | hmem
    · cases e
      simp [mapGet]
    · have hne : k1 ≠ k := by
        intro e
        apply hn2.1
        rw [e]
        exact List.mem_map.mpr ⟨(k, v), hmem, rfl⟩
      simp only [mapGet, if_neg hne]
      exact ih hn2.2 hmem

theorem nodup_keys_mapSet {β : Type} (m : List (String × β)) (k : String) (v : β)
    (hn : (m.map Prod.fst).Nodup) : ((mapSet m k v).map Prod.fst).Nodup := by
  induction m with
  | nil => simp [mapSet]
  | cons q rest ih =>
    obtain ⟨k1, v1⟩ := q
    have hn2 := List.nodup_cons.mp hn
    unfold mapSet
    by_cases h : k1 = k
    · rw [if_pos h]
      rw [← h]
      exact hn
    · rw [if_neg h]
      refine List.nodup_cons.mpr ⟨?_, ih hn2.2⟩
      intro hmem
      obtain ⟨p, hp, e⟩ := List.mem_map.mp hmem
      rcases mem_mapSet rest k v p hp with e2 | hm2
      · rw [e2] at e
        exact h e.symm
      · apply hn2.1
        rw [← e]
        exact List.mem_map.mpr ⟨p, hm2, rfl⟩

theorem nodup_keys_Create (addrOk : String → Bool) (s : Store) (app : Application) (now : Time)
    (h : (storeKeys s).Nodup) : (storeKeys (Store.Create addrOk s app now).2).Nodup := by
  cases hv : validateApplication addrOk app with
  | some e => rw [Create_invalid addrOk s app now e hv]; exact h
  | none =>
    rcases key_state_cases s app.Title with ⟨h1, _, _⟩ | ⟨hg, _, _, _⟩ |
      ⟨revs, l, hg, hl, ⟨hd, _, _, _⟩ | ⟨hd, _, _, _⟩⟩
    · rw [Create_absent addrOk s app now hv h1]
      exact nodup_keys_mapSet s.db _ _ h
    · rw [Create_empty addrOk s app now hv hg]; exact h
    · rw [Create_active addrOk s app now revs l hv hg hl hd]; exact h
    · rw [Create_deleted addrOk s app now revs l hv hg hl hd]
      exact nodup_keys_mapSet s.db _ _ h

theorem nodup_keys_Update (addrOk : String → Bool) (s : Store) (app : Application)
    (h : (storeKeys s).Nodup) : (storeKeys (Store.Update addrOk s app).2.1).Nodup := by
  cases hv : validateApplication addrOk app with
  | some e => rw [Update_invalid addrOk s app e hv]; exact h
  | none =>
    rcases key_state_cases s app.Title with ⟨h1, _, _⟩ | ⟨hg, _, _, _⟩ |
      ⟨revs, l, hg, hl, ⟨hd, _, _, _⟩ | ⟨hd, _, _, _⟩⟩
    · rw [Update_absent addrOk s app hv h1]; exact h
    · rw [Update_empty addrOk s app hv hg]; exact h
    · cases he : (Equal app l).1 with
      | true =>
        rw [Update_equal addrOk s app revs l hv hg hl hd he]
        exact nodup_keys_mapSet s.db _ _ h
      | false =>
        rw [Update_changed addrOk s app revs l hv hg hl hd he]
        exact nodup_keys_mapSet s.db _ _ h
    · rw [Update_deleted addrOk s app revs l hv hg hl hd]; exact h

theorem nodup_keys_Delete (s : Store) (k : String) (now : Time)
    (h : (storeKeys s).Nodup) : (storeKeys (Store.Delete s k now).2).Nodup := by
  rcases key_state_cases s k with ⟨h1, _, _⟩ | ⟨hg, _, _, _⟩ |
    ⟨revs, l, hg, hl, ⟨hd, _, _, _⟩ | ⟨hd, _, _, _⟩⟩
  · rw [Delete_absent s k now h1]; exact h
  · rw [Delete_empty s k now hg]; exact h
  · rw [Delete_active s k now revs l hg hl hd]
    exact nodup_keys_mapSet s.db _ _ h
  · rw [Delete_deleted s k now revs l hg hl hd]; exact h

/-- In every reachable store the association list holds each key once, as a
Go map does. -/
theorem reachable_nodup_keys (addrOk : String → Bool) (s : Store) (h : Reachable addrOk s) :
    (storeKeys s).Nodup := by
  induction h with
  | init => exact List.nodup_nil
  | create s app now _ ih => exact nodup_keys_Create addrOk s app now ih
  | update s app _ ih => exact nodup_keys_Update addrOk s app ih
  | delete s key now _ ih => exact nodup_keys_Delete s key now ih
  | compaction s _ ih => rw [storeKeys_Compaction]; exact ih

/-! ## C14: List with the source and company filters -/

theorem listedFor_eq_some (s : Store) (options : List (String × List String)) (k : String)
    (x : Application) :
    listedFor s options k = some x ↔
      (activeWith s k x ∧ filterPasses options "source" x.Source ∧
        filterPasses options "company" x.Company) := by
  rw [← passes_iff, ← passes_iff]
  unfold listedFor activeWith
  cases hg : mapGet s.db k with
  | none => simp
  | some revs =>
    cases hl : revs.getLast? with
    | none => simp [hl]
    | some l =>
      simp only [hl]
      constructor
      · intro h
        by_cases hc : l.DeleteTimeStamp = none ∧ passes options "source" l.Source = true ∧
            passes options "company" l.Company = true
        · rw [if_pos hc] at h
          cases h
          exact ⟨⟨revs, rfl, hl, hc.1⟩, hc.2.1, hc.2.2⟩
        · rw [if_neg hc] at h
          cases h
      · rintro ⟨⟨revs2, e, hl2, hd⟩, hs, hc⟩
        cases e
        rw [hl] at hl2
        cases hl2
        rw [if_pos ⟨hd, hs, hc⟩]

theorem listPick_eq_listedFor (s : Store) (options : List (String × List String)) (k : String)
    (v : List Application) (hg : mapGet s.db k = some v) :
    listPick ((mapGet options "source").getD []) (mapGet options "source").isSome
        ((mapGet options "company").getD []) (mapGet options "company").isSome (k, v)
      = listedFor s options k := by
  apply Option.ext
  intro x
  show _ = some x ↔ _ = some x
  rw [listPick_eq_some, listedFor_eq_some]
  unfold activeWith
  constructor
  · rintro ⟨hl, hd, hs, hc⟩
    exact ⟨⟨v, hg, hl, hd⟩, hs, hc⟩
  · rintro ⟨⟨revs, hg2, hl, hd⟩, hs, hc⟩
    rw [hg] at hg2
    cases hg2
    exact ⟨hl, hd, hs, hc⟩

theorem filterPasses_nil (name value : String) : filterPasses [] name value := by
  intro vs h
  cases h

theorem filterMap_listPick_eq_keys (s : Store) (options : List (String × List String))
    (hkeys : (storeKeys s).Nodup) :
    s.db.filterMap
        (listPick ((mapGet options "source").getD []) (mapGet options "source").isSome
          ((mapGet options "company").getD []) (mapGet options "company").isSome)
      = (storeKeys s).filterMap (listedFor s options) := by
  unfold storeKeys
  rw [List.filterMap_map]
  apply List.filterMap_congr
  intro kv hkv
  obtain ⟨k, v⟩ := kv
  exact listPick_eq_listedFor s options k v (mapGet_of_mem_nodup s.db k v hkeys hkv)

/-- C14. Let the logs of `s` be non-empty and let `db` hold each key once.
Whatever the order `visit` in which the map is ranged over, `List` does not
fail, leaves the store as it is, and returns, up to order, one record for each
key that `listedFor` selects: the last revision of the key when the key is
ACTIVE, its Source is accepted by the "source" filter if one is supplied and
its Company by the "company" filter if one is supplied, and nothing for any
other key. So a record is returned exactly when it is the last revision of
such a key, and with the empty mapping exactly when it is the last revision
of an ACTIVE key. -/
theorem list_by_source_and_company (s : Store) (options : List (String × List String))
    (visit : List (String × List Application)) (hne : ∀ p ∈ s.db, p.2 ≠ [])
    (hkeys : (storeKeys s).Nodup) (hvisit : visit.Perm s.db) :
    Store.List s options = listVisiting s s.db options ∧
    (listVisiting s visit options).2 = s ∧
    ∃ ret, (listVisiting s visit options).1 = Outcome.ok ret ∧
      ret.Perm ((storeKeys s).filterMap (listedFor s options)) ∧
      (∀ k x, listedFor s options k = some x ↔
        (activeWith s k x ∧ filterPasses options "source" x.Source ∧
          filterPasses options "company" x.Company)) ∧
      (∀ x, x ∈ ret ↔ ∃ k, activeWith s k x ∧ filterPasses options "source" x.Source ∧
          filterPasses options "company" x.Company) ∧
      (options = [] → ∀ x, x ∈ ret ↔ ∃ k, activeWith s k x) := by
  have hnev : ∀ p ∈ visit, p.2 ≠ [] := fun p hp => hne p (hvisit.mem_iff.mp hp)
  have hperm : (visit.filterMap
      (listPick ((mapGet options "source").getD []) (mapGet options "source").isSome
        ((mapGet options "company").getD []) (mapGet options "company").isSome)).Perm
      ((storeKeys s).filterMap (listedFor s options)) := by
    rw [← filterMap_listPick_eq_keys s options hkeys]
    exact List.Perm.filterMap _ hvisit
  have hmem : ∀ x, x ∈ visit.filterMap
      (listPick ((mapGet options "source").getD []) (mapGet options "source").isSome
        ((mapGet options "company").getD []) (mapGet options "company").isSome) ↔
      ∃ k, activeWith s k x ∧ filterPasses options "source" x.Source ∧
        filterPasses options "company" x.Company := by
    intro x
    rw [hperm.mem_iff, List.mem_filterMap]
    constructor
    · rintro ⟨k, _, hk⟩
      exact ⟨k, (listedFor_eq_some s options k x).mp hk⟩
    · rintro ⟨k, hk⟩
      obtain ⟨revs, hg, _, _⟩ := hk.1
      refine ⟨k, ?_, (listedFor_eq_some s options k x).mpr hk⟩
      exact List.mem_map.mpr ⟨(k, revs), mem_of_mapGet s.db k revs hg, rfl⟩
  rw [listVisiting_eq s visit options hnev]
  refine ⟨rfl, rfl, _, rfl, hperm, listedFor_eq_some s options, hmem, ?_⟩
  intro ho x
  rw [hmem x]
  constructor
  · rintro ⟨k, hk, _, _⟩
    exact ⟨k, hk⟩
  · rintro ⟨k, hk⟩
    rw [ho]
    exact ⟨k, hk, filterPasses_nil _ _, filterPasses_nil _ _⟩

/-- C14 on `sampleTwoStore` (keys "X" of company "acme" and "Y" of company
"bolt"), ranged over in reverse order, with the filter company = acme. -/
theorem list_by_source_and_company_witness :
    ((∀ p ∈ sampleTwoStore.db, p.2 ≠ []) ∧ (storeKeys sampleTwoStore).Nodup ∧
      sampleTwoStore.db.reverse.Perm sampleTwoStore.db) ∧
    (listVisiting sampleTwoStore sampleTwoStore.db.reverse [("company", ["acme"])]).2
      = sampleTwoStore ∧
    ∃ ret, (listVisiting sampleTwoStore sampleTwoStore.db.reverse [("company", ["acme"])]).1
        = Outcome.ok ret ∧
      ret.Perm ((storeKeys sampleTwoStore).filterMap
        (listedFor sampleTwoStore [("company", ["acme"])])) :=
  ⟨⟨by decide, by decide, List.reverse_perm _⟩,
    (list_by_source_and_company sampleTwoStore [("company", ["acme"])]
      sampleTwoStore.db.reverse (by decide) (by decide) (List.reverse_perm _)).2.1,
    (list_by_source_and_company sampleTwoStore [("company", ["acme"])]
      sampleTwoStore.db.reverse (by decide) (by decide) (List.reverse_perm _)).2.2.imp
        (fun _ h => ⟨h.1, h.2.1⟩)⟩

/-! ## C18: the filters List reads -/

/-- C18 fails as stated: with the filter license = MIT supplied, `List` on
`sampleStore` returns the revision of "X", whose License is the empty string
and not a member of the accepted values. -/
theorem list_ignores_license_filter :
    (Store.List sampleStore [("license", ["MIT"])]).1 = Outcome.ok [sampleRev] ∧
    sampleRev.License = "" ∧
    ¬ filterPasses [("license", ["MIT"])] "license" sampleRev.License := by
  refine ⟨by decide, rfl, ?_⟩
  intro h
  have := h ["MIT"] (by decide)
  revert this
  decide

/-- C18 as amended. Let the logs of `s` be non-empty. Whatever the order
`visit` in which the map is ranged over, `List` succeeds; every record it
returns has a Source accepted by the "source" filter, if the mapping supplies
one, and a Company accepted by the "company" filter, if the mapping supplies
one; every ACTIVE last revision passing these two filters is returned; and
what the mapping holds under any other name does not change the result. -/
theorem list_honours_source_and_company (s : Store) (options : List (String × List String))
    (visit : List (String × List Application)) (hne : ∀ p ∈ s.db, p.2 ≠ [])
    (hvisit : visit.Perm s.db) :
    (∃ ret, (listVisiting s visit options).1 = Outcome.ok ret ∧
      (∀ x ∈ ret, filterPasses options "source" x.Source ∧
        filterPasses options "company" x.Company) ∧
      (∀ k l, activeWith s k l → filterPasses options "source" l.Source →
        filterPasses options "company" l.Company → l ∈ ret)) ∧
    (∀ options2, mapGet options2 "source" = mapGet options "source" →
      mapGet options2 "company" = mapGet options "company" →
      listVisiting s visit options2 = listVisiting s visit options) := by
  have hnev : ∀ p ∈ visit, p.2 ≠ [] := fun p hp => hne p (hvisit.mem_iff.mp hp)
  constructor
  · rw [listVisiting_eq s visit options hnev]
    refine ⟨_, rfl, ?_, ?_⟩
    · intro x hx
      obtain ⟨kv, _, hk⟩ := List.mem_filterMap.mp hx
      obtain ⟨k, v⟩ := kv
      have := (listPick_eq_some options k v x).mp hk
      exact ⟨this.2.2.1, this.2.2.2⟩
    · intro k l hact hs hc
      obtain ⟨revs, hg, hl, hd⟩ := hact
      refine List.mem_filterMap.mpr ⟨(k, revs), ?_, ?_⟩
      · exact hvisit.mem_iff.mpr (mem_of_mapGet s.db k revs hg)
      · exact (listPick_eq_some options k revs l).mpr ⟨hl, hd, hs, hc⟩
  · intro options2 h1 h2
    unfold listVisiting
    rw [h1, h2]

/-- C18 as amended, on `sampleTwoStore` ranged over in reverse order with the
mapping company = acme, license = MIT. -/
theorem list_honours_source_and_company_witness :
    ((∀ p ∈ sampleTwoStore.db, p.2 ≠ []) ∧
      sampleTwoStore.db.reverse.Perm sampleTwoStore.db) ∧
    (∃ ret, (listVisiting sampleTwoStore sampleTwoStore.db.reverse
        [("company", ["acme"]), ("license", ["MIT"])]).1 = Outcome.ok ret ∧
      (∀ x ∈ ret, filterPasses [("company", ["acme"]), ("license", ["MIT"])] "source" x.Source ∧
        filterPasses [("company", ["acme"]), ("license", ["MIT"])] "company" x.Company) ∧
      (∀ k l, activeWith sampleTwoStore k l →
        filterPasses [("company", ["acme"]), ("license", ["MIT"])] "source" l.Source →
        filterPasses [("company", ["acme"]), ("license", ["MIT"])] "company" l.Company →
        l ∈ ret)) :=
  ⟨⟨by decide, List.reverse_perm _⟩,
    (list_honours_source_and_company sampleTwoStore
      [("company", ["acme"]), ("license", ["MIT"])] sampleTwoStore.db.reverse
      (by decide) (List.reverse_perm _)).1⟩

/-! ## C15: the worked lifecycle -/

theorem Equal_of_version_ne (a b : Application) (h : a.Version ≠ b.Version) :
    Equal a b = (false, a, b) := by
  unfold Equal
  rw [if_neg (fun hc => h hc.2.1)]

/-- The lifecycle of the spec's example for records that carry no deletion
time: `Create(a)` on the new store, `Get`, `Update(b)`, `Delete`, `Get` and
`DumpKey`, for valid `a` (title "X", version "1") and `b` (title "X",
version "2"). -/
theorem lifecycle_without_deletion_time (addrOk : String → Bool) (a b : Application)
    (t1 t3 : Time) (ha : validateApplication addrOk a = none)
    (hb : validateApplication addrOk b = none) (hat : a.Title = "X") (hav : a.Version = "1")
    (hbt : b.Title = "X") (hbv : b.Version = "2") (had : a.DeleteTimeStamp = none)
    (hbd : b.DeleteTimeStamp = none) :
    (Store.Create addrOk NewStore a t1).1 = Outcome.ok () ∧
    (Store.Get (Store.Create addrOk NewStore a t1).2 "X").1
      = Outcome.ok { a with ResourceVersion := "0", CreateTimeStamp := t1 } ∧
    (Store.Update addrOk (Store.Create addrOk NewStore a t1).2 b).1 = Outcome.ok () ∧
    (Store.Get (Store.Update addrOk (Store.Create addrOk NewStore a t1).2 b).2.1 "X").1
      = Outcome.ok { b with ResourceVersion := "1", CreateTimeStamp := t1 } ∧
    (Store.Delete (Store.Update addrOk (Store.Create addrOk NewStore a t1).2 b).2.1 "X" t3).1
      = Outcome.ok () ∧
    (Store.Get (Store.Delete (Store.Update addrOk
      (Store.Create addrOk NewStore a t1).2 b).2.1 "X" t3).2 "X").1
      = Outcome.err (Err.getDeleted "X") ∧
    (Store.DumpKey (Store.Delete (Store.Update addrOk
      (Store.Create addrOk NewStore a t1).2 b).2.1 "X" t3).2 "X").1
      = Outcome.ok
          [{ a with ResourceVersion := "0", CreateTimeStamp := t1 },
           { b with ResourceVersion := "1", CreateTimeStamp := t1 },
           { b with ResourceVersion := "2", CreateTimeStamp := t1,
                    DeleteTimeStamp := some t3 }] := by
  obtain ⟨a0, ha0⟩ : ∃ a0 : Application,
      a0 = { a with ResourceVersion := "0", CreateTimeStamp := t1 } := ⟨_, rfl⟩
  obtain ⟨b1, hb1⟩ : ∃ b1 : Application,
      b1 = { b with ResourceVersion := "1", CreateTimeStamp := t1 } := ⟨_, rfl⟩
  obtain ⟨b2, hb2⟩ : ∃ b2 : Application,
      b2 = { b with ResourceVersion := "2", CreateTimeStamp := t1,
                    DeleteTimeStamp := some t3 } := ⟨_, rfl⟩
  rw [← ha0, ← hb1, ← hb2]
  have hc : Store.Create addrOk NewStore a t1 = (Outcome.ok (), Store.mk [("X", [a0])]) := by
    have h0 : Itoa 0 = "0" := by decide
    rw [Create_absent addrOk NewStore a t1 ha rfl, h0, ← ha0, hat]
    rfl
  rw [hc]
  have hg1 : mapGet (Store.mk [("X", [a0])]).db "X" = some [a0] := by simp [mapGet]
  have hd0 : a0.DeleteTimeStamp = none := by rw [ha0]; exact had
  have hne : b.Version ≠ a0.Version := by
    rw [ha0, hbv]
    show "2" ≠ a.Version
    rw [hav]
    decide
  have heq := Equal_of_version_ne b a0 hne
  have hu : Store.Update addrOk (Store.mk [("X", [a0])]) b
      = (Outcome.ok (), Store.mk [("X", [a0, b1])], b) := by
    have hgb : mapGet (Store.mk [("X", [a0])]).db b.Title = some [a0] := by rw [hbt]; exact hg1
    rw [Update_changed addrOk _ b [a0] a0 hb hgb rfl hd0 (by rw [heq]), heq, hbt]
    have hv : Itoa (wrapInt64 (Atoi a0.ResourceVersion + 1)) = "1" := by
      rw [ha0]
      show Itoa (wrapInt64 (Atoi "0" + 1)) = "1"
      decide
    have hct : a0.CreateTimeStamp = t1 := by rw [ha0]
    simp only [hv, hct]
    rw [hb1]
    simp [mapSet]
  rw [hu]
  have hg2 : mapGet (Store.mk [("X", [a0, b1])]).db "X" = some [a0, b1] := by simp [mapGet]
  have hd1 : b1.DeleteTimeStamp = none := by rw [hb1]; exact hbd
  have hdel : Store.Delete (Store.mk [("X", [a0, b1])]) "X" t3
      = (Outcome.ok (), Store.mk [("X", [a0, b1, b2])]) := by
    rw [Delete_active _ "X" t3 [a0, b1] b1 hg2 rfl hd1]
    have ht : b1.Title = "X" := by rw [hb1]; exact hbt
    have hv : Itoa (wrapInt64 (Atoi b1.ResourceVersion + 1)) = "2" := by
      rw [hb1]
      show Itoa (wrapInt64 (Atoi "1" + 1)) = "2"
      decide
    have e : ({ b1 with DeleteTimeStamp := some t3, ResourceVersion := "2" } : Application)
        = b2 := by rw [hb2, hb1]
    unfold appendRev
    rw [hv, e, ht, hg2]
    simp [mapSet]
  rw [hdel]
  have hg3 : mapGet (Store.mk [("X", [a0, b1, b2])]).db "X" = some [a0, b1, b2] := by
    simp [mapGet]
  have hd2 : b2.DeleteTimeStamp ≠ none := by rw [hb2]; simp
  refine ⟨rfl, ?_, rfl, ?_, rfl, ?_, ?_⟩
  · rw [Get_active _ "X" [a0] a0 hg1 rfl hd0]
  · rw [Get_active _ "X" [a0, b1] b1 hg2 rfl hd1]
  · rw [Get_deleted _ "X" [a0, b1, b2] b2 hg3 rfl hd2]
  · rw [DumpKey_present _ "X" [a0, b1, b2] hg3 (by simp)]

/-- C15, the code at a valid record with title "X" and version "1" whose
`DeleteTimeStamp` the caller has set: `Create` succeeds, but the following
`Get("X")` fails instead of yielding resource version "0", and `Update` of the
valid record `x2` (title "X", version "2") is rejected as deleted. -/
theorem lifecycle_with_caller_deletion_time :
    validateApplication anyAddress { x1 with DeleteTimeStamp := some 3 } = none ∧
    ({ x1 with DeleteTimeStamp := some 3 } : Application).Title = "X" ∧
    ({ x1 with DeleteTimeStamp := some 3 } : Application).Version = "1" ∧
    validateApplication anyAddress x2 = none ∧ x2.Title = "X" ∧ x2.Version = "2" ∧
    (Store.Create anyAddress NewStore { x1 with DeleteTimeStamp := some 3 } 5).1
      = Outcome.ok () ∧
    (Store.Get (Store.Create anyAddress NewStore
      { x1 with DeleteTimeStamp := some 3 } 5).2 "X").1 = Outcome.err (Err.getDeleted "X") ∧
    (Store.Update anyAddress (Store.Create anyAddress NewStore
      { x1 with DeleteTimeStamp := some 3 } 5).2 x2).1 = Outcome.err (Err.updateDeleted "X") := by
  decide

/-! ## C16: the status codes of DeleteApplication -/

/-- C16 fails as stated: on `sampleDeletedStore`, where "X" is already
soft-deleted, the handler answers 404 and not 409. -/
theorem delete_handler_answers_404_on_deleted :
    isDeleted sampleDeletedStore "X" ∧
    (DeleteApplication sampleDeletedStore "X" 9).1 = some StatusNotFound ∧
    (DeleteApplication sampleDeletedStore "X" 9).1 ≠ some StatusConflict := by
  refine ⟨⟨[sampleRev, { sampleRev with DeleteTimeStamp := some 7, ResourceVersion := "1" }],
    { sampleRev with DeleteTimeStamp := some 7, ResourceVersion := "1" },
    by decide, by decide, by decide⟩, by decide, by decide⟩

/-- C16 as amended. The handler `DeleteApplication` answers 200 when `t` is
ACTIVE, and then the store is the one `Delete` leaves, `Delete` having
succeeded; it answers 404 when `t` is ABSENT and also when `t` is already
soft-deleted, and in these two cases the store is unchanged. -/
theorem delete_handler_status (s : Store) (t : String) (now : Time) :
    (isActive s t →
      DeleteApplication s t now = (some StatusOK, (Store.Delete s t now).2) ∧
      (Store.Delete s t now).1 = Outcome.ok ()) ∧
    (isAbsent s t → DeleteApplication s t now = (some StatusNotFound, s)) ∧
    (isDeleted s t → DeleteApplication s t now = (some StatusNotFound, s)) := by
  unfold DeleteApplication
  refine ⟨?_, ?_, ?_⟩
  · rintro ⟨l, revs, hg, hl, hd⟩
    rw [Delete_active s t now revs l hg hl hd]
    exact ⟨rfl, rfl⟩
  · intro h
    rw [Delete_absent s t now h]
  · rintro ⟨revs, l, hg, hl, hd⟩
    rw [Delete_deleted s t now revs l hg hl hd]

/-- C16 as amended, on `sampleStore` (where "X" is ACTIVE), on the new store
and on `sampleDeletedStore`. -/
theorem delete_handler_status_witness :
    (isActive sampleStore "X" ∧ isAbsent NewStore "X" ∧ isDeleted sampleDeletedStore "X") ∧
    DeleteApplication sampleStore "X" 7 = (some StatusOK, (Store.Delete sampleStore "X" 7).2) ∧
    DeleteApplication NewStore "X" 7 = (some StatusNotFound, NewStore) ∧
    DeleteApplication sampleDeletedStore "X" 9 = (some StatusNotFound, sampleDeletedStore) :=
  ⟨⟨⟨sampleRev, [sampleRev], by decide, by decide, rfl⟩, rfl,
      ⟨[sampleRev, { sampleRev with DeleteTimeStamp := some 7, ResourceVersion := "1" }],
        { sampleRev with DeleteTimeStamp := some 7, ResourceVersion := "1" },
        by decide, by decide, by decide⟩⟩,
    ((delete_handler_status sampleStore "X" 7).1
      ⟨sampleRev, [sampleRev], by decide, by decide, rfl⟩).1,
    (delete_handler_status NewStore "X" 7).2.1 rfl,
    (delete_handler_status sampleDeletedStore "X" 9).2.2
      ⟨[sampleRev, { sampleRev with DeleteTimeStamp := some 7, ResourceVersion := "1" }],
        { sampleRev with DeleteTimeStamp := some 7, ResourceVersion := "1" },
        by decide, by decide, by decide⟩⟩

/-! ## C17: two concurrent Create calls for one title

Every `Store` method holds the store's mutex from its first statement to its
return, so two concurrent `Create` calls run one wholly before the other. -/

/-- Two `Create` calls for the same ABSENT title, run one after the other:
when both records pass validation and the first carries no deletion time, the
first succeeds and the second is rejected as already created. -/
theorem second_create_is_rejected (addrOk : String → Bool) (s : Store) (a b : Application)
    (t1 t2 : Time) (hab : isAbsent s a.Title) (ht : b.Title = a.Title)
    (ha : validateApplication addrOk a = none) (hb : validateApplication addrOk b = none)
    (had : a.DeleteTimeStamp = none) :
    (Store.Create addrOk s a t1).1 = Outcome.ok () ∧
    (Store.Create addrOk (Store.Create addrOk s a t1).2 b t2).1
      = Outcome.err (Err.hasBeenCreated a.Title) := by
  rw [Create_absent addrOk s a t1 ha hab]
  refine ⟨rfl, ?_⟩
  have hg : mapGet (Store.mk (mapSet s.db a.Title
      [{ a with ResourceVersion := Itoa 0, CreateTimeStamp := t1 }])).db b.Title
      = some [{ a with ResourceVersion := Itoa 0, CreateTimeStamp := t1 }] := by
    rw [ht]
    exact mapGet_mapSet_same _ _ _
  rw [Create_active addrOk _ b t2 _ _ hb hg rfl had, ht]

/-- C17, the code at two `Create` calls for the ABSENT title "X" of which the
first to take the store's mutex carries a deletion time: both records pass
validation, the call with `sampleDeletedApp` returns no error, and the call
with `sampleApp` that runs after it returns no error either, where one of the
two should fail with "has been created". The log then holds the revisions "0"
and "1". -/
theorem two_creates_both_succeed :
    isAbsent NewStore "X" ∧ sampleDeletedApp.Title = "X" ∧ sampleApp.Title = "X" ∧
    validateApplication anyAddress sampleDeletedApp = none ∧
    validateApplication anyAddress sampleApp = none ∧
    (Store.Create anyAddress NewStore sampleDeletedApp 5).1 = Outcome.ok () ∧
    (Store.Create anyAddress (Store.Create anyAddress NewStore sampleDeletedApp 5).2
      sampleApp 6).1 = Outcome.ok () ∧
    (Store.DumpKey (Store.Create anyAddress (Store.Create anyAddress NewStore
      sampleDeletedApp 5).2 sampleApp 6).2 "X").1 =
      Outcome.ok [{ sampleDeletedApp with ResourceVersion := "0", CreateTimeStamp := 5 },
                  { sampleApp with ResourceVersion := "1", CreateTimeStamp := 6 }] :=
  ⟨rfl, rfl, rfl, by decide, by decide, by decide, by decide, by decide⟩

/-! ## C19: forEachApplication -/

theorem forEachLoop_eq {σ ε : Type} (f : σ → Application → Option ε × σ × Application) :
    ∀ (dc : List (Except ε Application)) (st : σ) (accepted : List Application)
      (allErrs : List ε),
      forEachLoop f dc st accepted allErrs =
        (accepted ++ acceptedOf (callsOf f (recordsBeforeError dc) st).1,
          allErrs ++ (errorsOf (callsOf f (recordsBeforeError dc) st).1
            ++ (firstDecodeError dc).toList),
          (callsOf f (recordsBeforeError dc) st).2) := by
  intro dc
  induction dc with
  | nil =>
    intro st accepted allErrs
    simp [forEachLoop, recordsBeforeError, firstDecodeError, callsOf, acceptedOf, errorsOf]
  | cons d rest ih =>
    intro st accepted allErrs
    cases d with
    | error err =>
      simp [forEachLoop, recordsBeforeError, firstDecodeError, callsOf, acceptedOf, errorsOf]
    | ok app =>
      unfold forEachLoop
      rcases hf : f st app with ⟨r, st1, app1⟩
      cases r with
      | none =>
        simp only []
        rw [ih]
        simp [recordsBeforeError, firstDecodeError, callsOf, acceptedOf, errorsOf, hf]
      | some err =>
        simp only []
        rw [ih]
        simp [recordsBeforeError, firstDecodeError, callsOf, acceptedOf, errorsOf, hf]

theorem callsOf_length {σ ε : Type} (f : σ → Application → Option ε × σ × Application) :
    ∀ (l : List Application) (st : σ), (callsOf f l st).1.length = l.length := by
  intro l
  induction l with
  | nil => intro st; rfl
  | cons a rest ih =>
    intro st
    simp [callsOf, ih]

theorem callsOf_pure {σ ε : Type} (g : Application → Option ε) :
    ∀ (l : List Application) (st : σ),
      callsOf (fun (st : σ) app => (g app, st, app)) l st = (l.map (fun a => (g a, a)), st) := by
  intro l
  induction l with
  | nil => intro st; rfl
  | cons a rest ih =>
    intro st
    simp [callsOf, ih]

theorem acceptedOf_pure {ε : Type} (g : Application → Option ε) (l : List Application) :
    acceptedOf (l.map (fun a => (g a, a))) = l.filter (fun a => (g a).isNone) := by
  induction l with
  | nil => rfl
  | cons a rest ih =>
    unfold acceptedOf at *
    cases h : g a with
    | none => simp [h, ih]
    | some e => simp [h, ih]

theorem errorsOf_pure {ε : Type} (g : Application → Option ε) (l : List Application) :
    errorsOf (l.map (fun a => (g a, a))) = l.filterMap g := by
  unfold errorsOf
  rw [List.filterMap_map]
  rfl

theorem stream_split {ε : Type} (dc : List (Except ε Application)) :
    ∃ rest, dc = (recordsBeforeError dc).map Except.ok ++ rest ∧
      ((rest = [] ∧ firstDecodeError dc = none) ∨
        ∃ err after, rest = Except.error err :: after ∧ firstDecodeError dc = some err) := by
  induction dc with
  | nil => exact ⟨[], rfl, Or.inl ⟨rfl, rfl⟩⟩
  | cons d rest ih =>
    cases d with
    | error err => exact ⟨Except.error err :: rest, rfl, Or.inr ⟨err, rest, rfl, rfl⟩⟩
    | ok app =>
      obtain ⟨r, hr, hcase⟩ := ih
      refine ⟨r, ?_, ?_⟩
      · show Except.ok app :: rest
          = Except.ok app :: ((recordsBeforeError rest).map Except.ok ++ r)
        rw [← hr]
      · exact hcase

/-- C19. With the decoder a finite stream of records and decode errors,
`forEachApplication` calls `f` once on every record before the first decode
error, in stream order, each call in the state the previous one left, and on
no record after it (`callsOf` on `recordsBeforeError`). The accepted list is
the records of the calls on which `f` returned no error, in order; the error
list is the errors `f` returned, in order, followed by the decode error if
there is one. The stream is those records followed by nothing or by the first
decode error and what comes after it. For an `f` given by a function `g` of
the record alone, the accepted list is the records before the first decode
error that `g` accepts. -/
theorem forEachApplication_isolates {σ ε : Type} (dc : List (Except ε Application))
    (f : σ → Application → Option ε × σ × Application) (st : σ) :
    forEachApplication dc f st =
      (acceptedOf (callsOf f (recordsBeforeError dc) st).1,
        errorsOf (callsOf f (recordsBeforeError dc) st).1 ++ (firstDecodeError dc).toList,
        (callsOf f (recordsBeforeError dc) st).2) ∧
    (callsOf f (recordsBeforeError dc) st).1.length = (recordsBeforeError dc).length ∧
    (∃ rest, dc = (recordsBeforeError dc).map Except.ok ++ rest ∧
      ((rest = [] ∧ firstDecodeError dc = none) ∨
        ∃ err after, rest = Except.error err :: after ∧ firstDecodeError dc = some err)) ∧
    (∀ g : Application → Option ε,
      forEachApplication dc (fun (st : σ) app => (g app, st, app)) st =
        ((recordsBeforeError dc).filter (fun a => (g a).isNone),
          (recordsBeforeError dc).filterMap g ++ (firstDecodeError dc).toList, st)) := by
  refine ⟨?_, callsOf_length f _ st, stream_split dc, ?_⟩
  · unfold forEachApplication
    rw [forEachLoop_eq]
    simp
  · intro g
    unfold forEachApplication
    rw [forEachLoop_eq, callsOf_pure, acceptedOf_pure, errorsOf_pure]
    simp

/-! ## C20: the store after a call that returns an error -/

/-- Every error of `Create` and `Delete`, and every error of `Update` other
than the up-to-date one, leaves the store as it was. -/
theorem error_leaves_store (addrOk : String → Bool) (s : Store) :
    (∀ r now, (Store.Create addrOk s r now).1.isErr = true →
      (Store.Create addrOk s r now).2 = s) ∧
    (∀ k now, (Store.Delete s k now).1.isErr = true → (Store.Delete s k now).2 = s) ∧
    (∀ r, (Store.Update addrOk s r).1.isErr = true →
      (Store.Update addrOk s r).1 ≠ Outcome.err (Err.upToDate r.Title) →
      (Store.Update addrOk s r).2.1 = s) := by
  refine ⟨?_, ?_, ?_⟩
  · intro r now
    cases hv : validateApplication addrOk r with
    | some e => rw [Create_invalid addrOk s r now e hv]; intro _; rfl
    | none =>
      rcases key_state_cases s r.Title with ⟨h1, _, _⟩ | ⟨hg, _, _, _⟩ |
        ⟨revs, l, hg, hl, ⟨hd, _, _, _⟩ | ⟨hd, _, _, _⟩⟩
      · rw [Create_absent addrOk s r now hv h1]; intro h; cases h
      · rw [Create_empty addrOk s r now hv hg]; intro _; rfl
      · rw [Create_active addrOk s r now revs l hv hg hl hd]; intro _; rfl
      · rw [Create_deleted addrOk s r now revs l hv hg hl hd]; intro h; cases h
  · intro k now
    rcases key_state_cases s k with ⟨h1, _, _⟩ | ⟨hg, _, _, _⟩ |
      ⟨revs, l, hg, hl, ⟨hd, _, _, _⟩ | ⟨hd, _, _, _⟩⟩
    · rw [Delete_absent s k now h1]; intro _; rfl
    · rw [Delete_empty s k now hg]; intro _; rfl
    · rw [Delete_active s k now revs l hg hl hd]; intro h; cases h
    · rw [Delete_deleted s k now revs l hg hl hd]; intro _; rfl
  · intro r
    cases hv : validateApplication addrOk r with
    | some e => rw [Update_invalid addrOk s r e hv]; intro _ _; rfl
    | none =>
      rcases key_state_cases s r.Title with ⟨h1, _, _⟩ | ⟨hg, _, _, _⟩ |
        ⟨revs, l, hg, hl, ⟨hd, _, _, _⟩ | ⟨hd, _, _, _⟩⟩
      · rw [Update_absent addrOk s r hv h1]; intro _ _; rfl
      · rw [Update_empty addrOk s r hv hg]; intro _ _; rfl
      · cases he : (Equal r l).1 with
        | true =>
          rw [Update_equal addrOk s r revs l hv hg hl hd he]
          intro _ h
          exact absurd rfl h
        | false =>
          rw [Update_changed addrOk s r revs l hv hg hl hd he]
          intro h; cases h
      · rw [Update_deleted addrOk s r revs l hv hg hl hd]; intro _ _; rfl

/-- C20, the code at a no-op update: `Update(sampleApp)` on `sampleStore`,
which holds exactly the revision that `Create(sampleApp)` stored, returns the
up-to-date error, and the store is not what it was: the history of "X" read
bob, al before the call and reads al, bob after it. -/
theorem rejected_update_changes_store :
    (Store.Update anyAddress sampleStore sampleApp).1 = Outcome.err (Err.upToDate "X") ∧
    (Store.Update anyAddress sampleStore sampleApp).2.1 ≠ sampleStore ∧
    (Store.DumpKey sampleStore "X").1 = Outcome.ok [sampleRev] ∧
    sampleRev.Maintainers = [⟨"bob", "b@x.io"⟩, ⟨"al", "a@x.io"⟩] ∧
    (Store.DumpKey (Store.Update anyAddress sampleStore sampleApp).2.1 "X").1 =
      Outcome.ok [{ sampleRev with Maintainers := [⟨"al", "a@x.io"⟩, ⟨"bob", "b@x.io"⟩] }] := by
  decide

end SimpleApiserver
